import Mathlib

/-!
# Verification of `single-linked-list.h`

A shallow embedding of the C++ class template `SingleLinkedList<Type>` and of its
iterator `BasicIterator<ValueType>`.

The program manipulates raw `Node*` pointers, so the embedding threads an explicit
memory through every operation:

* the free store is a list of cells, `new` appends a cell (its index is the address of the
  node) and `delete` empties it, so an address is never handed out twice;
* list objects (`head_` and `size_`) live in a second table and are named by their index;
  a `Node*` is `nullptr`, the address of the `head_` member of a list object, or the
  address of a node of the free store;
* `size_t` arithmetic is arithmetic modulo `2 ^ 64`;
* an operation ends normally, by a `std::bad_alloc` thrown by `new`, or by a fault
  (failed `assert`, or undefined behaviour such as dereferencing `nullptr`).
-/

namespace CppSingleLinkedList

/-! ## Data model -/

/-- Number of values of the type `size_t`: `++size_` and `--size_` wrap modulo it. -/
def SIZE_MOD : Nat := 18446744073709551616

/-- A value of type `Node*`. -/
inductive NodePtr where
  /-- The null pointer. -/
  | nullptr : NodePtr
  /-- The address `&head_` of the sentinel embedded in list object `l`. -/
  | head (l : Nat) : NodePtr
  /-- The address of the node allocated by the `a`-th `new Node(...)`. -/
  | node (a : Nat) : NodePtr
  deriving DecidableEq, Repr

/-- The struct `Node`: `Type value{}; Node* next_node = nullptr;`. -/
structure Node (α : Type) where
  value : α
  next_node : NodePtr
  deriving DecidableEq, Repr

/-- The data members of a `SingleLinkedList<Type>` object: `Node head_; size_t size_;`. -/
structure SingleLinkedList (α : Type) where
  head_ : Node α
  size_ : Nat
  deriving DecidableEq, Repr

/-- The memory of the program.

* `lists`: the list objects in existence, oldest first (automatic storage, a stack);
* `heap`: the free store; cell `a` is `some n` while the node is live and `none` once it
  has been deleted;
* `budget`: how many further `new Node(...)` will succeed before `std::bad_alloc`. -/
structure Mem (α : Type) where
  lists : List (SingleLinkedList α)
  heap : List (Option (Node α))
  budget : Nat
  deriving DecidableEq, Repr

/-- Abnormal terminations that are not C++ exceptions. -/
inductive Fault where
  /-- An `assert(...)` evaluated to false. -/
  | assertion : Fault
  /-- Undefined behaviour: a null or dangling pointer was dereferenced or deleted. -/
  | undefined : Fault
  /-- The iteration bound of the embedding of a loop was exhausted. -/
  | fuel : Fault
  deriving DecidableEq, Repr

/-- The result of running an operation: normal return with the final memory and the returned
value, `std::bad_alloc` leaving the function with the memory at that point, or a fault. -/
inductive Outcome (α ρ : Type) where
  | ok (m : Mem α) (r : ρ) : Outcome α ρ
  | bad_alloc (m : Mem α) : Outcome α ρ
  | fault (f : Fault) : Outcome α ρ
  deriving DecidableEq, Repr

variable {α : Type}

/-! ## Memory primitives -/

/-- The live node at address `a` of the free store, if any. -/
def Mem.cell (m : Mem α) (a : Nat) : Option (Node α) :=
  (m.heap[a]?).join

/-- Reading `*p`; `none` is undefined behaviour (null or dangling pointer). -/
def Mem.read (m : Mem α) : NodePtr → Option (Node α)
  | .nullptr => none
  | .head l => (m.lists[l]?).map (fun L => L.head_)
  | .node a => m.cell a

/-- The assignment `p->next_node = q`; `none` is undefined behaviour. -/
def Mem.setNext (m : Mem α) (p q : NodePtr) : Option (Mem α) :=
  match p with
  | .nullptr => none
  | .head l =>
    match m.lists[l]? with
    | none => none
    | some L =>
      some { m with lists := m.lists.set l { L with head_ := { L.head_ with next_node := q } } }
  | .node a =>
    match m.cell a with
    | none => none
    | some n => some { m with heap := m.heap.set a (some { n with next_node := q }) }

/-- The expression `new Node(val, next)`: `none` when the allocation throws
`std::bad_alloc`, else the memory with the new node and its address. -/
def Mem.new_Node (m : Mem α) (val : α) (next : NodePtr) : Option (Mem α × Nat) :=
  match m.budget with
  | 0 => none
  | b + 1 => some ({ m with heap := m.heap ++ [some ⟨val, next⟩], budget := b }, m.heap.length)

/-- The statement `delete p`: a no-op on `nullptr`; `none` is undefined behaviour (the
pointer does not refer to a live node of the free store). -/
def Mem.delete (m : Mem α) : NodePtr → Option (Mem α)
  | .nullptr => some m
  | .head _ => none
  | .node a =>
    match m.cell a with
    | none => none
    | some _ => some { m with heap := m.heap.set a none }

/-- Overwrite the members of list object `l`. -/
def Mem.setList (m : Mem α) (l : Nat) (L : SingleLinkedList α) : Mem α :=
  { m with lists := m.lists.set l L }

/-- Number of live nodes of the free store. -/
def Mem.live (m : Mem α) : Nat :=
  (m.heap.filter Option.isSome).length

/-! ## `BasicIterator` -/

/-- The class `BasicIterator<ValueType>`: its only member is `Node* node_ = nullptr`.
`Iterator` and `ConstIterator` differ in the constness of the reference they give
out only, and share this embedding. -/
structure BasicIterator where
  node_ : NodePtr
  deriving DecidableEq, Repr

/-- Embeds `BasicIterator()`: default construction, `node_ = nullptr`. -/
def BasicIterator.default_ctor : BasicIterator := ⟨.nullptr⟩

/-- Embeds `operator==` of two iterators: `node_ == rhs.node_`. -/
def BasicIterator.eq (a b : BasicIterator) : Bool := decide (a.node_ = b.node_)

/-- Embeds `operator!=` of two iterators: `!(*this == rhs)`. -/
def BasicIterator.ne (a b : BasicIterator) : Bool := !(a.eq b)

/-- Embeds `operator++()`: `assert(node_ != nullptr); node_ = node_->next_node;`. -/
def BasicIterator.pre_increment (m : Mem α) (it : BasicIterator) : Except Fault BasicIterator :=
  if it.node_ = .nullptr then .error .assertion
  else
    match m.read it.node_ with
    | none => .error .undefined
    | some n => .ok ⟨n.next_node⟩

/-- Embeds `operator++(int)`: returns the old value and the advanced iterator, in this order. -/
def BasicIterator.post_increment (m : Mem α) (it : BasicIterator) :
    Except Fault (BasicIterator × BasicIterator) :=
  let old_value := it
  match it.pre_increment m with
  | .error f => .error f
  | .ok it1 => .ok (old_value, it1)

/-- Embeds `operator*()`: `assert(node_ != nullptr); return node_->value;`. -/
def BasicIterator.deref (m : Mem α) (it : BasicIterator) : Except Fault α :=
  if it.node_ = .nullptr then .error .assertion
  else
    match m.read it.node_ with
    | none => .error .undefined
    | some n => .ok n.value

/-! ## `SingleLinkedList`: queries -/

/-- Embeds `begin()` / `cbegin()`: `Iterator(head_.next_node)`. -/
def begin (m : Mem α) (this : Nat) : Option BasicIterator :=
  (m.lists[this]?).map (fun L => ⟨L.head_.next_node⟩)

/-- Embeds `end()` / `cend()`: `Iterator(nullptr)`. -/
def end_ : BasicIterator := ⟨.nullptr⟩

/-- Embeds `before_begin()` / `cbefore_begin()`: `Iterator(&head_)`. -/
def before_begin (this : Nat) : BasicIterator := ⟨.head this⟩

/-- Embeds `GetSize()`: `size_`. -/
def GetSize (m : Mem α) (this : Nat) : Option Nat :=
  (m.lists[this]?).map (fun L => L.size_)

/-- Embeds `IsEmpty()`: `size_ == 0`. -/
def IsEmpty (m : Mem α) (this : Nat) : Option Bool :=
  (m.lists[this]?).map (fun L => decide (L.size_ = 0))

/-- The loop `for (it = first; it != end(); ++it) out.push_back(*it);`, run at most
`fuel` times. -/
def iterate (m : Mem α) : Nat → BasicIterator → Except Fault (List α)
  | 0, it => if it.ne end_ then .error .fuel else .ok []
  | fuel + 1, it =>
    if it.ne end_ then
      match it.deref m with
      | .error f => .error f
      | .ok v =>
        match it.pre_increment m with
        | .error f => .error f
        | .ok it1 =>
          match iterate m fuel it1 with
          | .error f => .error f
          | .ok vs => .ok (v :: vs)
    else .ok []

/-- Front-to-back iteration of list `this` from `begin()` to `end()`. A chain of
distinct live nodes has at most `heap.length` nodes, which bounds the loop. -/
def elements (m : Mem α) (this : Nat) : Except Fault (List α) :=
  match begin m this with
  | none => .error .undefined
  | some it => iterate m m.heap.length it

/-! ## `SingleLinkedList`: mutating operations -/

/-- Embeds `PushFront(value)`: `head_.next_node = new Node(value, head_.next_node); ++size_;`. -/
def PushFront (m : Mem α) (this : Nat) (value : α) : Outcome α Unit :=
  match m.lists[this]? with
  | none => .fault .undefined
  | some L =>
    match m.new_Node value L.head_.next_node with
    | none => .bad_alloc m
    | some (m1, a) =>
      .ok (m1.setList this
        { head_ := { L.head_ with next_node := .node a },
          size_ := (L.size_ + 1) % SIZE_MOD }) ()

/-- Embeds `PopFront()`: returns at once when `IsEmpty()`; otherwise
`head_.next_node = head_.next_node->next_node; delete head_next_ptr; --size_;`. -/
def PopFront (m : Mem α) (this : Nat) : Outcome α Unit :=
  match m.lists[this]? with
  | none => .fault .undefined
  | some L =>
    if L.size_ = 0 then .ok m ()
    else
      let head_next_ptr := L.head_.next_node
      match m.read L.head_.next_node with
      | none => .fault .undefined
      | some n =>
        let m1 := m.setList this { L with head_ := { L.head_ with next_node := n.next_node } }
        match m1.delete head_next_ptr with
        | none => .fault .undefined
        | some m2 =>
          match m2.lists[this]? with
          | none => .fault .undefined
          | some L2 =>
            .ok (m2.setList this { L2 with size_ := (L2.size_ + SIZE_MOD - 1) % SIZE_MOD }) ()

/-- Embeds `InsertAfter(pos, value)`:
`assert(pos.node_ != nullptr); Node* new_node = new Node(value, pos.node_->next_node);
pos.node_->next_node = new_node; ++size_; return Iterator(new_node);`. -/
def InsertAfter (m : Mem α) (this : Nat) (pos : BasicIterator) (value : α) :
    Outcome α BasicIterator :=
  if pos.node_ = .nullptr then .fault .assertion
  else
    match m.read pos.node_ with
    | none => .fault .undefined
    | some n =>
      match m.new_Node value n.next_node with
      | none => .bad_alloc m
      | some (m1, new_node) =>
        match m1.setNext pos.node_ (.node new_node) with
        | none => .fault .undefined
        | some m2 =>
          match m2.lists[this]? with
          | none => .fault .undefined
          | some L =>
            .ok (m2.setList this { L with size_ := (L.size_ + 1) % SIZE_MOD }) ⟨.node new_node⟩

/-- Embeds `EraseAfter(pos)`:
`assert(pos.node_ != nullptr); Node* node_to_delete = pos.node_->next_node;
pos.node_->next_node = (pos.node_->next_node)->next_node; delete node_to_delete;
--size_; return Iterator(pos.node_->next_node);`. -/
def EraseAfter (m : Mem α) (this : Nat) (pos : BasicIterator) : Outcome α BasicIterator :=
  if pos.node_ = .nullptr then .fault .assertion
  else
    match m.read pos.node_ with
    | none => .fault .undefined
    | some n =>
      let node_to_delete := n.next_node
      match m.read n.next_node with
      | none => .fault .undefined
      | some d =>
        match m.setNext pos.node_ d.next_node with
        | none => .fault .undefined
        | some m1 =>
          match m1.delete node_to_delete with
          | none => .fault .undefined
          | some m2 =>
            match m2.lists[this]? with
            | none => .fault .undefined
            | some L =>
              let m3 := m2.setList this { L with size_ := (L.size_ + SIZE_MOD - 1) % SIZE_MOD }
              match m3.read pos.node_ with
              | none => .fault .undefined
              | some n3 => .ok m3 ⟨n3.next_node⟩

/-- The loop of `Clear()`:
`while (head_.next_node) { front_node = head_.next_node;
head_.next_node = head_.next_node->next_node; delete front_node; }`, run at most `fuel`
times. -/
def Clear_loop (this : Nat) : Nat → Mem α → Outcome α Unit
  | 0, m =>
    match m.lists[this]? with
    | none => .fault .undefined
    | some L => if L.head_.next_node = .nullptr then .ok m () else .fault .fuel
  | fuel + 1, m =>
    match m.lists[this]? with
    | none => .fault .undefined
    | some L =>
      if L.head_.next_node = .nullptr then .ok m ()
      else
        let front_node := L.head_.next_node
        match m.read L.head_.next_node with
        | none => .fault .undefined
        | some n =>
          let m1 := m.setList this { L with head_ := { L.head_ with next_node := n.next_node } }
          match m1.delete front_node with
          | none => .fault .undefined
          | some m2 => Clear_loop this fuel m2

/-- Embeds `Clear()`: the loop above, then `size_ = 0`. Every iteration deletes a live node, so
the loop runs at most `heap.length` times. -/
def Clear (m : Mem α) (this : Nat) : Outcome α Unit :=
  match Clear_loop this m.heap.length m with
  | .ok m1 _ =>
    match m1.lists[this]? with
    | none => .fault .undefined
    | some L => .ok (m1.setList this { L with size_ := 0 }) ()
  | .bad_alloc m1 => .bad_alloc m1
  | .fault f => .fault f

/-- Embeds `swap(another)`: `std::swap(head_.next_node, another.head_.next_node);
std::swap(size_, another.size_);`. -/
def swap (m : Mem α) (this another : Nat) : Outcome α Unit :=
  match m.lists[this]?, m.lists[another]? with
  | some L, some R =>
    let m1 := m.setList this { L with head_ := { L.head_ with next_node := R.head_.next_node } }
    match m1.lists[another]? with
    | none => .fault .undefined
    | some R1 =>
      let m2 := m1.setList another
        { R1 with head_ := { R1.head_ with next_node := L.head_.next_node } }
      match m2.lists[this]?, m2.lists[another]? with
      | some L2, some R2 =>
        let m3 := m2.setList this { L2 with size_ := R2.size_ }
        match m3.lists[another]? with
        | none => .fault .undefined
        | some R3 => .ok (m3.setList another { R3 with size_ := L2.size_ }) ()
      | _, _ => .fault .undefined
  | _, _ => .fault .undefined

/-- The free function `swap(lhs, rhs)`: `lhs.swap(rhs)`. -/
def free_swap (m : Mem α) (lhs rhs : Nat) : Outcome α Unit :=
  swap m lhs rhs

/-! ## Construction, destruction, copy -/

/-- A list object as left by the default member initialisers: `head_` value-initialised
(`value{}`, `next_node = nullptr`) and `size_ = 0`. -/
def SingleLinkedList.fresh [Inhabited α] : SingleLinkedList α :=
  { head_ := { value := default, next_node := .nullptr }, size_ := 0 }

/-- Embeds `SingleLinkedList()`: a new list object comes into existence; its index is returned. -/
def default_ctor [Inhabited α] (m : Mem α) : Mem α × Nat :=
  ({ m with lists := m.lists ++ [SingleLinkedList.fresh] }, m.lists.length)

/-- Embeds `~SingleLinkedList()`: `Clear();`. -/
def destructor (m : Mem α) (this : Nat) : Outcome α Unit :=
  Clear m this

/-- End of the lifetime of the youngest list object: its destructor runs and its storage
goes away. -/
def destroy_last (m : Mem α) : Outcome α Unit :=
  match destructor m (m.lists.length - 1) with
  | .ok m1 _ => .ok { m1 with lists := m1.lists.dropLast } ()
  | .bad_alloc m1 => .bad_alloc m1
  | .fault f => .fault f

/-- The operations `Initialize` needs from its iterator type `T`: `it != end`, `*it`
and `++it`. -/
structure InputIt (α ι : Type) where
  ne : ι → ι → Bool
  deref : Mem α → ι → Except Fault α
  pre_increment : Mem α → ι → Except Fault ι

/-- Embeds `T = ConstIterator`: the iterators of a list. -/
def ConstIterator_ops : InputIt α BasicIterator :=
  { ne := BasicIterator.ne,
    deref := fun m it => it.deref m,
    pre_increment := fun m it => it.pre_increment m }

/-- Embeds `T = const Type*`: pointers into the array behind a `std::initializer_list`, as
indices into `values`; `begin()` is `0` and `end()` is `values.length`. -/
def initializer_list_ops (values : List α) : InputIt α Nat :=
  { ne := fun i j => decide (i ≠ j),
    deref := fun _ i => match values[i]? with
      | some v => .ok v
      | none => .error .undefined,
    pre_increment := fun _ i => .ok (i + 1) }

/-- The loop of `Initialize`:
`for (T it = begin; it != end; ++it) { copy.InsertAfter(copy_it, *it); ++copy_it; }`,
run at most `fuel` times. -/
def Initialize_loop {ι : Type} (T : InputIt α ι) (copy : Nat) (last : ι) :
    Nat → Mem α → ι → BasicIterator → Outcome α Unit
  | 0, m, it, _ => if T.ne it last then .fault .fuel else .ok m ()
  | fuel + 1, m, it, copy_it =>
    if T.ne it last then
      match T.deref m it with
      | .error f => .fault f
      | .ok v =>
        match InsertAfter m copy copy_it v with
        | .fault f => .fault f
        | .bad_alloc m1 => .bad_alloc m1
        | .ok m1 _ =>
          match copy_it.pre_increment m1 with
          | .error f => .fault f
          | .ok copy_it1 =>
            match T.pre_increment m1 it with
            | .error f => .fault f
            | .ok it1 => Initialize_loop T copy last fuel m1 it1 copy_it1
    else .ok m ()

/-- Embeds `Initialize(begin, end, size)`:
`SingleLinkedList copy; auto copy_it = copy.before_begin(); for (...) {...}
copy.size_ = size; swap(copy);`, after which the local `copy` is destroyed; it is also
destroyed when `InsertAfter` throws. Every iteration of the loop allocates a node, so the
loop runs at most `budget + 1` times. -/
def Initialize [Inhabited α] {ι : Type} (T : InputIt α ι) (m : Mem α) (this : Nat)
    (first last : ι) (size : Nat) : Outcome α Unit :=
  match default_ctor m with
  | (m0, copy) =>
    let copy_it := before_begin copy
    match Initialize_loop T copy last (m0.budget + 1) m0 first copy_it with
    | .fault f => .fault f
    | .bad_alloc m1 =>
      match destroy_last m1 with
      | .ok m2 _ => .bad_alloc m2
      | .bad_alloc m2 => .bad_alloc m2
      | .fault f => .fault f
    | .ok m1 _ =>
      match m1.lists[copy]? with
      | none => .fault .undefined
      | some C =>
        let m2 := m1.setList copy { C with size_ := size }
        match swap m2 this copy with
        | .fault f => .fault f
        | .bad_alloc m3 => .bad_alloc m3
        | .ok m3 _ => destroy_last m3

/-- Embeds `SingleLinkedList(std::initializer_list<Type> values)`:
`Initialize(values.begin(), values.end(), values.size());` on a new list object, whose
index is returned. When `Initialize` throws, the object never comes into existence. -/
def initializer_list_ctor [Inhabited α] (m : Mem α) (values : List α) : Outcome α Nat :=
  match default_ctor m with
  | (m0, this) =>
    match Initialize (initializer_list_ops values) m0 this 0 values.length
        (values.length % SIZE_MOD) with
    | .ok m1 _ => .ok m1 this
    | .bad_alloc m1 => .bad_alloc { m1 with lists := m1.lists.dropLast }
    | .fault f => .fault f

/-- Embeds `SingleLinkedList(const SingleLinkedList& another)`:
`assert(size_ == 0 && head_.next_node == nullptr);
Initialize(another.begin(), another.end(), another.size_);` on a new list object, whose
index is returned. -/
def copy_ctor [Inhabited α] (m : Mem α) (another : Nat) : Outcome α Nat :=
  match default_ctor m with
  | (m0, this) =>
    match m0.lists[this]?, m0.lists[another]? with
    | some L, some R =>
      if L.size_ = 0 ∧ L.head_.next_node = .nullptr then
        match Initialize ConstIterator_ops m0 this ⟨R.head_.next_node⟩ end_ R.size_ with
        | .ok m1 _ => .ok m1 this
        | .bad_alloc m1 => .bad_alloc { m1 with lists := m1.lists.dropLast }
        | .fault f => .fault f
      else .fault .assertion
    | _, _ => .fault .undefined

/-- Embeds `operator=(const SingleLinkedList& rhs)`:
`if (this == &rhs) return *this; Initialize(rhs.begin(), rhs.end(), rhs.size_);`. -/
def operator_assign [Inhabited α] (m : Mem α) (this rhs : Nat) : Outcome α Unit :=
  if this = rhs then .ok m ()
  else
    match m.lists[rhs]? with
    | none => .fault .undefined
    | some R => Initialize ConstIterator_ops m this ⟨R.head_.next_node⟩ end_ R.size_

/-! ## Comparison -/

/-- Embeds `std::equal(first1, last1, first2)` of the standard library:
`for (; first1 != last1; ++first1, ++first2) if (!(*first1 == *first2)) return false;
return true;`, run at most `fuel` times; `eq` is `operator==` of the element type. -/
def std_equal (eq : α → α → Bool) (m : Mem α) :
    Nat → BasicIterator → BasicIterator → BasicIterator → Except Fault Bool
  | 0, first1, last1, _ => if first1.ne last1 then .error .fuel else .ok true
  | fuel + 1, first1, last1, first2 =>
    if first1.ne last1 then
      match first1.deref m with
      | .error f => .error f
      | .ok a =>
        match first2.deref m with
        | .error f => .error f
        | .ok b =>
          if eq a b then
            match first1.pre_increment m with
            | .error f => .error f
            | .ok next1 =>
              match first2.pre_increment m with
              | .error f => .error f
              | .ok next2 => std_equal eq m fuel next1 last1 next2
          else .ok false
    else .ok true

/-- Embeds `operator==(lhs, rhs)`: `if (&lhs == &rhs) return true;
if (lhs.GetSize() != rhs.GetSize()) return false;
return std::equal(lhs.cbegin(), lhs.cend(), rhs.cbegin());`. -/
def operator_eq (eq : α → α → Bool) (m : Mem α) (lhs rhs : Nat) : Except Fault Bool :=
  if lhs = rhs then .ok true
  else
    match GetSize m lhs, GetSize m rhs with
    | some sl, some sr =>
      if sl ≠ sr then .ok false
      else
        match begin m lhs, begin m rhs with
        | some bl, some br => std_equal eq m m.heap.length bl end_ br
        | _, _ => .error .undefined
    | _, _ => .error .undefined

/-- Embeds `operator!=(lhs, rhs)`: `return !(lhs == rhs);`. -/
def operator_ne (eq : α → α → Bool) (m : Mem α) (lhs rhs : Nat) : Except Fault Bool :=
  match operator_eq eq m lhs rhs with
  | .error f => .error f
  | .ok b => .ok (!b)

/-- Embeds `std::lexicographical_compare(first1, last1, first2, last2)` of the standard
library:
`for (; first1 != last1 && first2 != last2; ++first1, ++first2) {
if (*first1 < *first2) return true; if (*first2 < *first1) return false; }
return first1 == last1 && first2 != last2;`, run at most `fuel` times; `lt` is `operator<`
of the element type. -/
def std_lexicographical_compare (lt : α → α → Bool) (m : Mem α) :
    Nat → BasicIterator → BasicIterator → BasicIterator → BasicIterator → Except Fault Bool
  | 0, first1, last1, first2, last2 =>
    if first1.ne last1 && first2.ne last2 then .error .fuel
    else .ok (first1.eq last1 && first2.ne last2)
  | fuel + 1, first1, last1, first2, last2 =>
    if first1.ne last1 && first2.ne last2 then
      match first1.deref m with
      | .error f => .error f
      | .ok a =>
        match first2.deref m with
        | .error f => .error f
        | .ok b =>
          if lt a b then .ok true
          else if lt b a then .ok false
          else
            match first1.pre_increment m with
            | .error f => .error f
            | .ok next1 =>
              match first2.pre_increment m with
              | .error f => .error f
              | .ok next2 => std_lexicographical_compare lt m fuel next1 last1 next2 last2
    else .ok (first1.eq last1 && first2.ne last2)

/-- Embeds `operator<(lhs, rhs)`:
`return std::lexicographical_compare(lhs.cbegin(), lhs.cend(), rhs.cbegin(), rhs.cend());`. -/
def operator_lt (lt : α → α → Bool) (m : Mem α) (lhs rhs : Nat) : Except Fault Bool :=
  match begin m lhs, begin m rhs with
  | some bl, some br => std_lexicographical_compare lt m m.heap.length bl end_ br end_
  | _, _ => .error .undefined

/-- Embeds `operator<=(lhs, rhs)`: `return !(rhs < lhs);`. -/
def operator_le (lt : α → α → Bool) (m : Mem α) (lhs rhs : Nat) : Except Fault Bool :=
  match operator_lt lt m rhs lhs with
  | .error f => .error f
  | .ok b => .ok (!b)

/-- Embeds `operator>(lhs, rhs)`: `return rhs < lhs;`. -/
def operator_gt (lt : α → α → Bool) (m : Mem α) (lhs rhs : Nat) : Except Fault Bool :=
  operator_lt lt m rhs lhs

/-- Embeds `operator>=(lhs, rhs)`: `return !(lhs < rhs);`. -/
def operator_ge (lt : α → α → Bool) (m : Mem α) (lhs rhs : Nat) : Except Fault Bool :=
  match operator_lt lt m lhs rhs with
  | .error f => .error f
  | .ok b => .ok (!b)

/-- The words of the specification for equality of two element sequences: the sizes match
and every corresponding pair of elements, in order, compares equal under `eq`. -/
def SizesMatchAndPairsEqual (eq : α → α → Bool) (xs ys : List α) : Prop :=
  xs.length = ys.length ∧
    ∀ (i : Nat) (a b : α), xs[i]? = some a → ys[i]? = some b → eq a b = true

/-- The words of the specification for lexicographic comparison of two element sequences:
`xs` is a proper prefix of `ys`, or at the first index where they differ the element of
`xs` is less than the element of `ys`. As in the standard library, two elements differ
when one of them is less than the other. -/
def LexLess (lt : α → α → Bool) (xs ys : List α) : Prop :=
  (xs.length < ys.length ∧
    ∀ (i : Nat) (a b : α), xs[i]? = some a → ys[i]? = some b →
      lt a b = false ∧ lt b a = false) ∨
  (∃ (i : Nat) (a b : α), xs[i]? = some a ∧ ys[i]? = some b ∧ lt a b = true ∧
    ∀ (j : Nat) (a1 b1 : α), j < i → xs[j]? = some a1 → ys[j]? = some b1 →
      lt a1 b1 = false ∧ lt b1 a1 = false)

/-- The lexicographic comparison of the specification read with "differ" as "are not the
same value": `xs` is a proper prefix of `ys`, or at the first index where the elements are
not the same the element of `xs` is less than the element of `ys`. -/
def LexLessNe (lt : α → α → Bool) (xs ys : List α) : Prop :=
  (xs.length < ys.length ∧
    ∀ (i : Nat) (a b : α), xs[i]? = some a → ys[i]? = some b → a = b) ∨
  (∃ (i : Nat) (a b : α), xs[i]? = some a ∧ ys[i]? = some b ∧ a ≠ b ∧ lt a b = true ∧
    ∀ (j : Nat) (a1 b1 : α), j < i → xs[j]? = some a1 → ys[j]? = some b1 → a1 = b1)

/-- The comparison `std::equal` computes on two element sequences of the same length, and
`false` when the lengths differ. -/
def equal_lists (eq : α → α → Bool) : List α → List α → Bool
  | [], [] => true
  | a :: xs, b :: ys => eq a b && equal_lists eq xs ys
  | _, _ => false

/-- The comparison `std::lexicographical_compare` computes on two element sequences. -/
def lex_lists (lt : α → α → Bool) : List α → List α → Bool
  | [], [] => false
  | [], _ :: _ => true
  | _ :: _, [] => false
  | a :: xs, b :: ys => if lt a b then true else if lt b a then false else lex_lists lt xs ys

/-! ## Representation of a list -/

/-- Predicate `Seg m p ns q`: starting at pointer `p` and following `next_node`, one visits exactly
the live nodes `ns` of the free store (address and value of each, in order) and the
`next_node` of the last one is `q` (`p = q` when `ns` is empty). -/
def Seg (m : Mem α) : NodePtr → List (Nat × α) → NodePtr → Prop
  | p, [], q => p = q
  | p, c :: ns, q => p = .node c.1 ∧ ∃ nx, m.cell c.1 = some ⟨c.2, nx⟩ ∧ Seg m nx ns q

/-- Predicate `IsList m this ns`: list object `this` exists, the chain that starts at its
`head_.next_node` consists of the nodes `ns` and ends at `nullptr`, and `size_` (a `size_t`) is
the number of these nodes. -/
def IsList (m : Mem α) (this : Nat) (ns : List (Nat × α)) : Prop :=
  ∃ L, m.lists[this]? = some L ∧ Seg m L.head_.next_node ns .nullptr ∧
    L.size_ = ns.length ∧ ns.length < SIZE_MOD

/-- Whether `Seg m p ns q` holds can be computed by walking the chain. -/
instance Seg.instDecidable [DecidableEq α] (m : Mem α) :
    ∀ (p : NodePtr) (ns : List (Nat × α)) (q : NodePtr), Decidable (Seg m p ns q)
  | p, [], q => inferInstanceAs (Decidable (p = q))
  | p, c :: ns, q =>
    if hp : p = .node c.1 then
      match hc : m.cell c.1 with
      | none => isFalse (fun h => by
          obtain ⟨_, nx, hcell, _⟩ := h
          rw [hc] at hcell
          exact absurd hcell (by simp))
      | some n =>
        if hv : n.value = c.2 then
          match Seg.instDecidable m n.next_node ns q with
          | isTrue hs => isTrue ⟨hp, n.next_node, by rw [hc, ← hv], hs⟩
          | isFalse hs => isFalse (fun h => by
              obtain ⟨_, nx, hcell, hrest⟩ := h
              rw [hc] at hcell
              have hn := Option.some.inj hcell
              rw [hn] at hs
              exact hs hrest)
        else isFalse (fun h => by
          obtain ⟨_, nx, hcell, _⟩ := h
          rw [hc] at hcell
          have hn := Option.some.inj hcell
          rw [hn] at hv
          exact hv rfl)
    else isFalse (fun h => hp h.1)

/-- Whether `IsList m this ns` holds can be computed. -/
instance IsList.instDecidable [DecidableEq α] (m : Mem α) (this : Nat) (ns : List (Nat × α)) :
    Decidable (IsList m this ns) :=
  match hL : m.lists[this]? with
  | none => isFalse (fun h => by
      obtain ⟨L, hL1, _⟩ := h
      rw [hL] at hL1
      exact absurd hL1 (by simp))
  | some L =>
    if h : Seg m L.head_.next_node ns .nullptr ∧ L.size_ = ns.length ∧ ns.length < SIZE_MOD then
      isTrue ⟨L, hL, h⟩
    else isFalse (fun h1 => by
      obtain ⟨L1, hL1, hrest⟩ := h1
      rw [hL] at hL1
      rw [← Option.some.inj hL1] at hrest
      exact h hrest)

/-- The element sequence held by the nodes `ns`. -/
def values (ns : List (Nat × α)) : List α := ns.map Prod.snd

/-- The addresses of the nodes `ns`. -/
def addrs (ns : List (Nat × α)) : List Nat := ns.map Prod.fst

/-- The position handle that refers to the last node of `pre`, or to the before-begin
sentinel of list `this` when `pre` is empty. -/
def lastPos (this : Nat) (pre : List (Nat × α)) : BasicIterator :=
  match pre.getLast? with
  | none => before_begin this
  | some c => ⟨.node c.1⟩

/-- The position handle that refers to the first node of `post`, or `end()` when `post`
is empty. -/
def firstPos (post : List (Nat × α)) : BasicIterator :=
  match post with
  | [] => end_
  | c :: _ => ⟨.node c.1⟩

/-- Predicate `Frame m m1 this ns`: what a step from `m` to `m1` that works on list object `this`
and on the nodes `ns` leaves alone: no list object appears or disappears, every other
list object is unchanged, no node disappears from the free store, and every cell of `m`
other than those of `ns` is unchanged. -/
def Frame (m m1 : Mem α) (this : Nat) (ns : List (Nat × α)) : Prop :=
  m1.lists.length = m.lists.length ∧
  (∀ k, k ≠ this → m1.lists[k]? = m.lists[k]?) ∧
  m.heap.length ≤ m1.heap.length ∧
  (∀ a, a < m.heap.length → a ∉ addrs ns → m1.cell a = m.cell a)

/-- Predicate `Source T M last it vs`: the iterator range from `it` to `last` consists of
`vs.length` iterators, and in every memory that satisfies `M` dereferencing them gives the
values `vs` and incrementing each gives the next. -/
def Source {ι : Type} (T : InputIt α ι) (M : Mem α → Prop) (last : ι) : ι → List α → Prop
  | it, [] => T.ne it last = false
  | it, v :: vs =>
    T.ne it last = true ∧
    ∃ it1, (∀ m, M m → T.deref m it = .ok v ∧ T.pre_increment m it = .ok it1) ∧
      Source T M last it1 vs

/-- Predicate `IsPosition this ns pos`: the handle `pos` refers to the before-begin sentinel of list
object `this` or to one of its nodes `ns`. -/
def IsPosition (this : Nat) (ns : List (Nat × α)) (pos : BasicIterator) : Prop :=
  ∃ pre post, ns = pre ++ post ∧ pos = lastPos this pre

/-- Predicate `Independent m A nsA B nsB`: `A` and `B` are two lists of the memory `m`, with nodes
`nsA` and `nsB`, that share no node. -/
def Independent (m : Mem α) (A : Nat) (nsA : List (Nat × α)) (B : Nat)
    (nsB : List (Nat × α)) : Prop :=
  A ≠ B ∧ IsList m A nsA ∧ IsList m B nsB ∧ ∀ a, a ∈ addrs nsA → a ∉ addrs nsB

/-- Whether `Independent m A nsA B nsB` holds can be computed. -/
instance Independent.instDecidable [DecidableEq α] (m : Mem α) (A : Nat)
    (nsA : List (Nat × α)) (B : Nat) (nsB : List (Nat × α)) :
    Decidable (Independent m A nsA B nsB) := by
  unfold Independent
  exact inferInstance

/-- The mutating member functions of a list. -/
inductive Mutation (α : Type) where
  | PushFront (value : α) : Mutation α
  | PopFront : Mutation α
  | InsertAfter (pos : BasicIterator) (value : α) : Mutation α
  | EraseAfter (pos : BasicIterator) : Mutation α
  | Clear : Mutation α

/-- Forget the value an operation returns. -/
def Outcome.discard {ρ : Type} : Outcome α ρ → Outcome α Unit
  | .ok m _ => .ok m ()
  | .bad_alloc m => .bad_alloc m
  | .fault f => .fault f

/-- Call a mutating member function on list object `this`. -/
def mutate (m : Mem α) (this : Nat) : Mutation α → Outcome α Unit
  | .PushFront value => PushFront m this value
  | .PopFront => PopFront m this
  | .InsertAfter pos value => (InsertAfter m this pos value).discard
  | .EraseAfter pos => (EraseAfter m this pos).discard
  | .Clear => Clear m this

/-- The precondition of a mutating member function called on the list `this` with nodes
`ns`: positions are positions of this list, `EraseAfter` needs a node after its position;
and, for the call to return normally, `new` must not fail and `size_` must not overflow. -/
def Mutation.pre (m : Mem α) (this : Nat) (ns : List (Nat × α)) : Mutation α → Prop
  | .PushFront _ => ns.length + 1 < SIZE_MOD ∧ 0 < m.budget
  | .PopFront => True
  | .InsertAfter pos _ => IsPosition this ns pos ∧ ns.length + 1 < SIZE_MOD ∧ 0 < m.budget
  | .EraseAfter pos => ∃ pre c post, ns = pre ++ c :: post ∧ pos = lastPos this pre
  | .Clear => True

/-! ## The invariant of the data model and the reachable memories -/

/-- Predicate `Owned m own`: every list object `k` of the memory is a list whose nodes are
`own k`, and no node belongs to two list objects. -/
def Owned (m : Mem α) (own : Nat → List (Nat × α)) : Prop :=
  (∀ k, k < m.lists.length → IsList m k (own k)) ∧
  (∀ i j, i < m.lists.length → j < m.lists.length → i ≠ j →
    ∀ a, a ∈ addrs (own i) → a ∉ addrs (own j))

/-- Predicate `Invariant m`: the invariant of the data model. Every list object is a list
(its chain ends at `nullptr` and `size_` is the number of its nodes), no node belongs to two
lists, and the free store, grown by the allocations that can still succeed, holds fewer
nodes than `size_t` has values. -/
def Invariant (m : Mem α) : Prop :=
  m.heap.length + m.budget < SIZE_MOD ∧ ∃ own, Owned m own

/-- The memory in which a call ends, by a normal return or by `std::bad_alloc`; a fault
leaves none. -/
def Outcome.memory {ρ : Type} : Outcome α ρ → Option (Mem α)
  | .ok m _ => some m
  | .bad_alloc m => some m
  | .fault _ => none

/-- One call of a constructor or of a mutating operation on list objects that exist, with a
position of the list the call is made on. The call ends by a normal return or by
`std::bad_alloc`. -/
inductive Step [Inhabited α] : Mem α → Mem α → Prop where
  | default_constructed (m : Mem α) : Step m (default_ctor m).1
  | initializer_list_constructed (m m1 : Mem α) (S : List α) :
      (initializer_list_ctor m S).memory = some m1 → Step m m1
  | copy_constructed (m m1 : Mem α) (another : Nat) :
      another < m.lists.length → (copy_ctor m another).memory = some m1 → Step m m1
  | push_front (m m1 : Mem α) (this : Nat) (x : α) :
      this < m.lists.length → (PushFront m this x).memory = some m1 → Step m m1
  | pop_front (m m1 : Mem α) (this : Nat) :
      this < m.lists.length → (PopFront m this).memory = some m1 → Step m m1
  | insert_after (m m1 : Mem α) (this : Nat) (ns : List (Nat × α)) (pos : BasicIterator)
      (x : α) :
      IsList m this ns → IsPosition this ns pos →
      (InsertAfter m this pos x).memory = some m1 → Step m m1
  | erase_after (m m1 : Mem α) (this : Nat) (ns : List (Nat × α)) (pos : BasicIterator) :
      IsList m this ns → IsPosition this ns pos →
      (EraseAfter m this pos).memory = some m1 → Step m m1
  | clear (m m1 : Mem α) (this : Nat) :
      this < m.lists.length → (Clear m this).memory = some m1 → Step m m1
  | assigned (m m1 : Mem α) (this rhs : Nat) :
      this < m.lists.length → rhs < m.lists.length →
      (operator_assign m this rhs).memory = some m1 → Step m m1
  | swapped (m m1 : Mem α) (this another : Nat) :
      this < m.lists.length → another < m.lists.length →
      (swap m this another).memory = some m1 → Step m m1

/-- The memories reachable from the memory without list objects and nodes, in which
`budget` allocations can succeed, by any sequence of calls. -/
inductive Reachable [Inhabited α] (budget : Nat) : Mem α → Prop where
  | start : Reachable budget { lists := [], heap := [], budget := budget }
  | step (m m1 : Mem α) : Reachable budget m → Step m m1 → Reachable budget m1

/-! ## Example memories -/

/-- One list object, number 0, holding `[1, 2, 3]`, and room for ten more nodes. -/
def mem123 : Mem Nat :=
  { lists := [⟨⟨0, .node 0⟩, 3⟩],
    heap := [some ⟨1, .node 1⟩, some ⟨2, .node 2⟩, some ⟨3, .nullptr⟩],
    budget := 10 }

/-- The nodes of list 0 of `mem123`. -/
def ns123 : List (Nat × Nat) := [(0, 1), (1, 2), (2, 3)]

/-- The first two nodes of list 0 of `mem123`. -/
def ns12 : List (Nat × Nat) := [(0, 1), (1, 2)]

/-- The last node of list 0 of `mem123`. -/
def ns3 : List (Nat × Nat) := [(2, 3)]

/-- The last two nodes of list 0 of `mem123`. -/
def ns23 : List (Nat × Nat) := [(1, 2), (2, 3)]

/-- No node. -/
def ns_nil : List (Nat × Nat) := []

/-- Two list objects: number 0 holding `[1, 2, 3]` and number 1 holding `[7, 8]`. -/
def mem123_78 : Mem Nat :=
  { lists := [⟨⟨0, .node 0⟩, 3⟩, ⟨⟨0, .node 3⟩, 2⟩],
    heap := [some ⟨1, .node 1⟩, some ⟨2, .node 2⟩, some ⟨3, .nullptr⟩,
      some ⟨7, .node 4⟩, some ⟨8, .nullptr⟩],
    budget := 10 }

/-- The nodes of list 1 of `mem123_78`. -/
def ns78 : List (Nat × Nat) := [(3, 7), (4, 8)]

/-- No list object and no node yet, and room for ten nodes. -/
def mem_empty : Mem Nat := { lists := [], heap := [], budget := 10 }

/-- An element equality that is symmetric but not reflexive, as `==` is on floating-point
numbers: `none` plays the part of a NaN, which is not equal to itself. -/
def eq_nan : Option Nat → Option Nat → Bool
  | some x, some y => x == y
  | _, _ => false

/-- One list object, number 0, holding the single element `none`. -/
def mem_nan : Mem (Option Nat) :=
  { lists := [⟨⟨none, .node 0⟩, 1⟩],
    heap := [some ⟨none, .nullptr⟩],
    budget := 10 }

/-- The node of list 0 of `mem_nan`. -/
def ns_nan : List (Nat × Option Nat) := [(0, none)]

/-- Six list objects: number 0 holding `[1, 2]`, number 1 holding `[1, 2, 3]`, number 2
holding `[1, 2, 4]`, number 3 holding `[]`, number 4 holding `[1]`, number 5 holding `[]`. -/
def mem_cmp : Mem Nat :=
  { lists := [⟨⟨0, .node 0⟩, 2⟩, ⟨⟨0, .node 2⟩, 3⟩, ⟨⟨0, .node 5⟩, 3⟩, ⟨⟨0, .nullptr⟩, 0⟩,
      ⟨⟨0, .node 8⟩, 1⟩, ⟨⟨0, .nullptr⟩, 0⟩],
    heap := [some ⟨1, .node 1⟩, some ⟨2, .nullptr⟩,
      some ⟨1, .node 3⟩, some ⟨2, .node 4⟩, some ⟨3, .nullptr⟩,
      some ⟨1, .node 6⟩, some ⟨2, .node 7⟩, some ⟨4, .nullptr⟩,
      some ⟨1, .nullptr⟩],
    budget := 10 }

/-- The nodes of list 0 of `mem_cmp`. -/
def ns_cmp0 : List (Nat × Nat) := [(0, 1), (1, 2)]

/-- The nodes of list 1 of `mem_cmp`. -/
def ns_cmp1 : List (Nat × Nat) := [(2, 1), (3, 2), (4, 3)]

/-- The element equality `==` of the natural numbers. -/
def nat_eq (x y : Nat) : Bool := x == y

/-- The element ordering `<` of the natural numbers. -/
def nat_lt (x y : Nat) : Bool := decide (x < y)

/-- The memory `mem123_78` when no further allocation succeeds. -/
def mem123_78_full : Mem Nat := { mem123_78 with budget := 0 }

/-- The memory `mem123_78` when exactly one further allocation succeeds. -/
def mem123_78_one : Mem Nat := { mem123_78 with budget := 1 }

/-- The memory after `SingleLinkedList a{1, 2, 3};` in `mem_empty`. -/
def mem_run1 : Mem Nat :=
  { lists := [⟨⟨0, .node 0⟩, 3⟩],
    heap := [some ⟨1, .node 1⟩, some ⟨2, .node 2⟩, some ⟨3, .nullptr⟩],
    budget := 7 }

/-- The memory after `SingleLinkedList b(a);` in `mem_run1`. -/
def mem_run2 : Mem Nat :=
  { lists := [⟨⟨0, .node 0⟩, 3⟩, ⟨⟨0, .node 3⟩, 3⟩],
    heap := [some ⟨1, .node 1⟩, some ⟨2, .node 2⟩, some ⟨3, .nullptr⟩,
      some ⟨1, .node 4⟩, some ⟨2, .node 5⟩, some ⟨3, .nullptr⟩],
    budget := 4 }

/-- The memory after `b.PushFront(7);` in `mem_run2`. -/
def mem_run3 : Mem Nat :=
  { lists := [⟨⟨0, .node 0⟩, 3⟩, ⟨⟨0, .node 6⟩, 4⟩],
    heap := [some ⟨1, .node 1⟩, some ⟨2, .node 2⟩, some ⟨3, .nullptr⟩,
      some ⟨1, .node 4⟩, some ⟨2, .node 5⟩, some ⟨3, .nullptr⟩, some ⟨7, .node 3⟩],
    budget := 3 }

/-- The memory after `a.EraseAfter(a.begin());` in `mem_run3`. -/
def mem_run4 : Mem Nat :=
  { lists := [⟨⟨0, .node 0⟩, 2⟩, ⟨⟨0, .node 6⟩, 4⟩],
    heap := [some ⟨1, .node 2⟩, none, some ⟨3, .nullptr⟩,
      some ⟨1, .node 4⟩, some ⟨2, .node 5⟩, some ⟨3, .nullptr⟩, some ⟨7, .node 3⟩],
    budget := 3 }

/-- The memory after `a.swap(b);` in `mem_run4`: list 0 holds `[7, 1, 2, 3]` and list 1
holds `[1, 3]`. -/
def mem_run5 : Mem Nat :=
  { lists := [⟨⟨0, .node 6⟩, 4⟩, ⟨⟨0, .node 0⟩, 2⟩],
    heap := [some ⟨1, .node 2⟩, none, some ⟨3, .nullptr⟩,
      some ⟨1, .node 4⟩, some ⟨2, .node 5⟩, some ⟨3, .nullptr⟩, some ⟨7, .node 3⟩],
    budget := 3 }

/-! ## Lemmas on the memory -/

section Lemmas

theorem cell_lt {m : Mem α} {a : Nat} {n : Node α} (h : m.cell a = some n) :
    a < m.heap.length := by
  by_contra hlt
  have hnone : m.heap[a]? = none := List.getElem?_eq_none (Nat.le_of_not_lt hlt)
  simp [Mem.cell, hnone] at h

theorem cell_heap_set_ne (m : Mem α) (ls : List (SingleLinkedList α)) (bud : Nat)
    {a b : Nat} (v : Option (Node α)) (h : a ≠ b) :
    (Mem.mk ls (m.heap.set a v) bud).cell b = m.cell b := by
  simp [Mem.cell, List.getElem?_set_ne h]

theorem cell_heap_set_self (m : Mem α) (ls : List (SingleLinkedList α)) (bud : Nat)
    {a : Nat} (v : Option (Node α)) (h : a < m.heap.length) :
    (Mem.mk ls (m.heap.set a v) bud).cell a = v := by
  simp [Mem.cell, List.getElem?_set_self, h]

theorem cell_heap_append_lt (m : Mem α) (ls : List (SingleLinkedList α)) (bud : Nat)
    {a : Nat} (v : Option (Node α)) (h : a < m.heap.length) :
    (Mem.mk ls (m.heap ++ [v]) bud).cell a = m.cell a := by
  simp [Mem.cell, List.getElem?_append_left h]

theorem cell_heap_append_self (m : Mem α) (ls : List (SingleLinkedList α)) (bud : Nat)
    (v : Option (Node α)) :
    (Mem.mk ls (m.heap ++ [v]) bud).cell m.heap.length = v := by
  simp [Mem.cell]

/-- Frame rule for segments: a segment only depends on the cells of its own nodes. -/
theorem Seg_congr {m m1 : Mem α} {ns : List (Nat × α)} :
    ∀ {p q : NodePtr}, (∀ c ∈ ns, m1.cell c.1 = m.cell c.1) → Seg m p ns q → Seg m1 p ns q := by
  induction ns with
  | nil => intro p q _ h; exact h
  | cons c ns ih =>
    intro p q hc h
    obtain ⟨hp, nx, hcell, hrest⟩ := h
    refine ⟨hp, nx, ?_, ih (fun d hd => hc d (List.mem_cons_of_mem _ hd)) hrest⟩
    rw [hc c (List.mem_cons_self _ _)]; exact hcell

theorem Seg_append {m : Mem α} {xs ys : List (Nat × α)} :
    ∀ {p q : NodePtr}, Seg m p (xs ++ ys) q ↔ ∃ r, Seg m p xs r ∧ Seg m r ys q := by
  induction xs with
  | nil =>
    intro p q
    constructor
    · intro h; exact ⟨p, rfl, h⟩
    · rintro ⟨r, hr, h⟩
      have hpr : p = r := hr
      subst hpr; exact h
  | cons c xs ih =>
    intro p q
    constructor
    · rintro ⟨hp, nx, hcell, hrest⟩
      obtain ⟨r, h1, h2⟩ := ih.mp hrest
      exact ⟨r, ⟨hp, nx, hcell, h1⟩, h2⟩
    · rintro ⟨r, ⟨hp, nx, hcell, h1⟩, h2⟩
      exact ⟨hp, nx, hcell, ih.mpr ⟨r, h1, h2⟩⟩

theorem Seg_lt {m : Mem α} {ns : List (Nat × α)} :
    ∀ {p q : NodePtr}, Seg m p ns q → ∀ c ∈ ns, c.1 < m.heap.length := by
  induction ns with
  | nil => intro p q _ c hc; simp at hc
  | cons d ns ih =>
    intro p q h c hc
    obtain ⟨_, nx, hcell, hrest⟩ := h
    rcases List.mem_cons.mp hc with rfl | hmem
    · exact cell_lt hcell
    · exact ih hrest c hmem

/-- A null-terminated chain is determined by its first pointer. -/
theorem Seg_null_unique {m : Mem α} {ns : List (Nat × α)} :
    ∀ {p : NodePtr} {ns1 : List (Nat × α)},
      Seg m p ns .nullptr → Seg m p ns1 .nullptr → ns = ns1 := by
  induction ns with
  | nil =>
    intro p ns1 h h1
    have hp : p = .nullptr := h
    subst hp
    cases ns1 with
    | nil => rfl
    | cons d ns1 => exact absurd h1.1 (by simp)
  | cons c ns ih =>
    intro p ns1 h h1
    obtain ⟨hp, nx, hcell, hrest⟩ := h
    cases ns1 with
    | nil =>
      have hp1 : p = .nullptr := h1
      rw [hp1] at hp; exact absurd hp (by simp)
    | cons d ns1 =>
      obtain ⟨hp1, nx1, hcell1, hrest1⟩ := h1
      have hcd : c.1 = d.1 := by
        rw [hp] at hp1; exact NodePtr.node.inj hp1
      rw [← hcd, hcell] at hcell1
      have hnode := Option.some.inj hcell1
      have hv : c.2 = d.2 := congrArg Node.value hnode
      have hn : nx = nx1 := congrArg Node.next_node hnode
      subst hn
      have hpair : c = d := Prod.ext hcd hv
      rw [hpair, ih hrest hrest1]

/-- A null-terminated chain never visits an address twice: it is acyclic. -/
theorem Seg_null_nodup {m : Mem α} {ns : List (Nat × α)} :
    ∀ {p : NodePtr}, Seg m p ns .nullptr → (addrs ns).Nodup := by
  induction ns with
  | nil => intro p _; simp [addrs]
  | cons c ns ih =>
    intro p h
    obtain ⟨hp, nx, hcell, hrest⟩ := h
    have hnd : (addrs ns).Nodup := ih hrest
    simp only [addrs, List.map_cons, List.nodup_cons]
    refine ⟨?_, hnd⟩
    intro hmem
    obtain ⟨d, hd, hdc⟩ := List.mem_map.mp hmem
    obtain ⟨xs, ys, hsplit⟩ := List.append_of_mem hd
    rw [hsplit] at hrest
    obtain ⟨r, _, h2⟩ := Seg_append.mp hrest
    have hr := h2.1
    have hfull : Seg m (.node c.1) (c :: ns) .nullptr := by
      refine ⟨rfl, nx, hcell, ?_⟩
      rw [hsplit]; exact Seg_append.mpr ⟨r, by assumption, h2⟩
    rw [hr, hdc] at h2
    have heq := Seg_null_unique h2 hfull
    have hlen := congrArg List.length heq
    rw [hsplit] at hlen
    simp at hlen
    omega

/-- A null-terminated chain fits in the free store. -/
theorem Seg_null_length_le {m : Mem α} {ns : List (Nat × α)} {p : NodePtr}
    (h : Seg m p ns .nullptr) : ns.length ≤ m.heap.length := by
  have hnd := Seg_null_nodup h
  have hsub : addrs ns ⊆ List.range m.heap.length := by
    intro a ha
    obtain ⟨c, hc, rfl⟩ := List.mem_map.mp ha
    exact List.mem_range.mpr (Seg_lt h c hc)
  have := (List.subperm_of_subset hnd hsub).length_le
  simpa [addrs] using this

theorem iterate_of_Seg {m : Mem α} {ns : List (Nat × α)} :
    ∀ {p : NodePtr} {fuel : Nat}, Seg m p ns .nullptr → ns.length ≤ fuel →
      iterate m fuel ⟨p⟩ = .ok (values ns) := by
  induction ns with
  | nil =>
    intro p fuel h _
    have hp : p = .nullptr := h
    subst hp
    cases fuel <;> simp [iterate, BasicIterator.ne, BasicIterator.eq, end_, values]
  | cons c ns ih =>
    intro p fuel h hlen
    obtain ⟨hp, nx, hcell, hrest⟩ := h
    subst hp
    cases fuel with
    | zero => simp at hlen
    | succ fuel =>
      have hrec := ih hrest (by simpa using hlen)
      simp [iterate, BasicIterator.ne, BasicIterator.eq, end_, BasicIterator.deref,
        BasicIterator.pre_increment, Mem.read, hcell, hrec, values]

theorem elements_of_IsList {m : Mem α} {this : Nat} {ns : List (Nat × α)}
    (h : IsList m this ns) : elements m this = .ok (values ns) := by
  obtain ⟨L, hL, hseg, _, _⟩ := h
  simp [elements, begin, hL, iterate_of_Seg hseg (Seg_null_length_le hseg)]

theorem GetSize_of_IsList {m : Mem α} {this : Nat} {ns : List (Nat × α)}
    (h : IsList m this ns) : GetSize m this = some ns.length := by
  obtain ⟨L, hL, _, hsize, _⟩ := h
  simp [GetSize, hL, hsize]

theorem lists_lt {m : Mem α} {l : Nat} {L : SingleLinkedList α} (h : m.lists[l]? = some L) :
    l < m.lists.length := by
  by_contra hlt
  rw [List.getElem?_eq_none (Nat.le_of_not_lt hlt)] at h
  exact absurd h (by simp)

theorem setList_lists_self {m : Mem α} {l : Nat} (L : SingleLinkedList α)
    (h : l < m.lists.length) : (m.setList l L).lists[l]? = some L := by
  simp [Mem.setList, List.getElem?_set_self, h]

theorem setList_lists_ne {m : Mem α} {l k : Nat} (L : SingleLinkedList α) (h : l ≠ k) :
    (m.setList l L).lists[k]? = m.lists[k]? := by
  simp [Mem.setList, List.getElem?_set_ne h]

theorem Seg_singleton {m : Mem α} {p q : NodePtr} {c : Nat × α} :
    Seg m p [c] q ↔ p = .node c.1 ∧ m.cell c.1 = some ⟨c.2, q⟩ := by
  constructor
  · rintro ⟨hp, nx, hcell, hq⟩
    have hnx : nx = q := hq
    subst hnx; exact ⟨hp, hcell⟩
  · rintro ⟨hp, hcell⟩
    exact ⟨hp, q, hcell, rfl⟩

theorem lastPos_nil (this : Nat) : lastPos this ([] : List (Nat × α)) = before_begin this := rfl

theorem lastPos_concat (this : Nat) (pre : List (Nat × α)) (c : Nat × α) :
    lastPos this (pre ++ [c]) = ⟨.node c.1⟩ := by
  simp [lastPos]

/-- Reading the node a position of the list refers to: its successor is where the rest of
the chain starts. -/
theorem read_lastPos {m : Mem α} {this : Nat} {L : SingleLinkedList α} {pre : List (Nat × α)}
    {r : NodePtr} (hL : m.lists[this]? = some L) (hseg : Seg m L.head_.next_node pre r) :
    (lastPos this pre).node_ ≠ .nullptr ∧
    ∃ n, m.read (lastPos this pre).node_ = some n ∧ n.next_node = r := by
  rcases List.eq_nil_or_concat pre with rfl | ⟨pre1, c, hpre⟩
  · have hr : L.head_.next_node = r := hseg
    refine ⟨by simp [lastPos, before_begin], L.head_, ?_, hr⟩
    simp [lastPos, before_begin, Mem.read, hL]
  · rw [List.concat_eq_append] at hpre
    subst hpre
    obtain ⟨r1, _, h2⟩ := Seg_append.mp hseg
    obtain ⟨_, hcell⟩ := Seg_singleton.mp h2
    rw [lastPos_concat]
    exact ⟨by simp, _, hcell, rfl⟩

/-- The assignment `pos.node_->next_node = r1` at a position of the list redirects the
chain after that position and leaves the nodes before it in place. -/
theorem setNext_lastPos {m : Mem α} {this : Nat} {L : SingleLinkedList α}
    {pre : List (Nat × α)} {r : NodePtr} (r1 : NodePtr)
    (hL : m.lists[this]? = some L) (hseg : Seg m L.head_.next_node pre r)
    (hnd : (addrs pre).Nodup) :
    ∃ m1 L1, m.setNext (lastPos this pre).node_ r1 = some m1 ∧
      m1.lists[this]? = some L1 ∧ L1.size_ = L.size_ ∧ L1.head_.value = L.head_.value ∧
      Seg m1 L1.head_.next_node pre r1 ∧ Frame m m1 this pre ∧
      m1.heap.length = m.heap.length ∧ m1.budget = m.budget ∧
      (∀ a, a ∉ addrs pre → m1.cell a = m.cell a) := by
  have hlt := lists_lt hL
  rcases List.eq_nil_or_concat pre with rfl | ⟨pre1, c, hpre⟩
  · refine ⟨Mem.mk (m.lists.set this { L with head_ := { L.head_ with next_node := r1 } })
        m.heap m.budget,
      { L with head_ := { L.head_ with next_node := r1 } }, ?_, ?_, rfl, rfl, ?_, ?_,
      rfl, rfl, fun _ _ => rfl⟩
    · simp only [lastPos_nil, before_begin, Mem.setNext, hL]
    · simp [List.getElem?_set_self, hlt]
    · exact (rfl : r1 = r1)
    · refine ⟨by simp, fun k hk => ?_, le_refl _, fun _ _ _ => rfl⟩
      simp [List.getElem?_set_ne (Ne.symm hk)]
  · rw [List.concat_eq_append] at hpre
    subst hpre
    obtain ⟨r2, h1, h2⟩ := Seg_append.mp hseg
    obtain ⟨hr2, hcell⟩ := Seg_singleton.mp h2
    have hclt := cell_lt hcell
    have hnotin : c.1 ∉ addrs pre1 := by
      simp only [addrs, List.map_append, List.map_cons, List.map_nil] at hnd
      have := List.disjoint_of_nodup_append hnd
      intro hmem
      exact this hmem (by simp)
    have hframe : ∀ a, a ≠ c.1 →
        (Mem.mk m.lists (m.heap.set c.1 (some ⟨c.2, r1⟩)) m.budget).cell a = m.cell a :=
      fun a ha => cell_heap_set_ne m _ _ _ (Ne.symm ha)
    refine ⟨Mem.mk m.lists (m.heap.set c.1 (some ⟨c.2, r1⟩)) m.budget, L, ?_, hL, rfl, rfl,
      ?_, ?_, by simp, rfl, ?_⟩
    · simp only [lastPos_concat, Mem.setNext, hcell]
    · refine Seg_append.mpr ⟨r2, Seg_congr (fun d hd => hframe d.1 ?_) h1, ?_⟩
      · intro hdc
        exact hnotin (hdc ▸ List.mem_map_of_mem Prod.fst hd)
      · exact Seg_singleton.mpr ⟨hr2, cell_heap_set_self m _ _ _ hclt⟩
    · refine ⟨rfl, fun _ _ => rfl, by simp, fun a _ ha => hframe a ?_⟩
      intro hac
      exact ha (by simp [addrs, hac])
    · intro a ha
      refine hframe a ?_
      intro hac
      exact ha (by simp [addrs, hac])

theorem cell_setList (m : Mem α) (l : Nat) (L : SingleLinkedList α) (a : Nat) :
    (m.setList l L).cell a = m.cell a := rfl

theorem heap_setList (m : Mem α) (l : Nat) (L : SingleLinkedList α) :
    (m.setList l L).heap = m.heap := rfl

theorem budget_setList (m : Mem α) (l : Nat) (L : SingleLinkedList α) :
    (m.setList l L).budget = m.budget := rfl

theorem length_lists_setList (m : Mem α) (l : Nat) (L : SingleLinkedList α) :
    (m.setList l L).lists.length = m.lists.length := by
  simp [Mem.setList]

theorem Seg_setList {m : Mem α} {l : Nat} {L : SingleLinkedList α} {ns : List (Nat × α)}
    {p q : NodePtr} (h : Seg m p ns q) : Seg (m.setList l L) p ns q :=
  Seg_congr (fun c _ => cell_setList m l L c.1) h

theorem Seg_of_heap_eq {m m1 : Mem α} {ns : List (Nat × α)} {p q : NodePtr}
    (hheap : m1.heap = m.heap) (h : Seg m p ns q) : Seg m1 p ns q :=
  Seg_congr (fun c _ => by simp [Mem.cell, hheap]) h

theorem Seg_firstPos {m : Mem α} {p : NodePtr} {post : List (Nat × α)}
    (h : Seg m p post .nullptr) : p = (firstPos post).node_ := by
  cases post with
  | nil => exact h
  | cons c post => exact h.1

theorem Frame_refl (m : Mem α) (this : Nat) (ns : List (Nat × α)) : Frame m m this ns :=
  ⟨rfl, fun _ _ => rfl, le_refl _, fun _ _ _ => rfl⟩

theorem Frame_mono {m m1 : Mem α} {this : Nat} {ns ns1 : List (Nat × α)}
    (h : Frame m m1 this ns) (hsub : ∀ a, a ∈ addrs ns → a ∈ addrs ns1) :
    Frame m m1 this ns1 :=
  ⟨h.1, h.2.1, h.2.2.1, fun a ha hn => h.2.2.2 a ha (fun hmem => hn (hsub a hmem))⟩

theorem Frame_trans {m m1 m2 : Mem α} {this : Nat} {ns : List (Nat × α)}
    (h : Frame m m1 this ns) (h1 : Frame m1 m2 this ns) : Frame m m2 this ns := by
  obtain ⟨a1, a2, a3, a4⟩ := h
  obtain ⟨b1, b2, b3, b4⟩ := h1
  refine ⟨b1.trans a1, fun k hk => (b2 k hk).trans (a2 k hk), le_trans a3 b3, ?_⟩
  intro a ha hn
  rw [b4 a (lt_of_lt_of_le ha a3) hn, a4 a ha hn]

/-- A list that shares no list object and no node with the part of the memory a step works
on is still the same list afterwards. -/
theorem IsList_frame {m m1 : Mem α} {this k : Nat} {ns nsk : List (Nat × α)}
    (h : Frame m m1 this ns) (hk : k ≠ this) (hlist : IsList m k nsk)
    (hdisj : ∀ a, a ∈ addrs nsk → a ∉ addrs ns) : IsList m1 k nsk := by
  obtain ⟨K, hK, hseg, hsize⟩ := hlist
  refine ⟨K, (h.2.1 k hk).trans hK, Seg_congr (fun c hc => ?_) hseg, hsize⟩
  exact h.2.2.2 c.1 (Seg_lt hseg c hc) (hdisj c.1 (List.mem_map_of_mem Prod.fst hc))

theorem PushFront_ok {m : Mem α} {this : Nat} {ns : List (Nat × α)} (x : α)
    (h : IsList m this ns) (hsz : ns.length + 1 < SIZE_MOD) (hb : 0 < m.budget) :
    ∃ m1, PushFront m this x = .ok m1 () ∧ IsList m1 this ((m.heap.length, x) :: ns) ∧
      Frame m m1 this [] ∧ m1.heap.length = m.heap.length + 1 ∧
      m1.budget + 1 = m.budget := by
  obtain ⟨L, hL, hseg, hsize, _⟩ := h
  obtain ⟨b, hbud⟩ : ∃ b, m.budget = b + 1 := ⟨m.budget - 1, by omega⟩
  have hlt := lists_lt hL
  refine ⟨(Mem.mk m.lists (m.heap ++ [some ⟨x, L.head_.next_node⟩]) b).setList this
      { head_ := { L.head_ with next_node := .node m.heap.length },
        size_ := (L.size_ + 1) % SIZE_MOD }, ?_, ?_, ?_, ?_, ?_⟩
  · simp [PushFront, hL, Mem.new_Node, hbud]
  · refine ⟨_, setList_lists_self _ (by simpa using hlt), ⟨rfl, L.head_.next_node, ?_, ?_⟩, ?_⟩
    · exact cell_heap_append_self m _ _ _
    · refine Seg_congr (fun c hc => ?_) hseg
      exact cell_heap_append_lt m _ _ _ (Seg_lt hseg c hc)
    · simp only [List.length_cons, hsize]
      exact ⟨Nat.mod_eq_of_lt hsz, hsz⟩
  · refine ⟨by simp [Mem.setList], fun k hk => ?_, by simp [Mem.setList], fun a ha _ => ?_⟩
    · simp [Mem.setList, List.getElem?_set_ne (Ne.symm hk)]
    · exact cell_heap_append_lt m _ _ _ ha
  · simp [Mem.setList]
  · simp [Mem.setList, hbud]

/-- Effect of `InsertAfter` at a position of the list, on the level of the chain. -/
theorem InsertAfter_chain {m : Mem α} {this : Nat} {L : SingleLinkedList α}
    {pre post : List (Nat × α)} (x : α)
    (hL : m.lists[this]? = some L) (hseg : Seg m L.head_.next_node (pre ++ post) .nullptr)
    (hb : 0 < m.budget) :
    ∃ m1 L1, InsertAfter m this (lastPos this pre) x = .ok m1 ⟨.node m.heap.length⟩ ∧
      m1.lists[this]? = some L1 ∧ L1.size_ = (L.size_ + 1) % SIZE_MOD ∧
      L1.head_.value = L.head_.value ∧
      Seg m1 L1.head_.next_node (pre ++ (m.heap.length, x) :: post) .nullptr ∧
      Frame m m1 this pre ∧ m1.heap.length = m.heap.length + 1 ∧
      m1.budget + 1 = m.budget := by
  obtain ⟨b, hbud⟩ : ∃ b, m.budget = b + 1 := ⟨m.budget - 1, by omega⟩
  obtain ⟨r, hpre, hpost⟩ := Seg_append.mp hseg
  obtain ⟨hne, n, hread, hnr⟩ := read_lastPos hL hpre
  have hnd : (addrs (pre ++ post)).Nodup := Seg_null_nodup hseg
  have hndpre : (addrs pre).Nodup := by
    simp only [addrs, List.map_append] at hnd
    exact (List.nodup_append.mp hnd).1
  have hdisj : ∀ c ∈ post, c.1 ∉ addrs pre := by
    intro c hc hmem
    simp only [addrs, List.map_append] at hnd
    exact List.disjoint_of_nodup_append hnd hmem (List.mem_map_of_mem Prod.fst hc)
  -- the memory after `new Node(value, pos.node_->next_node)`
  let ma : Mem α := Mem.mk m.lists (m.heap ++ [some ⟨x, r⟩]) b
  have hma : ∀ a, a < m.heap.length → ma.cell a = m.cell a :=
    fun a ha => cell_heap_append_lt m _ _ _ ha
  have hpre_a : Seg ma L.head_.next_node pre r :=
    Seg_congr (fun c hc => hma c.1 (Seg_lt hpre c hc)) hpre
  obtain ⟨m2, L2, hset, hL2, hsz2, hval2, hseg2, hfr2, hlen2, hbud2, hcell2⟩ :=
    setNext_lastPos (m := ma) (.node m.heap.length) hL hpre_a hndpre
  have hnew : m.heap.length ∉ addrs pre := by
    intro hmem
    obtain ⟨c, hc, hceq⟩ := List.mem_map.mp hmem
    have := Seg_lt hpre c hc
    omega
  have hlt2 := lists_lt hL2
  refine ⟨m2.setList this { L2 with size_ := (L2.size_ + 1) % SIZE_MOD },
    { L2 with size_ := (L2.size_ + 1) % SIZE_MOD }, ?_, setList_lists_self _ hlt2, ?_, hval2,
    ?_, ?_, ?_, ?_⟩
  · simp only [InsertAfter, if_neg hne, hread, Mem.new_Node, hbud, hnr]
    simp only [ma] at hset
    simp only [hset, hL2]
  · simp only [hsz2]
  · refine Seg_append.mpr ⟨.node m.heap.length, Seg_setList hseg2, rfl, r, ?_, ?_⟩
    · rw [cell_setList, hcell2 _ hnew]
      exact cell_heap_append_self m _ _ _
    · refine Seg_setList (Seg_congr (fun c hc => ?_) hpost)
      rw [hcell2 _ (hdisj c hc)]
      exact hma c.1 (Seg_lt hpost c hc)
  · refine ⟨?_, fun k hk => ?_, ?_, fun a ha hn => ?_⟩
    · simp only [Mem.setList, List.length_set]
      exact hfr2.1
    · rw [setList_lists_ne _ (Ne.symm hk)]
      exact hfr2.2.1 k hk
    · rw [heap_setList, hlen2]; simp [ma]
    · rw [cell_setList, hcell2 a hn]
      exact hma a ha
  · rw [heap_setList, hlen2]; simp [ma]
  · rw [budget_setList, hbud2, hbud]

/-- Effect of `EraseAfter` at a position of the list that has a successor, on the level of the chain. -/
theorem EraseAfter_chain {m : Mem α} {this : Nat} {L : SingleLinkedList α}
    {pre post : List (Nat × α)} {c : Nat × α}
    (hL : m.lists[this]? = some L)
    (hseg : Seg m L.head_.next_node (pre ++ c :: post) .nullptr) :
    ∃ m1 L1, EraseAfter m this (lastPos this pre) = .ok m1 (firstPos post) ∧
      m1.lists[this]? = some L1 ∧ L1.size_ = (L.size_ + SIZE_MOD - 1) % SIZE_MOD ∧
      L1.head_.value = L.head_.value ∧
      Seg m1 L1.head_.next_node (pre ++ post) .nullptr ∧ m1.cell c.1 = none ∧
      Frame m m1 this (pre ++ [c]) ∧ m1.heap.length = m.heap.length ∧
      m1.budget = m.budget := by
  obtain ⟨r, hpre, hrest⟩ := Seg_append.mp hseg
  obtain ⟨hr, nx, hcell, hpost⟩ := hrest
  obtain ⟨hne, n, hread, hnr⟩ := read_lastPos hL hpre
  have hnd : (addrs (pre ++ c :: post)).Nodup := Seg_null_nodup hseg
  simp only [addrs, List.map_append, List.map_cons] at hnd
  have hndpre : (List.map Prod.fst pre).Nodup := (List.nodup_append.mp hnd).1
  have hdisj := List.disjoint_of_nodup_append hnd
  have hc_pre : c.1 ∉ addrs pre := fun hmem => hdisj hmem (by simp)
  have hpost_pre : ∀ d ∈ post, d.1 ∉ addrs pre := fun d hd hmem =>
    hdisj hmem (List.mem_cons_of_mem _ (List.mem_map_of_mem Prod.fst hd))
  have hpost_c : ∀ d ∈ post, d.1 ≠ c.1 := by
    intro d hd hdc
    have := (List.nodup_cons.mp (List.nodup_append.mp hnd).2.1).1
    exact this (hdc ▸ List.mem_map_of_mem Prod.fst hd)
  obtain ⟨m1, L1, hset, hL1, hsz1, hval1, hseg1, hfr1, hlen1, hbud1, hcell1⟩ :=
    setNext_lastPos nx hL hpre hndpre
  have hcell_c : m1.cell c.1 = some ⟨c.2, nx⟩ := by rw [hcell1 _ hc_pre]; exact hcell
  have hclt : c.1 < m1.heap.length := cell_lt hcell_c
  -- the memory after `delete node_to_delete`
  let md : Mem α := Mem.mk m1.lists (m1.heap.set c.1 none) m1.budget
  have hmd : ∀ a, a ≠ c.1 → md.cell a = m1.cell a :=
    fun a ha => cell_heap_set_ne m1 _ _ _ (Ne.symm ha)
  have hlt1 := lists_lt hL1
  let L3 : SingleLinkedList α := { L1 with size_ := (L1.size_ + SIZE_MOD - 1) % SIZE_MOD }
  have hL3 : (md.setList this L3).lists[this]? = some L3 := setList_lists_self _ hlt1
  have hseg3 : Seg (md.setList this L3) L3.head_.next_node pre nx := by
    refine Seg_setList (Seg_congr (fun d hd => ?_) hseg1)
    refine hmd d.1 (fun hdc => hc_pre ?_)
    exact hdc ▸ List.mem_map_of_mem Prod.fst hd
  obtain ⟨_, n3, hread3, hn3⟩ := read_lastPos hL3 hseg3
  refine ⟨md.setList this L3, L3, ?_, hL3, ?_, hval1, ?_, ?_, ?_, ?_, ?_⟩
  · have hdel : m1.delete (.node c.1) = some md := by
      simp only [Mem.delete, hcell_c, md]
    have hLd : md.lists[this]? = some L1 := hL1
    have hreadc : m.read (.node c.1) = some ⟨c.2, nx⟩ := hcell
    simp only [EraseAfter, if_neg hne, hread, hnr, hr, hreadc, hset, hdel, hLd]
    have hread3a : (md.setList this L3).read (lastPos this pre).node_ = some n3 := hread3
    simp only [L3] at hread3a
    simp only [hread3a, hn3, Seg_firstPos hpost, L3]
  · simp only [L3, hsz1]
  · refine Seg_append.mpr ⟨nx, hseg3, Seg_setList (Seg_congr (fun d hd => ?_) hpost)⟩
    rw [hmd d.1 (hpost_c d hd), hcell1 _ (hpost_pre d hd)]
  · rw [cell_setList]
    exact cell_heap_set_self m1 _ _ _ hclt
  · refine ⟨?_, fun k hk => ?_, ?_, fun a ha hn => ?_⟩
    · simp only [Mem.setList, List.length_set]
      exact hfr1.1
    · rw [setList_lists_ne _ (Ne.symm hk)]
      exact hfr1.2.1 k hk
    · rw [heap_setList]
      simp [md, hlen1]
    · rw [cell_setList]
      have hac : a ≠ c.1 := fun hac => hn (by simp [addrs, hac])
      have hapre : a ∉ addrs pre := fun hmem => hn (by
        simp only [addrs, List.map_append, List.mem_append]
        exact Or.inl hmem)
      rw [hmd a hac, hcell1 a hapre]
  · rw [heap_setList]
    simp [md, hlen1]
  · rw [budget_setList]
    exact hbud1

/-- Effect of `PopFront` on a list object whose chain is not empty and whose `size_` is not zero. -/
theorem PopFront_chain {m : Mem α} {this : Nat} {L : SingleLinkedList α}
    {ns : List (Nat × α)} {c : Nat × α}
    (hL : m.lists[this]? = some L) (hseg : Seg m L.head_.next_node (c :: ns) .nullptr)
    (hsz : L.size_ ≠ 0) :
    ∃ m1 L1, PopFront m this = .ok m1 () ∧
      m1.lists[this]? = some L1 ∧ L1.size_ = (L.size_ + SIZE_MOD - 1) % SIZE_MOD ∧
      L1.head_.value = L.head_.value ∧
      Seg m1 L1.head_.next_node ns .nullptr ∧ m1.cell c.1 = none ∧
      Frame m m1 this [c] ∧ m1.heap.length = m.heap.length ∧ m1.budget = m.budget := by
  obtain ⟨hp, nx, hcell, hrest⟩ := hseg
  have hnd : (addrs (c :: ns)).Nodup := Seg_null_nodup (p := L.head_.next_node)
    ⟨hp, nx, hcell, hrest⟩
  simp only [addrs, List.map_cons, List.nodup_cons] at hnd
  have hns_c : ∀ d ∈ ns, d.1 ≠ c.1 := fun d hd hdc =>
    hnd.1 (hdc ▸ List.mem_map_of_mem Prod.fst hd)
  have hlt := lists_lt hL
  have hclt := cell_lt hcell
  let L1 : SingleLinkedList α := { L with head_ := { L.head_ with next_node := nx } }
  let md : Mem α := Mem.mk (m.lists.set this L1) (m.heap.set c.1 none) m.budget
  let L2 : SingleLinkedList α := { L1 with size_ := (L1.size_ + SIZE_MOD - 1) % SIZE_MOD }
  have hmd : ∀ a, a ≠ c.1 → md.cell a = m.cell a :=
    fun a ha => cell_heap_set_ne m _ _ _ (Ne.symm ha)
  have hLd : md.lists[this]? = some L1 := by
    simp [md, List.getElem?_set_self, hlt]
  have hltd : this < md.lists.length := lists_lt hLd
  refine ⟨md.setList this L2, L2, ?_, setList_lists_self _ hltd, ?_, ?_, ?_, ?_, ?_, ?_, ?_⟩
  · have hdel : (m.setList this L1).delete (.node c.1) = some md := by
      have hc1 : (m.setList this L1).cell c.1 = some ⟨c.2, nx⟩ := hcell
      simp only [Mem.delete, hc1]
      rfl
    have hreadc : m.read (.node c.1) = some ⟨c.2, nx⟩ := hcell
    simp only [PopFront, hL, if_neg hsz, hp, hreadc]
    simp only [L1] at hdel hLd
    simp only [hdel, hLd, L2, L1]
  · simp only [L2, L1]
  · simp only [L2, L1]
  · refine Seg_setList (Seg_congr (fun d hd => ?_) hrest)
    exact hmd d.1 (hns_c d hd)
  · rw [cell_setList]
    exact cell_heap_set_self m _ _ _ hclt
  · refine ⟨?_, fun k hk => ?_, ?_, fun a _ hn => ?_⟩
    · rw [length_lists_setList]; simp [md]
    · rw [setList_lists_ne _ (Ne.symm hk)]
      simp [md, List.getElem?_set_ne (Ne.symm hk)]
    · rw [heap_setList]; simp [md]
    · rw [cell_setList]
      exact hmd a (fun hac => hn (by simp [addrs, hac]))
  · rw [heap_setList]; simp [md]
  · rw [budget_setList]

/-- The loop of `Clear` releases the nodes of the chain one by one, front to back. -/
theorem Clear_loop_chain {this : Nat} {ns : List (Nat × α)} :
    ∀ {m : Mem α} {L : SingleLinkedList α} {fuel : Nat},
      m.lists[this]? = some L → Seg m L.head_.next_node ns .nullptr → ns.length ≤ fuel →
      ∃ m1 L1, Clear_loop this fuel m = .ok m1 () ∧
        m1.lists[this]? = some L1 ∧ L1.head_.next_node = .nullptr ∧ L1.size_ = L.size_ ∧
        L1.head_.value = L.head_.value ∧ Frame m m1 this ns ∧
        (∀ c ∈ ns, m1.cell c.1 = none) ∧ m1.heap.length = m.heap.length ∧
        m1.budget = m.budget := by
  induction ns with
  | nil =>
    intro m L fuel hL hseg _
    have hnull : L.head_.next_node = .nullptr := hseg
    refine ⟨m, L, ?_, hL, hnull, rfl, rfl, Frame_refl _ _ _, fun c hc => by simp at hc, rfl, rfl⟩
    cases fuel <;> simp [Clear_loop, hL, hnull]
  | cons c ns ih =>
    intro m L fuel hL hseg hfuel
    obtain ⟨fuel1, rfl⟩ : ∃ f, fuel = f + 1 := ⟨fuel - 1, by simp at hfuel; omega⟩
    obtain ⟨hp, nx, hcell, hrest⟩ := hseg
    have hnd : (addrs (c :: ns)).Nodup := Seg_null_nodup (p := L.head_.next_node)
      ⟨hp, nx, hcell, hrest⟩
    simp only [addrs, List.map_cons, List.nodup_cons] at hnd
    have hns_c : ∀ d ∈ ns, d.1 ≠ c.1 := fun d hd hdc =>
      hnd.1 (hdc ▸ List.mem_map_of_mem Prod.fst hd)
    have hlt := lists_lt hL
    have hclt := cell_lt hcell
    let L1 : SingleLinkedList α := { L with head_ := { L.head_ with next_node := nx } }
    let md : Mem α := Mem.mk (m.lists.set this L1) (m.heap.set c.1 none) m.budget
    have hmd : ∀ a, a ≠ c.1 → md.cell a = m.cell a :=
      fun a ha => cell_heap_set_ne m _ _ _ (Ne.symm ha)
    have hLd : md.lists[this]? = some L1 := by
      simp [md, List.getElem?_set_self, hlt]
    have hsegd : Seg md L1.head_.next_node ns .nullptr :=
      Seg_congr (fun d hd => hmd d.1 (hns_c d hd)) hrest
    obtain ⟨m2, L2, hrun, hL2, hnull2, hsz2, hval2, hfr2, hgone2, hlen2, hbud2⟩ :=
      ih hLd hsegd (show ns.length ≤ fuel1 by simpa using hfuel)
    refine ⟨m2, L2, ?_, hL2, hnull2, hsz2, hval2, ?_, ?_, ?_, ?_⟩
    · have hdel : (m.setList this L1).delete (.node c.1) = some md := by
        have hc1 : (m.setList this L1).cell c.1 = some ⟨c.2, nx⟩ := hcell
        simp only [Mem.delete, hc1]
        rfl
      have hreadc : m.read (.node c.1) = some ⟨c.2, nx⟩ := hcell
      have hne : ¬ (NodePtr.node c.1 = NodePtr.nullptr) := by simp
      simp only [L1] at hdel
      simp only [Clear_loop, hL, hp, if_neg hne, hreadc, hdel]
      exact hrun
    · obtain ⟨b1, b2, b3, b4⟩ := hfr2
      refine ⟨b1.trans (by simp [md]), fun k hk => ?_, ?_, fun a ha hn => ?_⟩
      · rw [b2 k hk]
        simp [md, List.getElem?_set_ne (Ne.symm hk)]
      · refine le_trans ?_ b3
        simp [md]
      · have hac : a ≠ c.1 := fun hac => hn (by simp [addrs, hac])
        have hans : a ∉ addrs ns := fun hmem => hn (by
          simp only [addrs, List.map_cons, List.mem_cons]
          exact Or.inr hmem)
        rw [b4 a (by simpa [md] using ha) hans, hmd a hac]
    · intro d hd
      rcases List.mem_cons.mp hd with rfl | hmem
      · rw [hfr2.2.2.2 d.1 (by simpa [md] using hclt) hnd.1]
        exact cell_heap_set_self m _ _ _ hclt
      · exact hgone2 d hmem
    · rw [hlen2]; simp [md]
    · rw [hbud2]

/-- Effect of `Clear` on a list object whose chain is `ns`, whatever its `size_`: the nodes are released
and the list object is left with no successor of the sentinel and `size_ = 0`. -/
theorem Clear_chain {m : Mem α} {this : Nat} {L : SingleLinkedList α} {ns : List (Nat × α)}
    (hL : m.lists[this]? = some L) (hseg : Seg m L.head_.next_node ns .nullptr) :
    ∃ m1, Clear m this = .ok m1 () ∧
      m1.lists[this]? = some ⟨⟨L.head_.value, .nullptr⟩, 0⟩ ∧ Frame m m1 this ns ∧
      (∀ c ∈ ns, m1.cell c.1 = none) ∧ m1.heap.length = m.heap.length ∧
      m1.budget = m.budget := by
  obtain ⟨m1, L1, hrun, hL1, hnull1, _, hval1, hfr1, hgone1, hlen1, hbud1⟩ :=
    Clear_loop_chain hL hseg (Seg_null_length_le hseg)
  have hlt1 := lists_lt hL1
  refine ⟨m1.setList this { L1 with size_ := 0 }, ?_, ?_, ?_, ?_, ?_, ?_⟩
  · simp only [Clear, hrun, hL1]
  · rw [setList_lists_self _ hlt1]
    cases L1 with
    | mk h1 s1 =>
      cases h1 with
      | mk v1 n1 =>
        simp only at hnull1 hval1
        simp [hnull1, hval1]
  · obtain ⟨b1, b2, b3, b4⟩ := hfr1
    refine ⟨by rw [length_lists_setList]; exact b1, fun k hk => ?_, b3, b4⟩
    rw [setList_lists_ne _ (Ne.symm hk)]
    exact b2 k hk
  · exact hgone1
  · exact hlen1
  · exact hbud1

/-- Effect of `swap`: it exchanges the successor of the sentinel and `size_` of two list objects and
touches nothing else. -/
theorem swap_lists {m : Mem α} {this another : Nat} {L R : SingleLinkedList α}
    (hL : m.lists[this]? = some L) (hR : m.lists[another]? = some R) :
    ∃ m1, swap m this another = .ok m1 () ∧ m1.heap = m.heap ∧ m1.budget = m.budget ∧
      m1.lists.length = m.lists.length ∧
      m1.lists[this]? = some ⟨⟨L.head_.value, R.head_.next_node⟩, R.size_⟩ ∧
      m1.lists[another]? = some ⟨⟨R.head_.value, L.head_.next_node⟩, L.size_⟩ ∧
      (∀ k, k ≠ this → k ≠ another → m1.lists[k]? = m.lists[k]?) := by
  have hlt := lists_lt hL
  have hlt1 := lists_lt hR
  refine ⟨Mem.mk ((m.lists.set this ⟨⟨L.head_.value, R.head_.next_node⟩, R.size_⟩).set another
      ⟨⟨R.head_.value, L.head_.next_node⟩, L.size_⟩) m.heap m.budget, ?_, rfl, rfl, ?_, ?_, ?_, ?_⟩
  · by_cases hEq : this = another
    · subst hEq
      have hLR : L = R := Option.some.inj (hL.symm.trans hR)
      subst hLR
      simp [swap, hL, Mem.setList, List.getElem?_set_self, hlt, List.set_set]
    · have hne : another ≠ this := Ne.symm hEq
      simp [swap, hL, hR, Mem.setList, List.getElem?_set_self, hlt, hlt1,
        List.getElem?_set_ne hEq, List.getElem?_set_ne hne, List.set_set]
      rw [List.set_comm _ _ _ hne, List.set_set, List.set_set]
  · simp
  · by_cases hEq : this = another
    · subst hEq
      have hLR : L = R := Option.some.inj (hL.symm.trans hR)
      subst hLR
      simp [List.getElem?_set_self, hlt]
    · have hne : another ≠ this := Ne.symm hEq
      simp [List.getElem?_set_self, hlt, List.getElem?_set_ne hne]
  · simp [List.getElem?_set_self, hlt1]
  · intro k hk hk1
    simp [List.getElem?_set_ne (Ne.symm hk), List.getElem?_set_ne (Ne.symm hk1)]

/-- The loop of `Initialize` appends one new node per value of the source range to the
chain of `copy`, in order. `m0` is the memory in which the loop starts. -/
theorem Initialize_loop_chain {ι : Type} (T : InputIt α ι) (copy : Nat) (last : ι)
    (m0 : Mem α) (M : Mem α → Prop) (hM : ∀ m, Frame m0 m copy [] → M m) :
    ∀ (vs : List α) (it : ι) (built : List (Nat × α)) (m : Mem α) (C : SingleLinkedList α)
      (fuel : Nat),
      Source T M last it vs → Frame m0 m copy [] → (∀ c ∈ built, m0.heap.length ≤ c.1) →
      m.lists[copy]? = some C → Seg m C.head_.next_node built .nullptr →
      vs.length ≤ m.budget → vs.length ≤ fuel →
      ∃ m1 C1 new, Initialize_loop T copy last fuel m it (lastPos copy built) = .ok m1 () ∧
        Frame m0 m1 copy [] ∧ m1.lists[copy]? = some C1 ∧
        C1.head_.value = C.head_.value ∧
        Seg m1 C1.head_.next_node (built ++ new) .nullptr ∧ values new = vs ∧
        (∀ c ∈ new, m.heap.length ≤ c.1) ∧ m1.budget + vs.length = m.budget ∧
        m1.heap.length = m.heap.length + vs.length := by
  intro vs
  induction vs with
  | nil =>
    intro it built m C fuel hsrc hfr _ hC hseg _ _
    have hne : T.ne it last = false := hsrc
    refine ⟨m, C, [], ?_, hfr, hC, rfl, by simpa using hseg, rfl, by simp, by simp, by simp⟩
    cases fuel <;> simp [Initialize_loop, hne]
  | cons v vs ih =>
    intro it built m C fuel hsrc hfr hbuilt hC hseg hbud hfuel
    obtain ⟨fuel1, rfl⟩ : ∃ f, fuel = f + 1 := ⟨fuel - 1, by simp at hfuel; omega⟩
    obtain ⟨hne, it1, hstep, hsrc1⟩ := hsrc
    have hseg0 : Seg m C.head_.next_node (built ++ []) .nullptr := by simpa using hseg
    obtain ⟨m1, C1, hins, hC1, _, hval1, hseg1, hfr1, hlen1, hbud1⟩ :=
      InsertAfter_chain v hC hseg0 (by simp at hbud; omega)
    -- the memory after `InsertAfter` still extends `m0`
    have hfr01 : Frame m0 m1 copy [] := by
      obtain ⟨a1, a2, a3, a4⟩ := hfr
      obtain ⟨b1, b2, b3, b4⟩ := hfr1
      refine ⟨b1.trans a1, fun k hk => (b2 k hk).trans (a2 k hk), le_trans a3 b3, ?_⟩
      intro a ha hn
      have hnb : a ∉ addrs built := by
        intro hmem
        obtain ⟨c, hc, hca⟩ := List.mem_map.mp hmem
        have := hbuilt c hc
        omega
      rw [b4 a (lt_of_lt_of_le ha a3) hnb, a4 a ha hn]
    obtain ⟨r, hpre1, hlast1⟩ := Seg_append.mp hseg1
    obtain ⟨hr, _⟩ := Seg_singleton.mp hlast1
    obtain ⟨hnn, n, hread, hnr⟩ := read_lastPos hC1 hpre1
    have hinc : (lastPos copy built).pre_increment m1 = .ok ⟨.node m.heap.length⟩ := by
      simp only [BasicIterator.pre_increment, if_neg hnn, hread, hnr, hr]
    have hstep0 := hstep m (hM m hfr)
    have hstep1 := hstep m1 (hM m1 hfr01)
    have hseg1a : Seg m1 C1.head_.next_node (built ++ [(m.heap.length, v)]) .nullptr := hseg1
    have hbuilt1 : ∀ c ∈ built ++ [(m.heap.length, v)], m0.heap.length ≤ c.1 := by
      intro c hc
      rcases List.mem_append.mp hc with h | h
      · exact hbuilt c h
      · simp only [List.mem_singleton] at h
        subst h
        exact hfr.2.2.1
    obtain ⟨m2, C2, new, hrun, hfr2, hC2, hval2, hseg2, hvals2, hnew2, hbud2, hlen2⟩ :=
      ih it1 (built ++ [(m.heap.length, v)]) m1 C1 fuel1 hsrc1 hfr01 hbuilt1 hC1 hseg1a
        (by simp at hbud; omega) (by simpa using hfuel)
    refine ⟨m2, C2, (m.heap.length, v) :: new, ?_, hfr2, hC2, hval2.trans hval1, ?_, ?_, ?_,
      ?_, ?_⟩
    · rw [lastPos_concat] at hrun
      simp only [Initialize_loop, hne, if_true, hstep0.1, hins, hinc, hstep1.2]
      exact hrun
    · simpa using hseg2
    · simp [values] at hvals2 ⊢
      exact hvals2
    · intro c hc
      rcases List.mem_cons.mp hc with rfl | hmem
      · exact le_refl _
      · have := hnew2 c hmem
        omega
    · simp only [List.length_cons]; omega
    · simp only [List.length_cons]; omega

/-- Effect of `Initialize` on a list object whose chain is `old`: the chain is replaced by new nodes
that hold the values of the source range, `size_` becomes `size`, and the nodes `old`
are released. -/
theorem Initialize_chain [Inhabited α] {ι : Type} (T : InputIt α ι) {m : Mem α} {this : Nat}
    {L : SingleLinkedList α} {old : List (Nat × α)} (first last : ι) (size : Nat)
    (vs : List α) (M : Mem α → Prop)
    (hM : ∀ m1, Frame (default_ctor m).1 m1 m.lists.length [] → M m1)
    (hsrc : Source T M last first vs)
    (hL : m.lists[this]? = some L) (hold : Seg m L.head_.next_node old .nullptr)
    (hbud : vs.length ≤ m.budget) :
    ∃ m1 L1 new, Initialize T m this first last size = .ok m1 () ∧
      m1.lists[this]? = some L1 ∧ L1.size_ = size ∧ L1.head_.value = L.head_.value ∧
      Seg m1 L1.head_.next_node new .nullptr ∧ values new = vs ∧
      (∀ c ∈ new, m.heap.length ≤ c.1) ∧ Frame m m1 this old ∧
      (∀ c ∈ old, m1.cell c.1 = none) ∧ m1.budget + vs.length = m.budget ∧
      m1.heap.length = m.heap.length + vs.length := by
  have hlt := lists_lt hL
  let copy := m.lists.length
  let m0 : Mem α := Mem.mk (m.lists ++ [SingleLinkedList.fresh]) m.heap m.budget
  have hm0 : default_ctor m = (m0, copy) := rfl
  have hne : this ≠ copy := Nat.ne_of_lt hlt
  have hC0 : m0.lists[copy]? = some SingleLinkedList.fresh := by simp [m0, copy]
  have hseg0 : Seg m0 (SingleLinkedList.fresh : SingleLinkedList α).head_.next_node [] .nullptr := rfl
  rw [hm0] at hM
  obtain ⟨m1, C1, new, hrun, hfr1, hC1, _, hseg1, hvals, hnew, hbud1, hlen1⟩ :=
    Initialize_loop_chain T copy last m0 M hM vs first [] m0 SingleLinkedList.fresh
      (m0.budget + 1) hsrc (Frame_refl _ _ _) (by simp) hC0 hseg0 hbud
      (Nat.le_succ_of_le hbud)
  simp only [List.nil_append] at hseg1
  obtain ⟨a1, a2, a3, a4⟩ := hfr1
  have hlt1 : copy < m1.lists.length := lists_lt hC1
  -- `copy.size_ = size`
  let C2 : SingleLinkedList α := { C1 with size_ := size }
  let m2 : Mem α := m1.setList copy C2
  have hC2 : m2.lists[copy]? = some C2 := setList_lists_self _ hlt1
  have hL2 : m2.lists[this]? = some L := by
    rw [setList_lists_ne _ (Ne.symm hne), a2 this hne]
    simp [m0, List.getElem?_append_left hlt, hL]
  -- `swap(copy)`
  obtain ⟨m3, hswap, hheap3, hbud3, hlen3, hL3, hC3, hoth3⟩ := swap_lists hL2 hC2
  have hcell3 : ∀ a, m3.cell a = m1.cell a := fun a => by
    simp only [Mem.cell, hheap3, m2, heap_setList]
  have hcell_old : ∀ a, a < m.heap.length → m3.cell a = m.cell a := fun a ha => by
    rw [hcell3, a4 a ha (by simp [addrs])]
    rfl
  have hold3 : Seg m3 L.head_.next_node old .nullptr :=
    Seg_congr (fun c hc => hcell_old c.1 (Seg_lt hold c hc)) hold
  have hlen_lists3 : m3.lists.length = m.lists.length + 1 := by
    rw [hlen3, length_lists_setList, a1]
    simp [m0]
  -- the destructor of `copy`
  have hC3a : m3.lists[m3.lists.length - 1]? =
      some ⟨⟨C2.head_.value, L.head_.next_node⟩, L.size_⟩ := by
    rw [hlen_lists3]; exact hC3
  obtain ⟨m4, hclear, _, hfr4, hgone4, hlen4, hbud4⟩ := Clear_chain hC3a hold3
  obtain ⟨b1, b2, b3, b4⟩ := hfr4
  let m5 : Mem α := { m4 with lists := m4.lists.dropLast }
  have hlists5 : ∀ k, k < m.lists.length → m5.lists[k]? = m3.lists[k]? := by
    intro k hk
    have hk4 : k < m4.lists.length - 1 := by rw [b1, hlen_lists3]; simpa using hk
    simp only [m5, List.getElem?_dropLast, if_pos hk4]
    exact b2 k (by rw [hlen_lists3]; simp; omega)
  have hnew_old : ∀ c ∈ new, c.1 ∉ addrs old := by
    intro c hc hmem
    obtain ⟨d, hd, hdc⟩ := List.mem_map.mp hmem
    have h1 := Seg_lt hold d hd
    have h2 := hnew c hc
    simp only [m0] at h2
    omega
  have hheaplen3 : m3.heap.length = m1.heap.length := by
    rw [hheap3]; rfl
  refine ⟨m5, ⟨⟨L.head_.value, C2.head_.next_node⟩, C2.size_⟩, new, ?_, ?_, rfl, rfl, ?_, hvals,
    ?_, ?_, ?_, ?_, ?_⟩
  · simp only [Initialize, hm0, before_begin]
    have hrun1 : Initialize_loop T copy last (m0.budget + 1) m0 first ⟨.head copy⟩ =
        .ok m1 () := hrun
    simp only [hrun1, hC1]
    have hswap1 : swap (m1.setList copy { C1 with size_ := size }) this copy = .ok m3 () :=
      hswap
    simp only [hswap1, destroy_last, destructor, hclear]
  · rw [hlists5 this hlt]; exact hL3
  · refine Seg_congr (fun c hc => ?_) hseg1
    show m4.cell c.1 = _
    rw [b4 c.1 (by rw [hheaplen3]; exact Seg_lt hseg1 c hc) (hnew_old c hc), hcell3]
  · intro c hc
    have := hnew c hc
    simpa [m0] using this
  · refine ⟨?_, fun k hk => ?_, ?_, fun a ha hn => ?_⟩
    · simp only [m5, List.length_dropLast, b1, hlen_lists3]
      simp
    · by_cases hk1 : k < m.lists.length
      · rw [hlists5 k hk1, hoth3 k hk (Nat.ne_of_lt hk1), setList_lists_ne _ (Ne.symm
          (Nat.ne_of_lt hk1)), a2 k (Nat.ne_of_lt hk1)]
        simp [m0, List.getElem?_append_left hk1]
      · have hk2 : ¬ k < m4.lists.length - 1 := by
          rw [b1, hlen_lists3]; simpa using hk1
        simp only [m5, List.getElem?_dropLast, if_neg hk2]
        exact (List.getElem?_eq_none (Nat.le_of_not_lt hk1)).symm
    · show m.heap.length ≤ m4.heap.length
      rw [hlen4, hheaplen3, hlen1]
      simp [m0]
    · show m4.cell a = _
      rw [b4 a (by rw [hheaplen3, hlen1]; simp [m0]; omega) hn, hcell_old a ha]
  · intro c hc
    exact hgone4 c hc
  · show m4.budget + vs.length = m.budget
    rw [hbud4, hbud3, budget_setList, ← (show m0.budget = m.budget from rfl)]
    exact hbud1
  · show m4.heap.length = _
    rw [hlen4, hheaplen3, hlen1]

theorem size_succ {n : Nat} (h : n + 1 < SIZE_MOD) : (n + 1) % SIZE_MOD = n + 1 :=
  Nat.mod_eq_of_lt h

theorem size_pred {n : Nat} (h : n + 1 < SIZE_MOD) : (n + 1 + SIZE_MOD - 1) % SIZE_MOD = n := by
  unfold SIZE_MOD at h ⊢
  omega

theorem length_values (ns : List (Nat × α)) : (values ns).length = ns.length := by
  simp [values]

theorem deref_of_Seg {m : Mem α} {p q : NodePtr} {c : Nat × α} {post : List (Nat × α)}
    (h : Seg m p (c :: post) q) : (BasicIterator.mk (.node c.1)).deref m = .ok c.2 := by
  obtain ⟨_, nx, hcell, _⟩ := h
  have hread : m.read (.node c.1) = some ⟨c.2, nx⟩ := hcell
  simp [BasicIterator.deref, hread]

theorem pre_increment_of_Seg {m : Mem α} {p : NodePtr} {c : Nat × α} {post : List (Nat × α)}
    (h : Seg m p (c :: post) .nullptr) :
    (BasicIterator.mk (.node c.1)).pre_increment m = .ok (firstPos post) := by
  obtain ⟨_, nx, hcell, hrest⟩ := h
  have hread : m.read (.node c.1) = some ⟨c.2, nx⟩ := hcell
  simp [BasicIterator.pre_increment, hread, Seg_firstPos hrest]

theorem InsertAfter_ok {m : Mem α} {this : Nat} {pre post : List (Nat × α)} (x : α)
    (h : IsList m this (pre ++ post)) (hsz : (pre ++ post).length + 1 < SIZE_MOD)
    (hb : 0 < m.budget) :
    ∃ m1, InsertAfter m this (lastPos this pre) x = .ok m1 ⟨.node m.heap.length⟩ ∧
      IsList m1 this (pre ++ (m.heap.length, x) :: post) ∧ Frame m m1 this pre ∧
      m1.heap.length = m.heap.length + 1 ∧ m1.budget + 1 = m.budget := by
  obtain ⟨L, hL, hseg, hsize, _⟩ := h
  obtain ⟨m1, L1, hrun, hL1, hsz1, _, hseg1, hfr1, hlen1, hbud1⟩ :=
    InsertAfter_chain x hL hseg hb
  refine ⟨m1, hrun, ⟨L1, hL1, hseg1, ?_, ?_⟩, hfr1, hlen1, hbud1⟩
  · rw [hsz1, hsize, size_succ hsz]
    simp only [List.length_append, List.length_cons]
    omega
  · simp only [List.length_append, List.length_cons] at hsz ⊢
    omega

theorem EraseAfter_ok {m : Mem α} {this : Nat} {pre post : List (Nat × α)} {c : Nat × α}
    (h : IsList m this (pre ++ c :: post)) :
    ∃ m1, EraseAfter m this (lastPos this pre) = .ok m1 (firstPos post) ∧
      IsList m1 this (pre ++ post) ∧ m1.cell c.1 = none ∧ Frame m m1 this (pre ++ [c]) ∧
      m1.heap.length = m.heap.length ∧ m1.budget = m.budget := by
  obtain ⟨L, hL, hseg, hsize, hlt⟩ := h
  obtain ⟨m1, L1, hrun, hL1, hsz1, _, hseg1, hgone, hfr1, hlen1, hbud1⟩ :=
    EraseAfter_chain hL hseg
  have hlen : (pre ++ c :: post).length = (pre ++ post).length + 1 := by
    simp only [List.length_append, List.length_cons]
    omega
  rw [hlen] at hsize hlt
  refine ⟨m1, hrun, ⟨L1, hL1, hseg1, ?_, by omega⟩, hgone, hfr1, hlen1, hbud1⟩
  rw [hsz1, hsize, size_pred hlt]

theorem PopFront_ok {m : Mem α} {this : Nat} {ns : List (Nat × α)} {c : Nat × α}
    (h : IsList m this (c :: ns)) :
    ∃ m1, PopFront m this = .ok m1 () ∧ IsList m1 this ns ∧ m1.cell c.1 = none ∧
      Frame m m1 this [c] ∧ m1.heap.length = m.heap.length ∧ m1.budget = m.budget := by
  obtain ⟨L, hL, hseg, hsize, hlt⟩ := h
  simp only [List.length_cons] at hsize hlt
  obtain ⟨m1, L1, hrun, hL1, hsz1, _, hseg1, hgone, hfr1, hlen1, hbud1⟩ :=
    PopFront_chain hL hseg (by omega)
  refine ⟨m1, hrun, ⟨L1, hL1, hseg1, ?_, by omega⟩, hgone, hfr1, hlen1, hbud1⟩
  rw [hsz1, hsize, size_pred hlt]

theorem PopFront_empty {m : Mem α} {this : Nat} (h : IsList m this []) :
    PopFront m this = .ok m () := by
  obtain ⟨L, hL, _, hsize, _⟩ := h
  have hz : L.size_ = 0 := hsize
  simp [PopFront, hL, hz]

theorem Clear_ok {m : Mem α} {this : Nat} {ns : List (Nat × α)} (h : IsList m this ns) :
    ∃ m1, Clear m this = .ok m1 () ∧ IsList m1 this [] ∧ (∀ c ∈ ns, m1.cell c.1 = none) ∧
      Frame m m1 this ns ∧ m1.heap.length = m.heap.length ∧ m1.budget = m.budget := by
  obtain ⟨L, hL, hseg, _, _⟩ := h
  obtain ⟨m1, hrun, hL1, hfr1, hgone, hlen1, hbud1⟩ := Clear_chain hL hseg
  refine ⟨m1, hrun, ⟨_, hL1, rfl, rfl, ?_⟩, hgone, hfr1, hlen1, hbud1⟩
  simp [SIZE_MOD]

/-- The pointers into the array of an initializer list read its values, whatever the
memory. -/
theorem Source_initializer_list (S : List α) (M : Mem α → Prop) :
    ∀ (vs : List α) (i : Nat), i ≤ S.length → S.drop i = vs →
      Source (initializer_list_ops S) M S.length i vs := by
  intro vs
  induction vs with
  | nil =>
    intro i hi hdrop
    have hge : S.length ≤ i := List.drop_eq_nil_iff.mp hdrop
    have hEq : i = S.length := Nat.le_antisymm hi hge
    show decide (i ≠ S.length) = false
    simp [hEq]
  | cons v vs ih =>
    intro i hi hdrop
    have hlt : i < S.length := by
      by_contra hge
      rw [List.drop_eq_nil_of_le (Nat.le_of_not_lt hge)] at hdrop
      exact absurd hdrop (by simp)
    have hcons : S[i] :: S.drop (i + 1) = v :: vs := by
      rw [← List.drop_eq_getElem_cons hlt]; exact hdrop
    have hget : S[i]? = some v := by
      rw [List.getElem?_eq_getElem hlt, (List.cons.inj hcons).1]
    have hrest : S.drop (i + 1) = vs := (List.cons.inj hcons).2
    refine ⟨?_, i + 1, fun m _ => ⟨?_, rfl⟩, ih (i + 1) hlt hrest⟩
    · show decide (i ≠ S.length) = true
      simp [Nat.ne_of_lt hlt]
    · show (match S[i]? with
        | some v => Except.ok v
        | none => Except.error Fault.undefined) = Except.ok v
      rw [hget]

/-- The iterators of a list read the values of its nodes, in every memory in which these
nodes are as they are in `m`. -/
theorem Source_ConstIterator {m : Mem α} (M : Mem α → Prop) {ns : List (Nat × α)} :
    ∀ {p : NodePtr}, Seg m p ns .nullptr → (∀ m1, M m1 → ∀ c ∈ ns, m1.cell c.1 = m.cell c.1) →
      Source ConstIterator_ops M end_ ⟨p⟩ (values ns) := by
  induction ns with
  | nil =>
    intro p h _
    have hp : p = .nullptr := h
    subst hp
    show BasicIterator.ne ⟨.nullptr⟩ end_ = false
    simp [BasicIterator.ne, BasicIterator.eq, end_]
  | cons c ns ih =>
    intro p h hM
    obtain ⟨hp, nx, hcell, hrest⟩ := h
    subst hp
    refine ⟨?_, ⟨nx⟩, fun m1 hm1 => ?_, ih hrest (fun m1 hm1 d hd =>
      hM m1 hm1 d (List.mem_cons_of_mem _ hd))⟩
    · show BasicIterator.ne ⟨.node c.1⟩ end_ = true
      simp [BasicIterator.ne, BasicIterator.eq, end_]
    · have hread : m1.read (.node c.1) = some ⟨c.2, nx⟩ := by
        show m1.cell c.1 = _
        rw [hM m1 hm1 c (List.mem_cons_self _ _)]
        exact hcell
      constructor
      · show (BasicIterator.mk (.node c.1)).deref m1 = _
        simp [BasicIterator.deref, hread]
      · show (BasicIterator.mk (.node c.1)).pre_increment m1 = _
        simp [BasicIterator.pre_increment, hread]

theorem default_ctor_lists_lt [Inhabited α] (m : Mem α) {k : Nat} (hk : k < m.lists.length) :
    (default_ctor m).1.lists[k]? = m.lists[k]? := by
  simp [default_ctor, List.getElem?_append_left hk]

theorem default_ctor_lists_self [Inhabited α] (m : Mem α) :
    (default_ctor m).1.lists[m.lists.length]? = some SingleLinkedList.fresh := by
  simp [default_ctor]

theorem default_ctor_cell [Inhabited α] (m : Mem α) (a : Nat) :
    (default_ctor m).1.cell a = m.cell a := rfl

theorem initializer_list_ctor_ok [Inhabited α] (m : Mem α) (S : List α)
    (hS : S.length < SIZE_MOD) (hb : S.length ≤ m.budget) :
    ∃ m1 ns, initializer_list_ctor m S = .ok m1 m.lists.length ∧
      IsList m1 m.lists.length ns ∧ values ns = S ∧ (∀ c ∈ ns, m.heap.length ≤ c.1) ∧
      m1.lists.length = m.lists.length + 1 ∧
      (∀ k, k < m.lists.length → m1.lists[k]? = m.lists[k]?) ∧
      (∀ a, a < m.heap.length → m1.cell a = m.cell a) ∧
      m1.budget + S.length = m.budget ∧ m1.heap.length = m.heap.length + S.length := by
  have hL0 := default_ctor_lists_self m
  have hseg0 : Seg (default_ctor m).1 (SingleLinkedList.fresh : SingleLinkedList α).head_.next_node []
      .nullptr := rfl
  obtain ⟨m1, L1, ns, hrun, hL1, hsz1, _, hseg1, hvals, hnew, hfr, _, hbud1, hheap1⟩ :=
    Initialize_chain (initializer_list_ops S) (m := (default_ctor m).1) 0 S.length
      (S.length % SIZE_MOD) S (fun _ => True) (fun _ _ => trivial)
      (Source_initializer_list S _ S 0 (Nat.zero_le _) rfl) hL0 hseg0 hb
  obtain ⟨a1, a2, a3, a4⟩ := hfr
  have hlen : ns.length = S.length := by rw [← hvals, length_values]
  refine ⟨m1, ns, ?_, ⟨L1, hL1, hseg1, ?_, ?_⟩, hvals, hnew, ?_, fun k hk => ?_, fun a ha => ?_,
    hbud1, hheap1⟩
  · have hdc : default_ctor m = ((default_ctor m).1, m.lists.length) := rfl
    rw [initializer_list_ctor, hdc]
    simp only [hrun]
  · rw [hsz1, hlen, Nat.mod_eq_of_lt hS]
  · rw [hlen]; exact hS
  · rw [a1]; simp [default_ctor]
  · rw [a2 k (Nat.ne_of_lt hk), default_ctor_lists_lt m hk]
  · rw [a4 a ha (by simp [addrs]), default_ctor_cell]

theorem copy_ctor_ok [Inhabited α] {m : Mem α} {another : Nat} {ns : List (Nat × α)}
    (h : IsList m another ns) (hb : ns.length ≤ m.budget) :
    ∃ m1 new, copy_ctor m another = .ok m1 m.lists.length ∧
      IsList m1 m.lists.length new ∧ values new = values ns ∧
      (∀ c ∈ new, m.heap.length ≤ c.1) ∧ IsList m1 another ns ∧
      m1.lists.length = m.lists.length + 1 ∧
      (∀ k, k < m.lists.length → m1.lists[k]? = m.lists[k]?) ∧
      (∀ a, a < m.heap.length → m1.cell a = m.cell a) ∧
      m1.budget + ns.length = m.budget ∧ m1.heap.length = m.heap.length + ns.length := by
  obtain ⟨R, hR, hseg, hsize, hlt⟩ := h
  have hRlt := lists_lt hR
  have hL0 := default_ctor_lists_self m
  have hR0 : (default_ctor m).1.lists[another]? = some R := by
    rw [default_ctor_lists_lt m hRlt]; exact hR
  have hseg0 : Seg (default_ctor m).1 (SingleLinkedList.fresh : SingleLinkedList α).head_.next_node []
      .nullptr := rfl
  have hsegR : Seg (default_ctor m).1 R.head_.next_node ns .nullptr :=
    Seg_congr (fun c _ => default_ctor_cell m c.1) hseg
  have hb0 : (values ns).length ≤ (default_ctor m).1.budget := by
    rw [length_values]; exact hb
  obtain ⟨m1, L1, new, hrun, hL1, hsz1, _, hseg1, hvals, hnew, hfr, _, hbud1, hheap1⟩ :=
    Initialize_chain ConstIterator_ops (m := (default_ctor m).1) ⟨R.head_.next_node⟩ end_
      R.size_ (values ns)
      (fun m1 => ∀ c ∈ ns, m1.cell c.1 = (default_ctor m).1.cell c.1)
      (fun m1 hfr c hc => hfr.2.2.2 c.1 (Seg_lt hsegR c hc) (by simp [addrs]))
      (Source_ConstIterator _ hsegR (fun _ hm1 => hm1)) hL0 hseg0 hb0
  obtain ⟨a1, a2, a3, a4⟩ := hfr
  have hlen : new.length = ns.length := by
    have := congrArg List.length hvals
    simpa [length_values] using this
  have hcells : ∀ a, a < m.heap.length → m1.cell a = m.cell a := fun a ha => by
    rw [a4 a ha (by simp [addrs]), default_ctor_cell]
  have hlists : ∀ k, k < m.lists.length → m1.lists[k]? = m.lists[k]? := fun k hk => by
    rw [a2 k (Nat.ne_of_lt hk), default_ctor_lists_lt m hk]
  rw [length_values] at hbud1 hheap1
  refine ⟨m1, new, ?_, ⟨L1, hL1, hseg1, ?_, ?_⟩, hvals, hnew, ⟨R, ?_, ?_, hsize, hlt⟩, ?_,
    hlists, hcells, hbud1, hheap1⟩
  · have hdc : default_ctor m = ((default_ctor m).1, m.lists.length) := rfl
    rw [copy_ctor, hdc]
    simp only [hL0, hR0, hrun]
    simp [SingleLinkedList.fresh]
  · rw [hsz1, hsize, hlen]
  · rw [hlen]; exact hlt
  · rw [hlists another hRlt]; exact hR
  · exact Seg_congr (fun c hc => hcells c.1 (Seg_lt hseg c hc)) hseg
  · rw [a1]; simp [default_ctor]

theorem operator_assign_ok [Inhabited α] {m : Mem α} {this rhs : Nat}
    {old ns : List (Nat × α)} (hthis : IsList m this old) (hrhs : IsList m rhs ns)
    (hne : this ≠ rhs) (hdisj : ∀ a, a ∈ addrs ns → a ∉ addrs old)
    (hb : ns.length ≤ m.budget) :
    ∃ m1 new, operator_assign m this rhs = .ok m1 () ∧
      IsList m1 this new ∧ values new = values ns ∧
      (∀ c ∈ new, m.heap.length ≤ c.1) ∧ IsList m1 rhs ns ∧
      (∀ c ∈ old, m1.cell c.1 = none) ∧ Frame m m1 this old ∧
      m1.budget + ns.length = m.budget ∧ m1.heap.length = m.heap.length + ns.length := by
  obtain ⟨L, hL, hsegL, _, _⟩ := hthis
  have hrhs0 := hrhs
  obtain ⟨R, hR, hseg, hsize, hlt⟩ := hrhs
  have hb0 : (values ns).length ≤ m.budget := by
    rw [length_values]; exact hb
  obtain ⟨m1, L1, new, hrun, hL1, hsz1, _, hseg1, hvals, hnew, hfr, hgone, hbud1, hheap1⟩ :=
    Initialize_chain ConstIterator_ops (m := m) ⟨R.head_.next_node⟩ end_
      R.size_ (values ns)
      (fun m1 => ∀ c ∈ ns, m1.cell c.1 = m.cell c.1)
      (fun m1 hfr c hc => by
        rw [hfr.2.2.2 c.1 (Seg_lt hseg c hc) (by simp [addrs])]
        rfl)
      (Source_ConstIterator _ hseg (fun _ hm1 => hm1)) hL hsegL hb0
  have hlen : new.length = ns.length := by
    have := congrArg List.length hvals
    simpa [length_values] using this
  rw [length_values] at hbud1 hheap1
  refine ⟨m1, new, ?_, ⟨L1, hL1, hseg1, ?_, ?_⟩, hvals, hnew, ?_, hgone, hfr, hbud1, hheap1⟩
  · simp only [operator_assign, if_neg hne, hR, hrun]
  · rw [hsz1, hsize, hlen]
  · rw [hlen]; exact hlt
  · exact IsList_frame hfr (Ne.symm hne) hrhs0 hdisj

theorem std_equal_of_values_eq {eq : α → α → Bool} (hrefl : ∀ x, eq x x = true) {m : Mem α}
    {ns : List (Nat × α)} :
    ∀ {ns1 : List (Nat × α)} {p q : NodePtr} {fuel : Nat},
      Seg m p ns .nullptr → Seg m q ns1 .nullptr → values ns = values ns1 → ns.length ≤ fuel →
      std_equal eq m fuel ⟨p⟩ end_ ⟨q⟩ = .ok true := by
  induction ns with
  | nil =>
    intro ns1 p q fuel hp _ _ _
    have hnull : p = .nullptr := hp
    subst hnull
    cases fuel <;> simp [std_equal, BasicIterator.ne, BasicIterator.eq, end_]
  | cons c ns ih =>
    intro ns1 p q fuel hp hq hvals hfuel
    obtain ⟨fuel1, rfl⟩ : ∃ f, fuel = f + 1 := ⟨fuel - 1, by simp at hfuel; omega⟩
    cases ns1 with
    | nil => simp [values] at hvals
    | cons d ns1 =>
      simp only [values, List.map_cons, List.cons.injEq] at hvals
      have hd1 := deref_of_Seg hp
      have hd2 := deref_of_Seg hq
      obtain ⟨hpe, nx, hcell, hrest⟩ := hp
      obtain ⟨hqe, nx1, hcell1, hrest1⟩ := hq
      subst hpe; subst hqe
      have hr1 : m.read (.node c.1) = some ⟨c.2, nx⟩ := hcell
      have hr2 : m.read (.node d.1) = some ⟨d.2, nx1⟩ := hcell1
      have hi1 : (BasicIterator.mk (.node c.1)).pre_increment m = .ok ⟨nx⟩ := by
        simp [BasicIterator.pre_increment, hr1]
      have hi2 : (BasicIterator.mk (.node d.1)).pre_increment m = .ok ⟨nx1⟩ := by
        simp [BasicIterator.pre_increment, hr2]
      have hne : (BasicIterator.mk (.node c.1)).ne end_ = true := by
        simp [BasicIterator.ne, BasicIterator.eq, end_]
      have heq : eq c.2 d.2 = true := by rw [hvals.1]; exact hrefl _
      simp only [std_equal, hne, if_true, hd1, hd2, heq, hi1, hi2]
      exact ih hrest hrest1 hvals.2 (by simpa using hfuel)

theorem operator_eq_of_values_eq {eq : α → α → Bool} (hrefl : ∀ x, eq x x = true) {m : Mem α}
    {A B : Nat} {nsA nsB : List (Nat × α)} (hA : IsList m A nsA) (hB : IsList m B nsB)
    (hvals : values nsA = values nsB) : operator_eq eq m A B = .ok true := by
  by_cases hAB : A = B
  · simp [operator_eq, hAB]
  · obtain ⟨LA, hLA, hsegA, hszA, _⟩ := hA
    obtain ⟨LB, hLB, hsegB, hszB, _⟩ := hB
    have hlen : nsA.length = nsB.length := by
      have := congrArg List.length hvals
      simpa [length_values] using this
    simp only [operator_eq, if_neg hAB, GetSize, begin, hLA, hLB, Option.map_some', hszA, hszB,
      hlen, ne_eq, not_true_eq_false, if_false]
    exact std_equal_of_values_eq hrefl hsegA hsegB hvals (Seg_null_length_le hsegA)

theorem isList_mem123 : IsList mem123 0 ns123 := by decide

theorem isList_mem123_78_0 : IsList mem123_78 0 ns123 := by decide

theorem isList_mem123_78_1 : IsList mem123_78 1 ns78 := by decide

theorem independent_mem123_78 : Independent mem123_78 0 ns123 1 ns78 := by decide

theorem IsList_addr_lt {m : Mem α} {this : Nat} {ns : List (Nat × α)} (h : IsList m this ns) :
    ∀ a, a ∈ addrs ns → a < m.heap.length := by
  obtain ⟨L, _, hseg, _, _⟩ := h
  intro a ha
  obtain ⟨c, hc, rfl⟩ := List.mem_map.mp ha
  exact Seg_lt hseg c hc

theorem IsList_cell_some {m : Mem α} {this : Nat} {ns : List (Nat × α)} (h : IsList m this ns) :
    ∀ c ∈ ns, ∃ nx, m.cell c.1 = some ⟨c.2, nx⟩ := by
  obtain ⟨L, _, hseg, _, _⟩ := h
  intro c hc
  obtain ⟨xs, ys, hsplit⟩ := List.append_of_mem hc
  rw [hsplit] at hseg
  obtain ⟨r, _, _, nx, hcell, _⟩ := Seg_append.mp hseg
  exact ⟨nx, hcell⟩

/-- The positions of a list are its before-begin sentinel and its nodes. -/
theorem IsPosition_iff (this : Nat) (ns : List (Nat × α)) (pos : BasicIterator) :
    IsPosition this ns pos ↔
      pos = before_begin this ∨ ∃ c ∈ ns, pos = ⟨.node c.1⟩ := by
  constructor
  · rintro ⟨pre, post, hns, hpos⟩
    rcases List.eq_nil_or_concat pre with hnil | ⟨pre1, c, hpre⟩
    · subst hnil
      exact Or.inl hpos
    · rw [List.concat_eq_append] at hpre
      subst hpre
      rw [lastPos_concat] at hpos
      exact Or.inr ⟨c, by simp [hns], hpos⟩
  · rintro (hpos | ⟨c, hc, hpos⟩)
    · exact ⟨[], ns, rfl, hpos⟩
    · obtain ⟨xs, ys, hsplit⟩ := List.append_of_mem hc
      refine ⟨xs ++ [c], ys, by simp [hsplit], ?_⟩
      rw [lastPos_concat]
      exact hpos

/-- A mutating member function called within its precondition on a list `B` returns and
leaves every list `A` that shares no node with `B` as it is; `A` and `B` still share no
node afterwards. -/
theorem mutate_independent {m : Mem α} {A B : Nat} {nsA nsB : List (Nat × α)}
    (μ : Mutation α) (hind : Independent m A nsA B nsB) (hpre : μ.pre m B nsB) :
    ∃ m1 nsB1, mutate m B μ = .ok m1 () ∧ Independent m1 A nsA B nsB1 ∧
      m1.lists[A]? = m.lists[A]? := by
  obtain ⟨hne, hA, hB, hdisj⟩ := hind
  have hAlt := IsList_addr_lt hA
  cases μ with
  | PushFront x =>
    obtain ⟨hsz, hb⟩ := hpre
    obtain ⟨m1, hrun, hB1, hfr, _, _⟩ := PushFront_ok x hB hsz hb
    refine ⟨m1, _, hrun, ⟨hne, IsList_frame hfr hne hA (fun a _ => by simp [addrs]), hB1, ?_⟩,
      hfr.2.1 A hne⟩
    intro a ha hmem
    simp only [addrs, List.map_cons, List.mem_cons] at hmem
    rcases hmem with h | h
    · have := hAlt a ha
      omega
    · exact hdisj a ha h
  | PopFront =>
    cases nsB with
    | nil => exact ⟨m, [], PopFront_empty hB, ⟨hne, hA, hB, hdisj⟩, rfl⟩
    | cons c rest =>
      obtain ⟨m1, hrun, hB1, _, hfr, _, _⟩ := PopFront_ok hB
      refine ⟨m1, rest, hrun, ⟨hne, IsList_frame hfr hne hA (fun a ha hmem => ?_), hB1,
        fun a ha hmem => ?_⟩, hfr.2.1 A hne⟩
      · exact hdisj a ha (by
          simp only [addrs, List.map_cons, List.map_nil, List.mem_singleton] at hmem
          simp [addrs, hmem])
      · exact hdisj a ha (by
          simp only [addrs, List.map_cons, List.mem_cons]
          exact Or.inr hmem)
  | InsertAfter pos x =>
    obtain ⟨⟨pre, post, hsplit, hpos⟩, hsz, hb⟩ := hpre
    subst hsplit
    subst hpos
    obtain ⟨m1, hrun, hB1, hfr, _, _⟩ := InsertAfter_ok x hB hsz hb
    refine ⟨m1, _, by simp only [mutate, hrun, Outcome.discard],
      ⟨hne, IsList_frame hfr hne hA (fun a ha hmem => ?_), hB1, fun a ha hmem => ?_⟩,
      hfr.2.1 A hne⟩
    · exact hdisj a ha (by
        simp only [addrs, List.map_append, List.mem_append]
        exact Or.inl hmem)
    · simp only [addrs, List.map_append, List.map_cons, List.mem_append,
        List.mem_cons] at hmem
      rcases hmem with h | h | h
      · exact hdisj a ha (by
          simp only [addrs, List.map_append, List.mem_append]
          exact Or.inl h)
      · have := hAlt a ha
        omega
      · exact hdisj a ha (by
          simp only [addrs, List.map_append, List.mem_append]
          exact Or.inr h)
  | EraseAfter pos =>
    obtain ⟨pre, c, post, hsplit, hpos⟩ := hpre
    subst hsplit
    subst hpos
    obtain ⟨m1, hrun, hB1, _, hfr, _, _⟩ := EraseAfter_ok hB
    refine ⟨m1, _, by simp only [mutate, hrun, Outcome.discard],
      ⟨hne, IsList_frame hfr hne hA (fun a ha hmem => ?_), hB1, fun a ha hmem => ?_⟩,
      hfr.2.1 A hne⟩
    · refine hdisj a ha ?_
      simp only [addrs, List.map_append, List.map_cons, List.map_nil, List.mem_append,
        List.mem_cons] at hmem ⊢
      rcases hmem with h | h | h
      · exact Or.inl h
      · exact Or.inr (Or.inl h)
      · exact absurd h (List.not_mem_nil a)
    · refine hdisj a ha ?_
      simp only [addrs, List.map_append, List.map_cons, List.mem_append,
        List.mem_cons] at hmem ⊢
      rcases hmem with h | h
      · exact Or.inl h
      · exact Or.inr (Or.inr h)
  | Clear =>
    obtain ⟨m1, hrun, hB1, _, hfr, _, _⟩ := Clear_ok hB
    exact ⟨m1, [], hrun, ⟨hne, IsList_frame hfr hne hA hdisj, hB1,
      fun a _ hmem => by simp [addrs] at hmem⟩, hfr.2.1 A hne⟩

end Lemmas

/-! ## Construction from an initializer list -/

/-- C1: for every sequence `S` (of a length that `size_t` can hold, and with `new` not
failing), the constructor from the initializer list `S` returns a list whose chain of nodes
holds exactly `S` in order: iterating from `begin()` to `end()` yields `S`, `GetSize()` is
the length of `S`, and no iterated position is the before-begin sentinel. -/
theorem initializer_list_ctor_spec [Inhabited α] (m : Mem α) (S : List α)
    (hS : S.length < SIZE_MOD) (hb : S.length ≤ m.budget) :
    ∃ m1 ns, initializer_list_ctor m S = .ok m1 m.lists.length ∧
      IsList m1 m.lists.length ns ∧ values ns = S ∧
      elements m1 m.lists.length = .ok S ∧
      GetSize m1 m.lists.length = some S.length ∧
      begin m1 m.lists.length = some (firstPos ns) ∧
      (∀ c ∈ ns, BasicIterator.mk (.node c.1) ≠ before_begin m.lists.length) := by
  obtain ⟨m1, ns, hrun, hlist, hvals, _, _, _, _⟩ := initializer_list_ctor_ok m S hS hb
  have hlen : ns.length = S.length := by rw [← hvals, length_values]
  refine ⟨m1, ns, hrun, hlist, hvals, ?_, ?_, ?_, ?_⟩
  · rw [elements_of_IsList hlist, hvals]
  · rw [GetSize_of_IsList hlist, hlen]
  · obtain ⟨L, hL, hseg, _, _⟩ := hlist
    simp only [begin, hL, Option.map_some', Seg_firstPos hseg]
  · intro c _ hEq
    simp [before_begin] at hEq

theorem initializer_list_ctor_spec_witness :
    ((3 : Nat) < SIZE_MOD ∧ 3 ≤ mem_empty.budget) ∧
    ∃ m1 ns, initializer_list_ctor mem_empty [1, 2, 3] = .ok m1 mem_empty.lists.length ∧
      IsList m1 mem_empty.lists.length ns ∧ values ns = [1, 2, 3] ∧
      elements m1 mem_empty.lists.length = .ok [1, 2, 3] ∧
      GetSize m1 mem_empty.lists.length = some [1, 2, 3].length ∧
      begin m1 mem_empty.lists.length = some (firstPos ns) ∧
      (∀ c ∈ ns, BasicIterator.mk (.node c.1) ≠ before_begin mem_empty.lists.length) :=
  ⟨⟨by decide, by decide⟩,
    initializer_list_ctor_spec mem_empty [1, 2, 3] (by decide) (by decide)⟩

/-! ## `PushFront`, `PopFront`, `InsertAfter`, `EraseAfter` -/

/-- C2: for every list with nodes `ns` (element sequence `values ns`) and every value `x`,
`PushFront(x)` returns, the list then consists of a new node holding `x` followed by the
nodes `ns` unchanged, so that iteration yields `x` followed by the former element sequence,
and `GetSize()` has grown by exactly one. -/
theorem PushFront_spec (m : Mem α) (this : Nat) (ns : List (Nat × α)) (x : α)
    (h : IsList m this ns) (hsz : ns.length + 1 < SIZE_MOD) (hb : 0 < m.budget) :
    ∃ m1, PushFront m this x = .ok m1 () ∧
      IsList m1 this ((m.heap.length, x) :: ns) ∧
      elements m this = .ok (values ns) ∧ elements m1 this = .ok (x :: values ns) ∧
      GetSize m this = some ns.length ∧ GetSize m1 this = some (ns.length + 1) := by
  obtain ⟨m1, hrun, hlist, _, _, _⟩ := PushFront_ok x h hsz hb
  exact ⟨m1, hrun, hlist, elements_of_IsList h, elements_of_IsList hlist, GetSize_of_IsList h,
    GetSize_of_IsList hlist⟩

theorem PushFront_spec_witness :
    (IsList mem123 0 ns123 ∧ ns123.length + 1 < SIZE_MOD ∧ 0 < mem123.budget) ∧
    ∃ m1, PushFront mem123 0 0 = .ok m1 () ∧
      IsList m1 0 ((mem123.heap.length, 0) :: ns123) ∧
      elements mem123 0 = .ok (values ns123) ∧ elements m1 0 = .ok (0 :: values ns123) ∧
      GetSize mem123 0 = some ns123.length ∧ GetSize m1 0 = some (ns123.length + 1) :=
  ⟨⟨isList_mem123, by decide, by decide⟩,
    PushFront_spec mem123 0 ns123 0 isList_mem123 (by decide) (by decide)⟩

/-- C3: on a list of size `n > 0` with nodes `c :: rest`, `PopFront()` returns, releases
the first node `c`, changes no other node and leaves the nodes `rest` in their order, with
size `n - 1`; on the empty list it returns with the memory unchanged and the size still
`0`. -/
theorem PopFront_spec (m : Mem α) (this : Nat) (ns : List (Nat × α))
    (h : IsList m this ns) :
    (∀ c rest, ns = c :: rest →
      ∃ m1, PopFront m this = .ok m1 () ∧ IsList m1 this rest ∧ m1.cell c.1 = none ∧
        elements m this = .ok (c.2 :: values rest) ∧ elements m1 this = .ok (values rest) ∧
        GetSize m this = some (rest.length + 1) ∧ GetSize m1 this = some rest.length ∧
        Frame m m1 this [c]) ∧
    (ns = [] → PopFront m this = .ok m () ∧ GetSize m this = some 0 ∧
      elements m this = .ok []) := by
  constructor
  · intro c rest hns
    subst hns
    obtain ⟨m1, hrun, hlist, hgone, hfr, hlen, _⟩ := PopFront_ok h
    exact ⟨m1, hrun, hlist, hgone, elements_of_IsList h, elements_of_IsList hlist,
      GetSize_of_IsList h, GetSize_of_IsList hlist, hfr⟩
  · intro hns
    subst hns
    exact ⟨PopFront_empty h, GetSize_of_IsList h, elements_of_IsList h⟩

theorem PopFront_spec_witness :
    IsList mem123 0 ns123 ∧
    ((∀ c rest, ns123 = c :: rest →
      ∃ m1, PopFront mem123 0 = .ok m1 () ∧ IsList m1 0 rest ∧ m1.cell c.1 = none ∧
        elements mem123 0 = .ok (c.2 :: values rest) ∧ elements m1 0 = .ok (values rest) ∧
        GetSize mem123 0 = some (rest.length + 1) ∧ GetSize m1 0 = some rest.length ∧
        Frame mem123 m1 0 [c]) ∧
    (ns123 = [] → PopFront mem123 0 = .ok mem123 () ∧ GetSize mem123 0 = some 0 ∧
      elements mem123 0 = .ok [])) :=
  ⟨isList_mem123, PopFront_spec mem123 0 ns123 isList_mem123⟩

/-- C4: for every list with nodes `pre ++ post` and `pos` the position of the last node of
`pre` (the before-begin sentinel when `pre` is empty), `InsertAfter(pos, x)` returns; the
list then has the nodes `pre`, a new node holding `x`, and `post`, its size has grown by
exactly one, and the returned handle refers to the new node: dereferencing it gives `x` and
advancing it gives the handle of the first node of `post`, or `end()` when `post` is
empty. -/
theorem InsertAfter_spec (m : Mem α) (this : Nat) (pre post : List (Nat × α)) (x : α)
    (h : IsList m this (pre ++ post)) (hsz : (pre ++ post).length + 1 < SIZE_MOD)
    (hb : 0 < m.budget) :
    ∃ m1 it, InsertAfter m this (lastPos this pre) x = .ok m1 it ∧
      it = ⟨.node m.heap.length⟩ ∧
      IsList m1 this (pre ++ (m.heap.length, x) :: post) ∧
      elements m this = .ok (values pre ++ values post) ∧
      elements m1 this = .ok (values pre ++ x :: values post) ∧
      GetSize m this = some (pre ++ post).length ∧
      GetSize m1 this = some ((pre ++ post).length + 1) ∧
      it.deref m1 = .ok x ∧ it.pre_increment m1 = .ok (firstPos post) := by
  obtain ⟨m1, hrun, hlist, _, _, _⟩ := InsertAfter_ok x h hsz hb
  have hlen : (pre ++ (m.heap.length, x) :: post).length = (pre ++ post).length + 1 := by
    simp only [List.length_append, List.length_cons]
    omega
  have hlist0 := hlist
  obtain ⟨L1, _, hseg1, _, _⟩ := hlist0
  obtain ⟨r, _, hnew⟩ := Seg_append.mp hseg1
  refine ⟨m1, _, hrun, rfl, hlist, ?_, ?_, GetSize_of_IsList h, ?_, deref_of_Seg hnew,
    pre_increment_of_Seg hnew⟩
  · rw [elements_of_IsList h]; simp [values]
  · rw [elements_of_IsList hlist]; simp [values]
  · rw [GetSize_of_IsList hlist, hlen]

theorem InsertAfter_spec_witness :
    (IsList mem123 0 (ns12 ++ ns3) ∧ (ns12 ++ ns3).length + 1 < SIZE_MOD ∧
      0 < mem123.budget) ∧
    ∃ m1 it, InsertAfter mem123 0 (lastPos 0 ns12) 9 = .ok m1 it ∧
      it = ⟨.node mem123.heap.length⟩ ∧
      IsList m1 0 (ns12 ++ (mem123.heap.length, 9) :: ns3) ∧
      elements mem123 0 = .ok (values ns12 ++ values ns3) ∧
      elements m1 0 = .ok (values ns12 ++ 9 :: values ns3) ∧
      GetSize mem123 0 = some (ns12 ++ ns3).length ∧
      GetSize m1 0 = some ((ns12 ++ ns3).length + 1) ∧
      it.deref m1 = .ok 9 ∧ it.pre_increment m1 = .ok (firstPos ns3) :=
  ⟨⟨isList_mem123, by decide, by decide⟩,
    InsertAfter_spec mem123 0 ns12 ns3 9 isList_mem123 (by decide) (by decide)⟩

/-- C5: for every list with nodes `pre ++ c :: post` and `pos` the position of the last node
of `pre` (the before-begin sentinel when `pre` is empty), `EraseAfter(pos)` returns; the
node `c` that followed `pos` is released and no other node is removed (of this list or of
the rest of the memory), the list then has the nodes `pre ++ post`, its size has decreased
by exactly one, and the returned handle refers to the first node of `post`, or is `end()`
when `post` is empty. -/
theorem EraseAfter_spec (m : Mem α) (this : Nat) (pre post : List (Nat × α)) (c : Nat × α)
    (h : IsList m this (pre ++ c :: post)) :
    ∃ m1, EraseAfter m this (lastPos this pre) = .ok m1 (firstPos post) ∧
      IsList m1 this (pre ++ post) ∧ m1.cell c.1 = none ∧
      elements m this = .ok (values pre ++ c.2 :: values post) ∧
      elements m1 this = .ok (values pre ++ values post) ∧
      GetSize m this = some ((pre ++ post).length + 1) ∧
      GetSize m1 this = some (pre ++ post).length ∧
      begin m1 this = some (firstPos (pre ++ post)) ∧
      Frame m m1 this (pre ++ [c]) := by
  obtain ⟨m1, hrun, hlist, hgone, hfr, _, _⟩ := EraseAfter_ok h
  have hlen : (pre ++ c :: post).length = (pre ++ post).length + 1 := by
    simp only [List.length_append, List.length_cons]
    omega
  refine ⟨m1, hrun, hlist, hgone, ?_, ?_, ?_, GetSize_of_IsList hlist, ?_, hfr⟩
  · rw [elements_of_IsList h]; simp [values]
  · rw [elements_of_IsList hlist]; simp [values]
  · rw [GetSize_of_IsList h, hlen]
  · obtain ⟨L1, hL1, hseg1, _, _⟩ := hlist
    simp only [begin, hL1, Option.map_some', Seg_firstPos hseg1]

theorem EraseAfter_spec_witness :
    IsList mem123 0 (ns_nil ++ (0, 1) :: ns23) ∧
    ∃ m1, EraseAfter mem123 0 (lastPos 0 ns_nil) = .ok m1 (firstPos ns23) ∧
      IsList m1 0 (ns_nil ++ ns23) ∧ m1.cell 0 = none ∧
      elements mem123 0 = .ok (values ns_nil ++ 1 :: values ns23) ∧
      elements m1 0 = .ok (values ns_nil ++ values ns23) ∧
      GetSize mem123 0 = some ((ns_nil ++ ns23).length + 1) ∧
      GetSize m1 0 = some (ns_nil ++ ns23).length ∧
      begin m1 0 = some (firstPos (ns_nil ++ ns23)) ∧
      Frame mem123 m1 0 (ns_nil ++ [(0, 1)]) :=
  ⟨isList_mem123, EraseAfter_spec mem123 0 ns_nil ns23 (0, 1) isList_mem123⟩

/-- C6: in every memory, for every list object and every value `x`,
`InsertAfter(before_begin(), x)` and `PushFront(x)` end in the same way and leave the same
memory (hence the same element sequence, size and head link), whether they return, throw
`std::bad_alloc` or fault; when they return, the handle returned by `InsertAfter` is
`begin()` of the result. They return whenever the list object exists and `new` does not
fail. -/
theorem InsertAfter_before_begin_eq_PushFront (m : Mem α) (this : Nat) (x : α) :
    (match InsertAfter m this (before_begin this) x with
      | .ok m1 it => PushFront m this x = .ok m1 () ∧ begin m1 this = some it
      | .bad_alloc m1 => PushFront m this x = .bad_alloc m1
      | .fault f => PushFront m this x = .fault f) ∧
    (∀ L, m.lists[this]? = some L → 0 < m.budget →
      ∃ m1 it, InsertAfter m this (before_begin this) x = .ok m1 it) := by
  have hne : ¬ (NodePtr.head this = NodePtr.nullptr) := by simp
  constructor
  · cases hL : m.lists[this]? with
    | none =>
      simp [InsertAfter, PushFront, before_begin, Mem.read, hL]
    | some L =>
      have hlt := lists_lt hL
      cases hbud : m.budget with
      | zero =>
        simp [InsertAfter, PushFront, before_begin, Mem.read, hL, Mem.new_Node, hbud]
      | succ b =>
        simp [InsertAfter, PushFront, before_begin, Mem.read, hL, Mem.new_Node, hbud,
          Mem.setNext, Mem.setList, begin, List.getElem?_set_self, hlt, List.set_set]
  · intro L hL hb
    have hlt := lists_lt hL
    obtain ⟨b, hbud⟩ : ∃ b, m.budget = b + 1 := ⟨m.budget - 1, by omega⟩
    simp [InsertAfter, before_begin, Mem.read, hL, Mem.new_Node, hbud,
      Mem.setNext, List.getElem?_set_self, hlt]

theorem InsertAfter_before_begin_eq_PushFront_witness :
    (match InsertAfter mem123 0 (before_begin 0) 0 with
      | .ok m1 it => PushFront mem123 0 0 = .ok m1 () ∧ begin m1 0 = some it
      | .bad_alloc m1 => PushFront mem123 0 0 = .bad_alloc m1
      | .fault f => PushFront mem123 0 0 = .fault f) ∧
    (∀ L, mem123.lists[0]? = some L → 0 < mem123.budget →
      ∃ m1 it, InsertAfter mem123 0 (before_begin 0) 0 = .ok m1 it) :=
  InsertAfter_before_begin_eq_PushFront mem123 0 0

/-! ## Copy construction, copy assignment, swap -/

/-- C7: for every list `A` with nodes `ns` (and with `new` not failing), the copy
constructor returns a new list `B` whose nodes hold the same element sequence in the same
order, with the same size; `A` keeps its list object and its nodes, so it is unchanged; and
`A == B` holds right after the copy for an element equality `eq` that is reflexive. -/
theorem copy_ctor_spec [Inhabited α] (eq : α → α → Bool) (hrefl : ∀ x, eq x x = true)
    (m : Mem α) (A : Nat) (ns : List (Nat × α)) (hA : IsList m A ns)
    (hb : ns.length ≤ m.budget) :
    ∃ m1 new, copy_ctor m A = .ok m1 m.lists.length ∧
      IsList m1 m.lists.length new ∧ values new = values ns ∧
      IsList m1 A ns ∧ m1.lists[A]? = m.lists[A]? ∧
      elements m A = .ok (values ns) ∧ elements m1 A = .ok (values ns) ∧
      elements m1 m.lists.length = .ok (values ns) ∧
      GetSize m A = some ns.length ∧ GetSize m1 A = some ns.length ∧
      GetSize m1 m.lists.length = some ns.length ∧
      operator_eq eq m1 A m.lists.length = .ok true := by
  obtain ⟨m1, new, hrun, hB, hvals, _, hA1, _, hlists, _⟩ := copy_ctor_ok hA hb
  have hlen : new.length = ns.length := by
    have := congrArg List.length hvals
    simpa [length_values] using this
  have hAlt : A < m.lists.length := by
    obtain ⟨L, hL, _⟩ := hA
    exact lists_lt hL
  refine ⟨m1, new, hrun, hB, hvals, hA1, hlists A hAlt, elements_of_IsList hA,
    elements_of_IsList hA1, ?_, GetSize_of_IsList hA, GetSize_of_IsList hA1, ?_,
    operator_eq_of_values_eq hrefl hA1 hB hvals.symm⟩
  · rw [elements_of_IsList hB, hvals]
  · rw [GetSize_of_IsList hB, hlen]

theorem copy_ctor_spec_witness :
    ((∀ x : Nat, (x == x) = true) ∧ IsList mem123 0 ns123 ∧ ns123.length ≤ mem123.budget) ∧
    ∃ m1 new, copy_ctor mem123 0 = .ok m1 mem123.lists.length ∧
      IsList m1 mem123.lists.length new ∧ values new = values ns123 ∧
      IsList m1 0 ns123 ∧ m1.lists[0]? = mem123.lists[0]? ∧
      elements mem123 0 = .ok (values ns123) ∧ elements m1 0 = .ok (values ns123) ∧
      elements m1 mem123.lists.length = .ok (values ns123) ∧
      GetSize mem123 0 = some ns123.length ∧ GetSize m1 0 = some ns123.length ∧
      GetSize m1 mem123.lists.length = some ns123.length ∧
      operator_eq (fun x y : Nat => x == y) m1 0 mem123.lists.length = .ok true :=
  ⟨⟨fun x => by simp, isList_mem123, by decide⟩,
    copy_ctor_spec (fun x y : Nat => x == y) (fun x => by simp) mem123 0 ns123 isList_mem123
      (by decide)⟩

/-- C9: for two distinct lists `A` (nodes `old`) and `B` (nodes `ns`) that share no node,
and with `new` not failing, the copy assignment `A = B` returns; `A` then consists of new
nodes holding the element sequence of `B`, with the size of `B`, the former nodes of `A`
are all released, and `B` keeps its list object and its nodes. The self-assignment `A = A`
returns with the memory unchanged. -/
theorem operator_assign_spec [Inhabited α] (m : Mem α) (A B : Nat) (old ns : List (Nat × α))
    (hA : IsList m A old) (hB : IsList m B ns) (hb : ns.length ≤ m.budget) :
    (A ≠ B → (∀ a, a ∈ addrs ns → a ∉ addrs old) →
      ∃ m1 new, operator_assign m A B = .ok m1 () ∧
        IsList m1 A new ∧ values new = values ns ∧ (∀ c ∈ old, m1.cell c.1 = none) ∧
        IsList m1 B ns ∧ m1.lists[B]? = m.lists[B]? ∧
        elements m B = .ok (values ns) ∧ elements m1 A = .ok (values ns) ∧
        elements m1 B = .ok (values ns) ∧
        GetSize m B = some ns.length ∧ GetSize m1 A = some ns.length ∧
        GetSize m1 B = some ns.length) ∧
    (operator_assign m A A = .ok m () ∧ elements m A = .ok (values old) ∧
      GetSize m A = some old.length) := by
  constructor
  · intro hne hdisj
    obtain ⟨m1, new, hrun, hA1, hvals, _, hB1, hgone, hfr, _, _⟩ :=
      operator_assign_ok hA hB hne hdisj hb
    have hlen : new.length = ns.length := by
      have := congrArg List.length hvals
      simpa [length_values] using this
    refine ⟨m1, new, hrun, hA1, hvals, hgone, hB1, hfr.2.1 B (Ne.symm hne),
      elements_of_IsList hB, ?_, elements_of_IsList hB1, GetSize_of_IsList hB, ?_,
      GetSize_of_IsList hB1⟩
    · rw [elements_of_IsList hA1, hvals]
    · rw [GetSize_of_IsList hA1, hlen]
  · exact ⟨by simp [operator_assign], elements_of_IsList hA, GetSize_of_IsList hA⟩

theorem operator_assign_spec_witness :
    (IsList mem123_78 0 ns123 ∧ IsList mem123_78 1 ns78 ∧ ns78.length ≤ mem123_78.budget) ∧
    ((0 ≠ 1 → (∀ a, a ∈ addrs ns78 → a ∉ addrs ns123) →
      ∃ m1 new, operator_assign mem123_78 0 1 = .ok m1 () ∧
        IsList m1 0 new ∧ values new = values ns78 ∧ (∀ c ∈ ns123, m1.cell c.1 = none) ∧
        IsList m1 1 ns78 ∧ m1.lists[1]? = mem123_78.lists[1]? ∧
        elements mem123_78 1 = .ok (values ns78) ∧ elements m1 0 = .ok (values ns78) ∧
        elements m1 1 = .ok (values ns78) ∧
        GetSize mem123_78 1 = some ns78.length ∧ GetSize m1 0 = some ns78.length ∧
        GetSize m1 1 = some ns78.length) ∧
    (operator_assign mem123_78 0 0 = .ok mem123_78 () ∧
      elements mem123_78 0 = .ok (values ns123) ∧
      GetSize mem123_78 0 = some ns123.length)) :=
  ⟨⟨isList_mem123_78_0, isList_mem123_78_1, by decide⟩,
    operator_assign_spec mem123_78 0 1 ns123 ns78 isList_mem123_78_0 isList_mem123_78_1
      (by decide)⟩

/-- C10: for every pair of lists `A` (nodes `nsA`) and `B` (nodes `nsB`), `swap`, as a
member and as a free function, returns; afterwards `A` has the nodes, element sequence and
size that `B` had and `B` those that `A` had. The free store is untouched (no value and no
`next_node` of any node changes), no allocation happens, the values held in the two
sentinels stay in place, and the two list objects have exchanged exactly their head link and
their `size_`. -/
theorem swap_spec (m : Mem α) (A B : Nat) (nsA nsB : List (Nat × α))
    (hA : IsList m A nsA) (hB : IsList m B nsB) :
    ∃ m1 LA LB, swap m A B = .ok m1 () ∧ free_swap m A B = .ok m1 () ∧
      IsList m1 A nsB ∧ IsList m1 B nsA ∧
      elements m A = .ok (values nsA) ∧ elements m B = .ok (values nsB) ∧
      elements m1 A = .ok (values nsB) ∧ elements m1 B = .ok (values nsA) ∧
      GetSize m A = some nsA.length ∧ GetSize m B = some nsB.length ∧
      GetSize m1 A = some nsB.length ∧ GetSize m1 B = some nsA.length ∧
      m1.heap = m.heap ∧ m1.budget = m.budget ∧
      m.lists[A]? = some LA ∧ m.lists[B]? = some LB ∧
      m1.lists[A]? = some ⟨⟨LA.head_.value, LB.head_.next_node⟩, LB.size_⟩ ∧
      m1.lists[B]? = some ⟨⟨LB.head_.value, LA.head_.next_node⟩, LA.size_⟩ ∧
      (∀ k, k ≠ A → k ≠ B → m1.lists[k]? = m.lists[k]?) := by
  have hA0 := hA
  have hB0 := hB
  obtain ⟨LA, hLA, hsegA, hszA, hltA⟩ := hA0
  obtain ⟨LB, hLB, hsegB, hszB, hltB⟩ := hB0
  obtain ⟨m1, hrun, hheap, hbud, _, hA1, hB1, hoth⟩ := swap_lists hLA hLB
  have hA2 : IsList m1 A nsB := ⟨_, hA1, Seg_of_heap_eq hheap hsegB, hszB, hltB⟩
  have hB2 : IsList m1 B nsA := ⟨_, hB1, Seg_of_heap_eq hheap hsegA, hszA, hltA⟩
  exact ⟨m1, LA, LB, hrun, hrun, hA2, hB2, elements_of_IsList hA, elements_of_IsList hB,
    elements_of_IsList hA2, elements_of_IsList hB2, GetSize_of_IsList hA,
    GetSize_of_IsList hB, GetSize_of_IsList hA2, GetSize_of_IsList hB2, hheap, hbud, hLA, hLB,
    hA1, hB1, hoth⟩

theorem swap_spec_witness :
    (IsList mem123_78 0 ns123 ∧ IsList mem123_78 1 ns78) ∧
    ∃ m1 LA LB, swap mem123_78 0 1 = .ok m1 () ∧ free_swap mem123_78 0 1 = .ok m1 () ∧
      IsList m1 0 ns78 ∧ IsList m1 1 ns123 ∧
      elements mem123_78 0 = .ok (values ns123) ∧ elements mem123_78 1 = .ok (values ns78) ∧
      elements m1 0 = .ok (values ns78) ∧ elements m1 1 = .ok (values ns123) ∧
      GetSize mem123_78 0 = some ns123.length ∧ GetSize mem123_78 1 = some ns78.length ∧
      GetSize m1 0 = some ns78.length ∧ GetSize m1 1 = some ns123.length ∧
      m1.heap = mem123_78.heap ∧ m1.budget = mem123_78.budget ∧
      mem123_78.lists[0]? = some LA ∧ mem123_78.lists[1]? = some LB ∧
      m1.lists[0]? = some ⟨⟨LA.head_.value, LB.head_.next_node⟩, LB.size_⟩ ∧
      m1.lists[1]? = some ⟨⟨LB.head_.value, LA.head_.next_node⟩, LA.size_⟩ ∧
      (∀ k, k ≠ 0 → k ≠ 1 → m1.lists[k]? = mem123_78.lists[k]?) :=
  ⟨⟨isList_mem123_78_0, isList_mem123_78_1⟩,
    swap_spec mem123_78 0 1 ns123 ns78 isList_mem123_78_0 isList_mem123_78_1⟩

/-- C8, copy independence: for every list `A` with nodes `nsA` (and with `new` not failing),
the copy `B` made by the copy constructor, and likewise the copy made by assigning `A` to an
existing list `B` that shares no node with `A`, consists of nodes allocated during the copy
(their addresses did not exist before), none of which is a node of `A`. And whenever two
lists `A` and `B` share no node, every `PushFront`, `PopFront`, `InsertAfter`, `EraseAfter`
and `Clear` called on `B` within its precondition (positions of `B`) returns and leaves the
list object, the nodes, the element sequence and the size of `A` unchanged, with the two
lists still sharing no node, so that this holds after any number of such calls. -/
theorem copy_independence [Inhabited α] (m : Mem α) (A : Nat) (nsA : List (Nat × α))
    (hA : IsList m A nsA) (hb : nsA.length ≤ m.budget) :
    (∃ m1 nsB, copy_ctor m A = .ok m1 m.lists.length ∧
      Independent m1 A nsA m.lists.length nsB ∧ values nsB = values nsA ∧
      (∀ c ∈ nsB, m.heap.length ≤ c.1)) ∧
    (∀ B nsB0, Independent m A nsA B nsB0 →
      ∃ m1 nsB, operator_assign m B A = .ok m1 () ∧
        Independent m1 A nsA B nsB ∧ values nsB = values nsA ∧
        (∀ c ∈ nsB, m.heap.length ≤ c.1)) ∧
    (∀ (m2 : Mem α) (B : Nat) (nsB : List (Nat × α)) (μ : Mutation α),
      Independent m2 A nsA B nsB → μ.pre m2 B nsB →
      ∃ m3 nsB1, mutate m2 B μ = .ok m3 () ∧ Independent m3 A nsA B nsB1 ∧
        m3.lists[A]? = m2.lists[A]? ∧
        elements m3 A = .ok (values nsA) ∧ GetSize m3 A = some nsA.length) := by
  have hAlt := IsList_addr_lt hA
  have hfresh : ∀ nsB : List (Nat × α), (∀ c ∈ nsB, m.heap.length ≤ c.1) →
      ∀ a, a ∈ addrs nsA → a ∉ addrs nsB := by
    intro nsB hnew a ha hmem
    obtain ⟨c, hc, hca⟩ := List.mem_map.mp hmem
    have h1 := hnew c hc
    have h2 := hAlt a ha
    omega
  refine ⟨?_, ?_, ?_⟩
  · obtain ⟨m1, nsB, hrun, hB, hvals, hnew, hA1, _, _, _⟩ := copy_ctor_ok hA hb
    have hAl : A < m.lists.length := by
      obtain ⟨L, hL, _⟩ := hA
      exact lists_lt hL
    exact ⟨m1, nsB, hrun, ⟨Nat.ne_of_lt hAl, hA1, hB, hfresh nsB hnew⟩, hvals, hnew⟩
  · intro B nsB0 hind
    obtain ⟨hne, _, hB0, hdisj⟩ := hind
    obtain ⟨m1, nsB, hrun, hB, hvals, hnew, hA1, _, _⟩ :=
      operator_assign_ok hB0 hA (Ne.symm hne) hdisj hb
    exact ⟨m1, nsB, hrun, ⟨hne, hA1, hB, hfresh nsB hnew⟩, hvals, hnew⟩
  · intro m2 B nsB μ hind hpre
    obtain ⟨m3, nsB1, hrun, hind3, hsame⟩ := mutate_independent μ hind hpre
    exact ⟨m3, nsB1, hrun, hind3, hsame, elements_of_IsList hind3.2.1,
      GetSize_of_IsList hind3.2.1⟩

theorem copy_independence_witness :
    (IsList mem123 0 ns123 ∧ ns123.length ≤ mem123.budget) ∧
    ((∃ m1 nsB, copy_ctor mem123 0 = .ok m1 mem123.lists.length ∧
      Independent m1 0 ns123 mem123.lists.length nsB ∧ values nsB = values ns123 ∧
      (∀ c ∈ nsB, mem123.heap.length ≤ c.1)) ∧
    (∀ B nsB0, Independent mem123 0 ns123 B nsB0 →
      ∃ m1 nsB, operator_assign mem123 B 0 = .ok m1 () ∧
        Independent m1 0 ns123 B nsB ∧ values nsB = values ns123 ∧
        (∀ c ∈ nsB, mem123.heap.length ≤ c.1)) ∧
    (∀ (m2 : Mem Nat) (B : Nat) (nsB : List (Nat × Nat)) (μ : Mutation Nat),
      Independent m2 0 ns123 B nsB → μ.pre m2 B nsB →
      ∃ m3 nsB1, mutate m2 B μ = .ok m3 () ∧ Independent m3 0 ns123 B nsB1 ∧
        m3.lists[0]? = m2.lists[0]? ∧
        elements m3 0 = .ok (values ns123) ∧ GetSize m3 0 = some ns123.length)) :=
  ⟨⟨isList_mem123, by decide⟩, copy_independence mem123 0 ns123 isList_mem123 (by decide)⟩

/-- The example of C8 evaluated: `A = [1, 2, 3]`, `B = A` by copy construction, then
`B.PushFront(0)`; afterwards `A` iterates as `[1, 2, 3]` with size 3 and `B` as
`[0, 1, 2, 3]` with size 4. -/
theorem copy_then_PushFront_example :
    (match copy_ctor mem123 0 with
      | .ok m1 B =>
        match PushFront m1 B 0 with
        | .ok m2 _ => some (elements m2 0, GetSize m2 0, elements m2 B, GetSize m2 B)
        | _ => none
      | _ => none) =
    some (.ok [1, 2, 3], some 3, .ok [0, 1, 2, 3], some 4) := by
  rfl

/-! ## Comparison of element sequences -/

section Comparison

theorem equal_lists_iff (eq : α → α → Bool) :
    ∀ (xs ys : List α), equal_lists eq xs ys = true ↔ SizesMatchAndPairsEqual eq xs ys := by
  intro xs
  induction xs with
  | nil =>
    intro ys
    cases ys with
    | nil => simp [equal_lists, SizesMatchAndPairsEqual]
    | cons b ys => simp [equal_lists, SizesMatchAndPairsEqual]
  | cons a xs ih =>
    intro ys
    cases ys with
    | nil => simp [equal_lists, SizesMatchAndPairsEqual]
    | cons b ys =>
      simp only [equal_lists, Bool.and_eq_true, ih ys, SizesMatchAndPairsEqual,
        List.length_cons, Nat.add_right_cancel_iff]
      constructor
      · rintro ⟨hab, hlen, hall⟩
        refine ⟨hlen, fun i a1 b1 h1 h2 => ?_⟩
        cases i with
        | zero =>
          simp only [List.getElem?_cons_zero, Option.some.injEq] at h1 h2
          rw [← h1, ← h2]; exact hab
        | succ k =>
          simp only [List.getElem?_cons_succ] at h1 h2
          exact hall k a1 b1 h1 h2
      · rintro ⟨hlen, hall⟩
        refine ⟨hall 0 a b (by simp) (by simp), hlen, fun i a1 b1 h1 h2 => ?_⟩
        exact hall (i + 1) a1 b1 (by simpa using h1) (by simpa using h2)

theorem LexLess_cons (lt : α → α → Bool) (a b : α) (xs ys : List α) :
    LexLess lt (a :: xs) (b :: ys) ↔
      lt a b = true ∨ (lt a b = false ∧ lt b a = false ∧ LexLess lt xs ys) := by
  constructor
  · rintro (⟨hlen, hall⟩ | ⟨i, a1, b1, hx, hy, hlt, hprev⟩)
    · obtain ⟨h1, h2⟩ := hall 0 a b (by simp) (by simp)
      refine Or.inr ⟨h1, h2, Or.inl ⟨by simpa using hlen, fun i a1 b1 hx hy => ?_⟩⟩
      exact hall (i + 1) a1 b1 (by simpa using hx) (by simpa using hy)
    · cases i with
      | zero =>
        simp only [List.getElem?_cons_zero, Option.some.injEq] at hx hy
        rw [← hx, ← hy] at hlt
        exact Or.inl hlt
      | succ k =>
        obtain ⟨h1, h2⟩ := hprev 0 a b (by omega) (by simp) (by simp)
        simp only [List.getElem?_cons_succ] at hx hy
        refine Or.inr ⟨h1, h2, Or.inr ⟨k, a1, b1, hx, hy, hlt, fun j a2 b2 hj hx2 hy2 => ?_⟩⟩
        exact hprev (j + 1) a2 b2 (by omega) (by simpa using hx2) (by simpa using hy2)
  · rintro (hlt | ⟨h1, h2, hrest⟩)
    · exact Or.inr ⟨0, a, b, by simp, by simp, hlt, fun j _ _ hj => absurd hj (by omega)⟩
    · rcases hrest with ⟨hlen, hall⟩ | ⟨i, a1, b1, hx, hy, hlt, hprev⟩
      · refine Or.inl ⟨by simpa using hlen, fun i a1 b1 hx hy => ?_⟩
        cases i with
        | zero =>
          simp only [List.getElem?_cons_zero, Option.some.injEq] at hx hy
          rw [← hx, ← hy]; exact ⟨h1, h2⟩
        | succ k =>
          simp only [List.getElem?_cons_succ] at hx hy
          exact hall k a1 b1 hx hy
      · refine Or.inr ⟨i + 1, a1, b1, by simpa using hx, by simpa using hy, hlt,
          fun j a2 b2 hj hx2 hy2 => ?_⟩
        cases j with
        | zero =>
          simp only [List.getElem?_cons_zero, Option.some.injEq] at hx2 hy2
          rw [← hx2, ← hy2]; exact ⟨h1, h2⟩
        | succ k =>
          simp only [List.getElem?_cons_succ] at hx2 hy2
          exact hprev k a2 b2 (by omega) hx2 hy2

theorem lex_lists_iff (lt : α → α → Bool) :
    ∀ (xs ys : List α), lex_lists lt xs ys = true ↔ LexLess lt xs ys := by
  intro xs
  induction xs with
  | nil =>
    intro ys
    cases ys with
    | nil => simp [lex_lists, LexLess]
    | cons b ys => simp [lex_lists, LexLess]
  | cons a xs ih =>
    intro ys
    cases ys with
    | nil => simp [lex_lists, LexLess]
    | cons b ys =>
      rw [LexLess_cons, ← ih ys]
      cases hab : lt a b <;> cases hba : lt b a <;> simp [lex_lists, hab, hba]

theorem std_equal_val (eq : α → α → Bool) {m : Mem α} {nsA : List (Nat × α)} :
    ∀ {nsB : List (Nat × α)} {p q : NodePtr} {fuel : Nat},
      Seg m p nsA .nullptr → Seg m q nsB .nullptr → nsA.length = nsB.length →
      nsA.length ≤ fuel →
      std_equal eq m fuel ⟨p⟩ end_ ⟨q⟩ = .ok (equal_lists eq (values nsA) (values nsB)) := by
  induction nsA with
  | nil =>
    intro nsB p q fuel hp _ hlen _
    have hnull : p = .nullptr := hp
    subst hnull
    cases nsB with
    | nil => cases fuel <;> simp [std_equal, BasicIterator.ne, BasicIterator.eq, end_, values,
        equal_lists]
    | cons d nsB => simp at hlen
  | cons c nsA ih =>
    intro nsB p q fuel hp hq hlen hfuel
    obtain ⟨fuel1, rfl⟩ : ∃ f, fuel = f + 1 := ⟨fuel - 1, by simp at hfuel; omega⟩
    cases nsB with
    | nil => simp at hlen
    | cons d nsB =>
      have hd1 := deref_of_Seg hp
      have hd2 := deref_of_Seg hq
      obtain ⟨hpe, nx, hcell, hrest⟩ := hp
      obtain ⟨hqe, nx1, hcell1, hrest1⟩ := hq
      subst hpe; subst hqe
      have hr1 : m.read (.node c.1) = some ⟨c.2, nx⟩ := hcell
      have hr2 : m.read (.node d.1) = some ⟨d.2, nx1⟩ := hcell1
      have hi1 : (BasicIterator.mk (.node c.1)).pre_increment m = .ok ⟨nx⟩ := by
        simp [BasicIterator.pre_increment, hr1]
      have hi2 : (BasicIterator.mk (.node d.1)).pre_increment m = .ok ⟨nx1⟩ := by
        simp [BasicIterator.pre_increment, hr2]
      have hne : (BasicIterator.mk (.node c.1)).ne end_ = true := by
        simp [BasicIterator.ne, BasicIterator.eq, end_]
      have hrec := ih hrest hrest1 (by simpa using hlen) (show nsA.length ≤ fuel1 by simpa using hfuel)
      cases hcd : eq c.2 d.2
      · simp [std_equal, hne, hd1, hd2, hcd, values, equal_lists]
      · simp only [std_equal, hne, if_true, hd1, hd2, hcd, hi1, hi2, hrec]
        simp [values, equal_lists, hcd]

theorem std_lexicographical_compare_val (lt : α → α → Bool) {m : Mem α}
    {nsA : List (Nat × α)} :
    ∀ {nsB : List (Nat × α)} {p q : NodePtr} {fuel : Nat},
      Seg m p nsA .nullptr → Seg m q nsB .nullptr → nsA.length ≤ fuel →
      std_lexicographical_compare lt m fuel ⟨p⟩ end_ ⟨q⟩ end_ =
        .ok (lex_lists lt (values nsA) (values nsB)) := by
  induction nsA with
  | nil =>
    intro nsB p q fuel hp hq _
    have hnull : p = .nullptr := hp
    subst hnull
    cases nsB with
    | nil =>
      have hnull1 : q = .nullptr := hq
      subst hnull1
      cases fuel <;> simp [std_lexicographical_compare, BasicIterator.ne, BasicIterator.eq,
        end_, values, lex_lists]
    | cons d nsB =>
      have hq1 : q = .node d.1 := hq.1
      subst hq1
      cases fuel <;> simp [std_lexicographical_compare, BasicIterator.ne, BasicIterator.eq,
        end_, values, lex_lists]
  | cons c nsA ih =>
    intro nsB p q fuel hp hq hfuel
    obtain ⟨fuel1, rfl⟩ : ∃ f, fuel = f + 1 := ⟨fuel - 1, by simp at hfuel; omega⟩
    have hp1 : p = .node c.1 := hp.1
    cases nsB with
    | nil =>
      have hnull1 : q = .nullptr := hq
      subst hnull1; subst hp1
      simp [std_lexicographical_compare, BasicIterator.ne, BasicIterator.eq, end_, values,
        lex_lists]
    | cons d nsB =>
      have hd1 := deref_of_Seg hp
      have hd2 := deref_of_Seg hq
      obtain ⟨hpe, nx, hcell, hrest⟩ := hp
      obtain ⟨hqe, nx1, hcell1, hrest1⟩ := hq
      subst hpe; subst hqe
      have hr1 : m.read (.node c.1) = some ⟨c.2, nx⟩ := hcell
      have hr2 : m.read (.node d.1) = some ⟨d.2, nx1⟩ := hcell1
      have hi1 : (BasicIterator.mk (.node c.1)).pre_increment m = .ok ⟨nx⟩ := by
        simp [BasicIterator.pre_increment, hr1]
      have hi2 : (BasicIterator.mk (.node d.1)).pre_increment m = .ok ⟨nx1⟩ := by
        simp [BasicIterator.pre_increment, hr2]
      have hne1 : (BasicIterator.mk (.node c.1)).ne end_ = true := by
        simp [BasicIterator.ne, BasicIterator.eq, end_]
      have hne2 : (BasicIterator.mk (.node d.1)).ne end_ = true := by
        simp [BasicIterator.ne, BasicIterator.eq, end_]
      have hrec := ih hrest hrest1 (show nsA.length ≤ fuel1 by simpa using hfuel)
      cases hcd : lt c.2 d.2 <;> cases hdc : lt d.2 c.2 <;>
        simp [std_lexicographical_compare, hne1, hne2, hd1, hd2, hcd, hdc, hi1, hi2, hrec,
          values, lex_lists]

theorem equal_lists_length {eq : α → α → Bool} {xs ys : List α}
    (h : equal_lists eq xs ys = true) : xs.length = ys.length :=
  ((equal_lists_iff eq xs ys).mp h).1

/-- The value `operator==` returns on two distinct list objects. -/
theorem operator_eq_val (eq : α → α → Bool) {m : Mem α} {A B : Nat}
    {nsA nsB : List (Nat × α)} (hA : IsList m A nsA) (hB : IsList m B nsB) (hne : A ≠ B) :
    operator_eq eq m A B = .ok (equal_lists eq (values nsA) (values nsB)) := by
  obtain ⟨LA, hLA, hsegA, hszA, _⟩ := hA
  obtain ⟨LB, hLB, hsegB, hszB, _⟩ := hB
  by_cases hlen : nsA.length = nsB.length
  · simp only [operator_eq, if_neg hne, GetSize, begin, hLA, hLB, Option.map_some', hszA, hszB,
      hlen, ne_eq, not_true_eq_false, if_false]
    exact std_equal_val eq hsegA hsegB hlen (Seg_null_length_le hsegA)
  · have hfalse : equal_lists eq (values nsA) (values nsB) = false := by
      cases h : equal_lists eq (values nsA) (values nsB)
      · rfl
      · exact absurd (by simpa [length_values] using equal_lists_length h) hlen
    simp only [operator_eq, if_neg hne, GetSize, hLA, hLB, Option.map_some', hszA, hszB,
      ne_eq, hlen, not_false_eq_true, if_true, hfalse]

/-- The value `operator<` returns on two lists. -/
theorem operator_lt_val (lt : α → α → Bool) {m : Mem α} {A B : Nat}
    {nsA nsB : List (Nat × α)} (hA : IsList m A nsA) (hB : IsList m B nsB) :
    operator_lt lt m A B = .ok (lex_lists lt (values nsA) (values nsB)) := by
  obtain ⟨LA, hLA, hsegA, _, _⟩ := hA
  obtain ⟨LB, hLB, hsegB, _, _⟩ := hB
  simp only [operator_lt, begin, hLA, hLB, Option.map_some']
  exact std_lexicographical_compare_val lt hsegA hsegB (Seg_null_length_le hsegA)

theorem equal_lists_symm {eq : α → α → Bool} (hsymm : ∀ x y, eq x y = eq y x) :
    ∀ (xs ys : List α), equal_lists eq xs ys = equal_lists eq ys xs := by
  intro xs
  induction xs with
  | nil => intro ys; cases ys <;> simp [equal_lists]
  | cons a xs ih =>
    intro ys
    cases ys with
    | nil => simp [equal_lists]
    | cons b ys => simp [equal_lists, hsymm a b, ih ys]

theorem equal_lists_refl {eq : α → α → Bool} (hrefl : ∀ x, eq x x = true) :
    ∀ (xs : List α), equal_lists eq xs xs = true := by
  intro xs
  induction xs with
  | nil => simp [equal_lists]
  | cons a xs ih => simp [equal_lists, hrefl a, ih]

theorem equal_lists_decide [DecidableEq α] :
    ∀ (xs ys : List α), equal_lists (fun x y => decide (x = y)) xs ys = decide (xs = ys) := by
  intro xs
  induction xs with
  | nil => intro ys; cases ys <;> simp [equal_lists]
  | cons a xs ih =>
    intro ys
    cases ys with
    | nil => simp [equal_lists]
    | cons b ys => simp [equal_lists, ih ys]

theorem lex_lists_irrefl {lt : α → α → Bool} (hirr : ∀ x, lt x x = false) :
    ∀ (xs : List α), lex_lists lt xs xs = false := by
  intro xs
  induction xs with
  | nil => simp [lex_lists]
  | cons a xs ih => simp [lex_lists, hirr a, ih]

/-- For a strict order `lt` and an equality `eq` that holds exactly between elements neither
of which is less than the other, exactly one of "less", "equal", "greater" holds between
two element sequences. -/
theorem lists_trichotomy {eq lt : α → α → Bool} (hirr : ∀ x, lt x x = false)
    (htrans : ∀ x y z, lt x y = true → lt y z = true → lt x z = true)
    (hagree : ∀ x y, eq x y = true ↔ (lt x y = false ∧ lt y x = false)) :
    ∀ (xs ys : List α),
      (lex_lists lt xs ys = true ∧ equal_lists eq xs ys = false ∧ lex_lists lt ys xs = false) ∨
      (lex_lists lt xs ys = false ∧ equal_lists eq xs ys = true ∧ lex_lists lt ys xs = false) ∨
      (lex_lists lt xs ys = false ∧ equal_lists eq xs ys = false ∧ lex_lists lt ys xs = true) := by
  have hasymm : ∀ x y, lt x y = true → lt y x = false := by
    intro x y hxy
    cases hyx : lt y x
    · rfl
    · have := htrans x y x hxy hyx
      rw [hirr x] at this
      exact absurd this (by simp)
  intro xs
  induction xs with
  | nil =>
    intro ys
    cases ys <;> simp [lex_lists, equal_lists]
  | cons a xs ih =>
    intro ys
    cases ys with
    | nil => simp [lex_lists, equal_lists]
    | cons b ys =>
      cases hab : lt a b
      · cases hba : lt b a
        · have heq : eq a b = true := (hagree a b).mpr ⟨hab, hba⟩
          simpa [lex_lists, equal_lists, hab, hba, heq] using ih ys
        · have heq : eq a b = false := by
            cases h : eq a b
            · rfl
            · have := ((hagree a b).mp h).2
              rw [hba] at this
              exact absurd this (by simp)
          simp [lex_lists, equal_lists, hab, hba, heq]
      · have hba : lt b a = false := hasymm a b hab
        have heq : eq a b = false := by
          cases h : eq a b
          · rfl
          · have := ((hagree a b).mp h).1
            rw [hab] at this
            exact absurd this (by simp)
        simp [lex_lists, equal_lists, hab, hba, heq]

theorem LexLess_iff_LexLessNe {lt : α → α → Bool}
    (hdiff : ∀ x y, (lt x y = false ∧ lt y x = false) ↔ x = y) (xs ys : List α) :
    LexLess lt xs ys ↔ LexLessNe lt xs ys := by
  have hne : ∀ x y, lt x y = true → x ≠ y := by
    intro x y hxy hEq
    have := ((hdiff x y).mpr hEq).1
    rw [hxy] at this
    exact absurd this (by simp)
  constructor
  · rintro (⟨hlen, hall⟩ | ⟨i, a, b, hx, hy, hlt, hprev⟩)
    · exact Or.inl ⟨hlen, fun i a b hx hy => (hdiff a b).mp (hall i a b hx hy)⟩
    · exact Or.inr ⟨i, a, b, hx, hy, hne a b hlt, hlt, fun j a1 b1 hj hx1 hy1 =>
        (hdiff a1 b1).mp (hprev j a1 b1 hj hx1 hy1)⟩
  · rintro (⟨hlen, hall⟩ | ⟨i, a, b, hx, hy, _, hlt, hprev⟩)
    · exact Or.inl ⟨hlen, fun i a b hx hy => (hdiff a b).mpr (hall i a b hx hy)⟩
    · exact Or.inr ⟨i, a, b, hx, hy, hlt, fun j a1 b1 hj hx1 hy1 =>
        (hdiff a1 b1).mpr (hprev j a1 b1 hj hx1 hy1)⟩

theorem IsList_unique {m : Mem α} {A : Nat} {ns ns1 : List (Nat × α)}
    (h : IsList m A ns) (h1 : IsList m A ns1) : ns = ns1 := by
  obtain ⟨L, hL, hseg, _, _⟩ := h
  obtain ⟨L1, hL1, hseg1, _, _⟩ := h1
  rw [hL] at hL1
  rw [← Option.some.inj hL1] at hseg1
  exact Seg_null_unique hseg hseg1

theorem isList_mem_cmp0 : IsList mem_cmp 0 ns_cmp0 := by decide

theorem isList_mem_cmp1 : IsList mem_cmp 1 ns_cmp1 := by decide

theorem isList_mem_nan : IsList mem_nan 0 ns_nan := by decide

end Comparison

/-! ## `operator==`, `operator<` and the derived comparisons -/

/-- C11, counterexample: with an element equality that is not reflexive (`eq_nan`, where
`none` is not equal to itself, as a NaN is not), the list `[none]` compared with itself
makes `operator==` return `true` by the identity test `&lhs == &rhs`, although its one
pair of corresponding elements does not compare equal. -/
theorem operator_eq_identity_counterexample :
    IsList mem_nan 0 ns_nan ∧
    operator_eq eq_nan mem_nan 0 0 = .ok true ∧
    ¬ SizesMatchAndPairsEqual eq_nan (values ns_nan) (values ns_nan) ∧
    ¬ (operator_eq eq_nan mem_nan 0 0 = .ok true ↔
        SizesMatchAndPairsEqual eq_nan (values ns_nan) (values ns_nan)) := by
  have hrun : operator_eq eq_nan mem_nan 0 0 = .ok true := rfl
  have hnot : ¬ SizesMatchAndPairsEqual eq_nan (values ns_nan) (values ns_nan) := by
    rintro ⟨_, hall⟩
    have := hall 0 none none rfl rfl
    simp [eq_nan] at this
  exact ⟨isList_mem_nan, hrun, hnot, fun h => hnot (h.mp hrun)⟩

/-- C11, as amended: for two distinct list objects `A` and `B`, `operator==` returns, and
returns `true` iff the sizes match and every corresponding pair of elements compares equal;
a list compared with itself gives `true` by identity, without comparing elements. Hence for
a reflexive element equality the iff holds for every pair of lists, and for the equality of
values it says that the element sequences are equal. `operator==` is reflexive, it is
symmetric when the element equality is, and lists of different sizes are never equal:
`[1, 2] != [1, 2, 3]`. -/
theorem operator_eq_spec [DecidableEq α] (eq : α → α → Bool) (m : Mem α) (A B : Nat)
    (nsA nsB : List (Nat × α)) (hA : IsList m A nsA) (hB : IsList m B nsB) :
    (A ≠ B → ∃ r, operator_eq eq m A B = .ok r ∧
      (r = true ↔ SizesMatchAndPairsEqual eq (values nsA) (values nsB))) ∧
    operator_eq eq m A A = .ok true ∧
    ((∀ x, eq x x = true) → ∃ r, operator_eq eq m A B = .ok r ∧
      (r = true ↔ SizesMatchAndPairsEqual eq (values nsA) (values nsB))) ∧
    (∃ r, operator_eq (fun x y => decide (x = y)) m A B = .ok r ∧
      (r = true ↔ values nsA = values nsB)) ∧
    ((∀ x y, eq x y = eq y x) → operator_eq eq m A B = operator_eq eq m B A) ∧
    (nsA.length ≠ nsB.length →
      operator_eq eq m A B = .ok false ∧ operator_ne eq m A B = .ok true) ∧
    (operator_eq nat_eq mem_cmp 0 1 = .ok false ∧ operator_ne nat_eq mem_cmp 0 1 = .ok true) := by
  have hself : ∀ (e : α → α → Bool), operator_eq e m A A = .ok true := by
    intro e; simp [operator_eq]
  have hrefl_all : ∀ (e : α → α → Bool), (∀ x, e x x = true) →
      ∃ r, operator_eq e m A B = .ok r ∧
        (r = true ↔ SizesMatchAndPairsEqual e (values nsA) (values nsB)) := by
    intro e hrefl
    by_cases hAB : A = B
    · subst hAB
      have hns : nsA = nsB := IsList_unique hA hB
      subst hns
      refine ⟨true, hself e, ?_⟩
      simp only [true_iff]
      exact (equal_lists_iff e _ _).mp (equal_lists_refl hrefl _)
    · exact ⟨_, operator_eq_val e hA hB hAB, equal_lists_iff e _ _⟩
  refine ⟨fun hAB => ⟨_, operator_eq_val eq hA hB hAB, equal_lists_iff eq _ _⟩, hself eq,
    hrefl_all eq, ?_, ?_, ?_, rfl, rfl⟩
  · obtain ⟨r, hrun, hiff⟩ := hrefl_all (fun x y => decide (x = y)) (fun x => by simp)
    refine ⟨r, hrun, hiff.trans ?_⟩
    rw [← equal_lists_iff, equal_lists_decide]
    simp
  · intro hsymm
    by_cases hAB : A = B
    · subst hAB; rfl
    · rw [operator_eq_val eq hA hB hAB, operator_eq_val eq hB hA (Ne.symm hAB),
        equal_lists_symm hsymm]
  · intro hlen
    have hAB : A ≠ B := by
      intro hAB
      subst hAB
      exact hlen (congrArg List.length (IsList_unique hA hB))
    have hfalse : equal_lists eq (values nsA) (values nsB) = false := by
      cases h : equal_lists eq (values nsA) (values nsB)
      · rfl
      · exact absurd (by simpa [length_values] using equal_lists_length h) hlen
    have hrun : operator_eq eq m A B = .ok false := by
      rw [operator_eq_val eq hA hB hAB, hfalse]
    exact ⟨hrun, by simp [operator_ne, hrun]⟩

theorem operator_eq_spec_witness :
    (IsList mem_cmp 0 ns_cmp0 ∧ IsList mem_cmp 1 ns_cmp1) ∧
    ((0 ≠ 1 → ∃ r, operator_eq nat_eq mem_cmp 0 1 = .ok r ∧
      (r = true ↔ SizesMatchAndPairsEqual nat_eq (values ns_cmp0) (values ns_cmp1))) ∧
    operator_eq nat_eq mem_cmp 0 0 = .ok true ∧
    ((∀ x, nat_eq x x = true) → ∃ r, operator_eq nat_eq mem_cmp 0 1 = .ok r ∧
      (r = true ↔ SizesMatchAndPairsEqual nat_eq (values ns_cmp0) (values ns_cmp1))) ∧
    (∃ r, operator_eq (fun x y : Nat => decide (x = y)) mem_cmp 0 1 = .ok r ∧
      (r = true ↔ values ns_cmp0 = values ns_cmp1)) ∧
    ((∀ x y, nat_eq x y = nat_eq y x) →
      operator_eq nat_eq mem_cmp 0 1 = operator_eq nat_eq mem_cmp 1 0) ∧
    (ns_cmp0.length ≠ ns_cmp1.length →
      operator_eq nat_eq mem_cmp 0 1 = .ok false ∧ operator_ne nat_eq mem_cmp 0 1 = .ok true) ∧
    (operator_eq nat_eq mem_cmp 0 1 = .ok false ∧
      operator_ne nat_eq mem_cmp 0 1 = .ok true)) :=
  ⟨⟨isList_mem_cmp0, isList_mem_cmp1⟩,
    operator_eq_spec nat_eq mem_cmp 0 1 ns_cmp0 ns_cmp1 isList_mem_cmp0 isList_mem_cmp1⟩

/-- C12: for every pair of lists `A` and `B`, `operator<` returns the standard
lexicographic comparison of their element sequences: it returns `true` iff `A` is a proper
prefix of `B` or, at the first index where the elements differ, the element of `A` is less
than the element of `B`. Two elements differ, as in `std::lexicographical_compare`, when
one of them is less than the other; for an ordering in which this is the case exactly for
two elements that are not the same, "differ" can be read as "are not the same". In
particular `[1, 2] < [1, 2, 3]`, `[1, 2, 4] > [1, 2, 3]`, `[] < [1]`, and neither
`[] < []` nor `[] > []`. -/
theorem operator_lt_spec (lt : α → α → Bool) (m : Mem α) (A B : Nat)
    (nsA nsB : List (Nat × α)) (hA : IsList m A nsA) (hB : IsList m B nsB) :
    (∃ r, operator_lt lt m A B = .ok r ∧
      (r = true ↔ LexLess lt (values nsA) (values nsB)) ∧
      ((∀ x y, (lt x y = false ∧ lt y x = false) ↔ x = y) →
        (r = true ↔ LexLessNe lt (values nsA) (values nsB)))) ∧
    (operator_lt nat_lt mem_cmp 0 1 = .ok true ∧ operator_gt nat_lt mem_cmp 2 1 = .ok true ∧
      operator_lt nat_lt mem_cmp 3 4 = .ok true ∧ operator_lt nat_lt mem_cmp 3 5 = .ok false ∧
      operator_gt nat_lt mem_cmp 3 5 = .ok false ∧ operator_lt nat_lt mem_cmp 3 3 = .ok false ∧
      operator_gt nat_lt mem_cmp 3 3 = .ok false) := by
  refine ⟨⟨_, operator_lt_val lt hA hB, lex_lists_iff lt _ _, fun hdiff => ?_⟩,
    rfl, rfl, rfl, rfl, rfl, rfl, rfl⟩
  exact (lex_lists_iff lt _ _).trans (LexLess_iff_LexLessNe hdiff _ _)

theorem operator_lt_spec_witness :
    (IsList mem_cmp 0 ns_cmp0 ∧ IsList mem_cmp 1 ns_cmp1) ∧
    ((∃ r, operator_lt nat_lt mem_cmp 0 1 = .ok r ∧
      (r = true ↔ LexLess nat_lt (values ns_cmp0) (values ns_cmp1)) ∧
      ((∀ x y, (nat_lt x y = false ∧ nat_lt y x = false) ↔ x = y) →
        (r = true ↔ LexLessNe nat_lt (values ns_cmp0) (values ns_cmp1)))) ∧
    (operator_lt nat_lt mem_cmp 0 1 = .ok true ∧ operator_gt nat_lt mem_cmp 2 1 = .ok true ∧
      operator_lt nat_lt mem_cmp 3 4 = .ok true ∧ operator_lt nat_lt mem_cmp 3 5 = .ok false ∧
      operator_gt nat_lt mem_cmp 3 5 = .ok false ∧ operator_lt nat_lt mem_cmp 3 3 = .ok false ∧
      operator_gt nat_lt mem_cmp 3 3 = .ok false)) :=
  ⟨⟨isList_mem_cmp0, isList_mem_cmp1⟩,
    operator_lt_spec nat_lt mem_cmp 0 1 ns_cmp0 ns_cmp1 isList_mem_cmp0 isList_mem_cmp1⟩

/-- C13: for every memory, every pair of list objects and every element equality `eq` and
element ordering `lt`, with no assumption on them: `A != B` is the negation of `A == B`,
`A <= B` is the negation of `B < A`, `A > B` is `B < A`, and `A >= B` is the negation of
`A < B` (a fault of the comparison on the right is the fault of the one on the left). On two
lists all seven comparisons return. -/
theorem derived_comparisons (eq lt : α → α → Bool) (m : Mem α) (A B : Nat) :
    operator_ne eq m A B = (operator_eq eq m A B).map (fun b => !b) ∧
    operator_le lt m A B = (operator_lt lt m B A).map (fun b => !b) ∧
    operator_gt lt m A B = operator_lt lt m B A ∧
    operator_ge lt m A B = (operator_lt lt m A B).map (fun b => !b) ∧
    (∀ nsA nsB, IsList m A nsA → IsList m B nsB →
      ∃ e l g, operator_eq eq m A B = .ok e ∧ operator_lt lt m A B = .ok l ∧
        operator_lt lt m B A = .ok g ∧
        operator_ne eq m A B = .ok (!e) ∧ operator_le lt m A B = .ok (!g) ∧
        operator_gt lt m A B = .ok g ∧ operator_ge lt m A B = .ok (!l)) := by
  refine ⟨?_, ?_, rfl, ?_, ?_⟩
  · unfold operator_ne
    cases operator_eq eq m A B <;> rfl
  · unfold operator_le
    cases operator_lt lt m B A <;> rfl
  · unfold operator_ge
    cases operator_lt lt m A B <;> rfl
  · intro nsA nsB hA hB
    have hl := operator_lt_val lt hA hB
    have hg := operator_lt_val lt hB hA
    have he : ∃ e, operator_eq eq m A B = .ok e := by
      by_cases hAB : A = B
      · exact ⟨true, by simp [operator_eq, hAB]⟩
      · exact ⟨_, operator_eq_val eq hA hB hAB⟩
    obtain ⟨e, he⟩ := he
    exact ⟨e, _, _, he, hl, hg, by simp [operator_ne, he], by simp [operator_le, hg],
      hg, by simp [operator_ge, hl]⟩

theorem derived_comparisons_witness :
    operator_ne nat_eq mem_cmp 0 1 = (operator_eq nat_eq mem_cmp 0 1).map (fun b => !b) ∧
    operator_le nat_lt mem_cmp 0 1 = (operator_lt nat_lt mem_cmp 1 0).map (fun b => !b) ∧
    operator_gt nat_lt mem_cmp 0 1 = operator_lt nat_lt mem_cmp 1 0 ∧
    operator_ge nat_lt mem_cmp 0 1 = (operator_lt nat_lt mem_cmp 0 1).map (fun b => !b) ∧
    (∀ nsA nsB, IsList mem_cmp 0 nsA → IsList mem_cmp 1 nsB →
      ∃ e l g, operator_eq nat_eq mem_cmp 0 1 = .ok e ∧ operator_lt nat_lt mem_cmp 0 1 = .ok l ∧
        operator_lt nat_lt mem_cmp 1 0 = .ok g ∧
        operator_ne nat_eq mem_cmp 0 1 = .ok (!e) ∧ operator_le nat_lt mem_cmp 0 1 = .ok (!g) ∧
        operator_gt nat_lt mem_cmp 0 1 = .ok g ∧ operator_ge nat_lt mem_cmp 0 1 = .ok (!l)) :=
  derived_comparisons nat_eq nat_lt mem_cmp 0 1

/-- C20: for an element ordering `lt` that is irreflexive and transitive and an element
equality `eq` that agrees with it (`eq x y` iff neither `lt x y` nor `lt y x`), the
comparisons of two lists return and are mutually consistent: exactly one of `A < B`,
`A == B`, `A > B` holds, `A <= B` holds iff `A < B` or `A == B`, and `A >= B` holds iff
`A > B` or `A == B`. Totality of the ordering is not needed. -/
theorem comparisons_consistent (eq lt : α → α → Bool) (hirr : ∀ x, lt x x = false)
    (htrans : ∀ x y z, lt x y = true → lt y z = true → lt x z = true)
    (hagree : ∀ x y, eq x y = true ↔ (lt x y = false ∧ lt y x = false))
    (m : Mem α) (A B : Nat) (nsA nsB : List (Nat × α))
    (hA : IsList m A nsA) (hB : IsList m B nsB) :
    ∃ e l g le ge, operator_eq eq m A B = .ok e ∧ operator_lt lt m A B = .ok l ∧
      operator_gt lt m A B = .ok g ∧ operator_le lt m A B = .ok le ∧
      operator_ge lt m A B = .ok ge ∧
      ((l = true ∧ e = false ∧ g = false) ∨ (l = false ∧ e = true ∧ g = false) ∨
        (l = false ∧ e = false ∧ g = true)) ∧
      (le = true ↔ (l = true ∨ e = true)) ∧ (ge = true ↔ (g = true ∨ e = true)) := by
  have hl := operator_lt_val lt hA hB
  have hg := operator_lt_val lt hB hA
  have hrefl : ∀ x, eq x x = true := fun x => (hagree x x).mpr ⟨hirr x, hirr x⟩
  have he : operator_eq eq m A B = .ok (equal_lists eq (values nsA) (values nsB)) := by
    by_cases hAB : A = B
    · subst hAB
      have hns : nsA = nsB := IsList_unique hA hB
      subst hns
      rw [equal_lists_refl hrefl]
      simp [operator_eq]
    · exact operator_eq_val eq hA hB hAB
  have htri := lists_trichotomy hirr htrans hagree (values nsA) (values nsB)
  refine ⟨_, _, _, !lex_lists lt (values nsB) (values nsA),
    !lex_lists lt (values nsA) (values nsB), he, hl, hg, by simp only [operator_le, hg],
    by simp only [operator_ge, hl], htri, ?_, ?_⟩
  · rcases htri with ⟨h1, h2, h3⟩ | ⟨h1, h2, h3⟩ | ⟨h1, h2, h3⟩ <;> simp [h1, h2, h3]
  · rcases htri with ⟨h1, h2, h3⟩ | ⟨h1, h2, h3⟩ | ⟨h1, h2, h3⟩ <;> simp [h1, h2, h3]

theorem nat_lt_irrefl : ∀ x, nat_lt x x = false := by
  intro x; simp [nat_lt]

theorem nat_lt_trans : ∀ x y z, nat_lt x y = true → nat_lt y z = true → nat_lt x z = true := by
  intro x y z; simp only [nat_lt, decide_eq_true_eq]; omega

theorem nat_eq_agrees : ∀ x y, nat_eq x y = true ↔ (nat_lt x y = false ∧ nat_lt y x = false) := by
  intro x y
  simp only [nat_eq, nat_lt, beq_iff_eq, decide_eq_false_iff_not]
  omega

theorem comparisons_consistent_witness :
    ((∀ x, nat_lt x x = false) ∧
      (∀ x y z, nat_lt x y = true → nat_lt y z = true → nat_lt x z = true) ∧
      (∀ x y, nat_eq x y = true ↔ (nat_lt x y = false ∧ nat_lt y x = false)) ∧
      IsList mem_cmp 0 ns_cmp0 ∧ IsList mem_cmp 1 ns_cmp1) ∧
    ∃ e l g le ge, operator_eq nat_eq mem_cmp 0 1 = .ok e ∧
      operator_lt nat_lt mem_cmp 0 1 = .ok l ∧
      operator_gt nat_lt mem_cmp 0 1 = .ok g ∧ operator_le nat_lt mem_cmp 0 1 = .ok le ∧
      operator_ge nat_lt mem_cmp 0 1 = .ok ge ∧
      ((l = true ∧ e = false ∧ g = false) ∨ (l = false ∧ e = true ∧ g = false) ∨
        (l = false ∧ e = false ∧ g = true)) ∧
      (le = true ↔ (l = true ∨ e = true)) ∧ (ge = true ↔ (g = true ∨ e = true)) :=
  ⟨⟨nat_lt_irrefl, nat_lt_trans, nat_eq_agrees, isList_mem_cmp0, isList_mem_cmp1⟩,
    comparisons_consistent nat_eq nat_lt nat_lt_irrefl nat_lt_trans nat_eq_agrees mem_cmp 0 1
      ns_cmp0 ns_cmp1 isList_mem_cmp0 isList_mem_cmp1⟩

/-! ## `Clear`, the iterator, and violated preconditions -/

section ClearAndIterator

theorem list_set_self {β : Type} {l : List β} {i : Nat} {a : β} (h : l[i]? = some a) :
    l.set i a = l := by
  apply List.ext_getElem?
  intro k
  by_cases hik : i = k
  · subst hik
    have hlt : i < l.length := by
      by_contra hge
      rw [List.getElem?_eq_none (Nat.le_of_not_lt hge)] at h
      exact absurd h (by simp)
    rw [List.getElem?_set_self hlt, h]
  · rw [List.getElem?_set_ne hik]

theorem setList_self {m : Mem α} {this : Nat} {L : SingleLinkedList α}
    (hL : m.lists[this]? = some L) : m.setList this L = m := by
  cases m with
  | mk lists heap budget =>
    simp only [Mem.setList, Mem.mk.injEq, and_true]
    exact list_set_self hL

/-- Effect of `Clear` on an empty list: it returns with the memory unchanged. -/
theorem Clear_empty {m : Mem α} {this : Nat} (h : IsList m this []) :
    Clear m this = .ok m () := by
  obtain ⟨L, hL, hseg, hsize, _⟩ := h
  have hnull : L.head_.next_node = .nullptr := hseg
  have hz : L.size_ = 0 := hsize
  have hloop : Clear_loop this m.heap.length m = .ok m () := by
    cases m.heap.length <;> simp [Clear_loop, hL, hnull]
  have hsame : ({ L with size_ := 0 } : SingleLinkedList α) = L := by
    cases L with
    | mk h1 s1 =>
      simp only at hz
      simp [hz]
  simp only [Clear, hloop, hL, hsame, setList_self hL]

theorem splice_none_asserts (m : Mem α) (this : Nat) (pos : BasicIterator) (x : α)
    (hpos : pos.node_ = .nullptr) :
    InsertAfter m this pos x = .fault .assertion ∧ EraseAfter m this pos = .fault .assertion := by
  simp [InsertAfter, EraseAfter, hpos]

theorem EraseAfter_no_successor (m : Mem α) (this : Nat) (pos : BasicIterator) (n : Node α)
    (hread : m.read pos.node_ = some n) (hnext : n.next_node = .nullptr) :
    EraseAfter m this pos = .fault .undefined := by
  have hne : pos.node_ ≠ .nullptr := by
    intro h
    rw [h] at hread
    simp [Mem.read] at hread
  have hnull : m.read .nullptr = none := rfl
  simp only [EraseAfter, if_neg hne, hread, hnext, hnull]

end ClearAndIterator

/-- C14: for every list, of any size, `Clear()` returns; afterwards the size is 0, the
sentinel has no successor, `begin() == end()`, iteration yields the empty sequence and the
former nodes are released. `Clear()` is idempotent: a second call returns and leaves the
memory exactly as the first call left it. -/
theorem Clear_spec (m : Mem α) (this : Nat) (ns : List (Nat × α)) (h : IsList m this ns) :
    ∃ m1, Clear m this = .ok m1 () ∧ IsList m1 this [] ∧
      GetSize m1 this = some 0 ∧ IsEmpty m1 this = some true ∧
      (before_begin this).pre_increment m1 = .ok end_ ∧
      begin m1 this = some end_ ∧ elements m1 this = .ok [] ∧
      (∀ c ∈ ns, m1.cell c.1 = none) ∧
      Clear m1 this = .ok m1 () := by
  obtain ⟨m1, hrun, hlist, hgone, _, _, _⟩ := Clear_ok h
  have hlist0 := hlist
  obtain ⟨L, hL, hseg, hsize, _⟩ := hlist0
  have hnull : L.head_.next_node = .nullptr := hseg
  have hz : L.size_ = 0 := hsize
  refine ⟨m1, hrun, hlist, GetSize_of_IsList hlist, ?_, ?_, ?_, elements_of_IsList hlist,
    hgone, Clear_empty hlist⟩
  · simp [IsEmpty, hL, hz]
  · have hread : m1.read (.head this) = some L.head_ := by simp [Mem.read, hL]
    simp [BasicIterator.pre_increment, before_begin, hread, hnull, end_]
  · simp [begin, hL, hnull, end_]

theorem Clear_spec_witness :
    IsList mem123 0 ns123 ∧
    ∃ m1, Clear mem123 0 = .ok m1 () ∧ IsList m1 0 [] ∧
      GetSize m1 0 = some 0 ∧ IsEmpty m1 0 = some true ∧
      (before_begin 0).pre_increment m1 = .ok end_ ∧
      begin m1 0 = some end_ ∧ elements m1 0 = .ok [] ∧
      (∀ c ∈ ns123, m1.cell c.1 = none) ∧
      Clear m1 0 = .ok m1 () :=
  ⟨isList_mem123, Clear_spec mem123 0 ns123 isList_mem123⟩

/-- C15: for every position handle `h`: when `h` refers to "none" (`node_ == nullptr`, as
for `end()` and for a default-constructed handle), dereference, pre-increment and
post-increment fail their assertion and give no result; when `h` refers to a node `n` (a
node of the free store or the sentinel of a list), dereference yields the value stored in
`n`, pre-increment moves `h` to the successor of `n`, which may be "none", and
post-increment does the same and returns the old position. So among the handles that refer
to "none" or to a node, the failing ones are exactly those that refer to "none". -/
theorem BasicIterator_spec (m : Mem α) (h : BasicIterator) :
    (h.node_ = .nullptr →
      h.deref m = .error .assertion ∧ h.pre_increment m = .error .assertion ∧
      h.post_increment m = .error .assertion) ∧
    (∀ n, m.read h.node_ = some n →
      h.deref m = .ok n.value ∧ h.pre_increment m = .ok ⟨n.next_node⟩ ∧
      h.post_increment m = .ok (h, ⟨n.next_node⟩)) ∧
    (h.deref m = .error .assertion ↔ h.node_ = .nullptr) ∧
    (h.pre_increment m = .error .assertion ↔ h.node_ = .nullptr) ∧
    ((h.node_ = .nullptr ∨ ∃ n, m.read h.node_ = some n) →
      ((∃ f, h.deref m = .error f) ↔ h.node_ = .nullptr) ∧
      ((∃ f, h.pre_increment m = .error f) ↔ h.node_ = .nullptr)) ∧
    (end_.node_ = .nullptr ∧ BasicIterator.default_ctor.node_ = .nullptr) := by
  have hnone : h.node_ = .nullptr →
      h.deref m = .error .assertion ∧ h.pre_increment m = .error .assertion ∧
      h.post_increment m = .error .assertion := by
    intro hn
    simp [BasicIterator.deref, BasicIterator.pre_increment, BasicIterator.post_increment, hn]
  have hsome : ∀ n, m.read h.node_ = some n →
      h.node_ ≠ .nullptr ∧ h.deref m = .ok n.value ∧ h.pre_increment m = .ok ⟨n.next_node⟩ ∧
      h.post_increment m = .ok (h, ⟨n.next_node⟩) := by
    intro n hread
    have hne : h.node_ ≠ .nullptr := by
      intro hn
      rw [hn] at hread
      simp [Mem.read] at hread
    simp [BasicIterator.deref, BasicIterator.pre_increment, BasicIterator.post_increment, hne,
      hread]
  have hd : h.deref m = .error .assertion ↔ h.node_ = .nullptr := by
    constructor
    · intro herr
      by_contra hne
      cases hread : m.read h.node_ <;>
        simp [BasicIterator.deref, hne, hread] at herr
    · exact fun hn => (hnone hn).1
  have hi : h.pre_increment m = .error .assertion ↔ h.node_ = .nullptr := by
    constructor
    · intro herr
      by_contra hne
      cases hread : m.read h.node_ <;>
        simp [BasicIterator.pre_increment, hne, hread] at herr
    · exact fun hn => (hnone hn).2.1
  refine ⟨hnone, fun n hread => (hsome n hread).2, hd, hi, ?_, rfl, rfl⟩
  rintro (hn | ⟨n, hread⟩)
  · exact ⟨⟨fun _ => hn, fun _ => ⟨_, (hnone hn).1⟩⟩, ⟨fun _ => hn, fun _ => ⟨_, (hnone hn).2.1⟩⟩⟩
  · obtain ⟨hne, h1, h2, _⟩ := hsome n hread
    constructor
    · constructor
      · rintro ⟨f, hf⟩
        rw [h1] at hf
        exact absurd hf (by simp)
      · exact fun hn => absurd hn hne
    · constructor
      · rintro ⟨f, hf⟩
        rw [h2] at hf
        exact absurd hf (by simp)
      · exact fun hn => absurd hn hne

theorem BasicIterator_spec_witness :
    ((BasicIterator.mk (.node 1)).node_ = .nullptr →
      (BasicIterator.mk (.node 1)).deref mem123 = .error .assertion ∧
      (BasicIterator.mk (.node 1)).pre_increment mem123 = .error .assertion ∧
      (BasicIterator.mk (.node 1)).post_increment mem123 = .error .assertion) ∧
    (∀ n, mem123.read (BasicIterator.mk (.node 1)).node_ = some n →
      (BasicIterator.mk (.node 1)).deref mem123 = .ok n.value ∧
      (BasicIterator.mk (.node 1)).pre_increment mem123 = .ok ⟨n.next_node⟩ ∧
      (BasicIterator.mk (.node 1)).post_increment mem123 =
        .ok (BasicIterator.mk (.node 1), ⟨n.next_node⟩)) ∧
    ((BasicIterator.mk (.node 1)).deref mem123 = .error .assertion ↔
      (BasicIterator.mk (.node 1)).node_ = .nullptr) ∧
    ((BasicIterator.mk (.node 1)).pre_increment mem123 = .error .assertion ↔
      (BasicIterator.mk (.node 1)).node_ = .nullptr) ∧
    (((BasicIterator.mk (.node 1)).node_ = .nullptr ∨
        ∃ n, mem123.read (BasicIterator.mk (.node 1)).node_ = some n) →
      ((∃ f, (BasicIterator.mk (.node 1)).deref mem123 = .error f) ↔
        (BasicIterator.mk (.node 1)).node_ = .nullptr) ∧
      ((∃ f, (BasicIterator.mk (.node 1)).pre_increment mem123 = .error f) ↔
        (BasicIterator.mk (.node 1)).node_ = .nullptr)) ∧
    (end_.node_ = .nullptr ∧ BasicIterator.default_ctor.node_ = .nullptr) :=
  BasicIterator_spec mem123 ⟨.node 1⟩

/-- The iterator operations of C15 evaluated on the list `[1, 2, 3]` of `mem123`: the handle
of the second node dereferences to `2` and advances to the third node; the handle of the
third node advances to `end()`; the before-begin handle dereferences to the value held in
the sentinel and advances to the first node; `end()` and a default-constructed handle fail
the assertion. -/
theorem BasicIterator_examples :
    (BasicIterator.mk (.node 1)).deref mem123 = .ok 2 ∧
    (BasicIterator.mk (.node 1)).pre_increment mem123 = .ok ⟨.node 2⟩ ∧
    (BasicIterator.mk (.node 1)).post_increment mem123 = .ok (⟨.node 1⟩, ⟨.node 2⟩) ∧
    (BasicIterator.mk (.node 2)).pre_increment mem123 = .ok end_ ∧
    (before_begin 0).deref mem123 = .ok 0 ∧
    (before_begin 0).pre_increment mem123 = .ok ⟨.node 0⟩ ∧
    end_.deref mem123 = .error .assertion ∧
    end_.pre_increment mem123 = .error .assertion ∧
    BasicIterator.default_ctor.deref mem123 = .error .assertion ∧
    BasicIterator.default_ctor.pre_increment mem123 = .error .assertion :=
  ⟨rfl, rfl, rfl, rfl, rfl, rfl, rfl, rfl, rfl, rfl⟩

/-- C16, the code at the failing inputs: `EraseAfter(before_begin())` on the empty list
(list 3 of `mem_cmp`) and `EraseAfter` at the last node of `[1, 2, 3]` pass the only
assertion of `EraseAfter` and then dereference `nullptr`, which is undefined behaviour and
not a detected fault; `InsertAfter` and `EraseAfter` given `end()` or a
default-constructed handle fail their assertion. -/
theorem EraseAfter_without_successor_is_undefined :
    EraseAfter mem_cmp 3 (before_begin 3) = .fault .undefined ∧
    EraseAfter mem123 0 ⟨.node 2⟩ = .fault .undefined ∧
    InsertAfter mem123 0 end_ 9 = .fault .assertion ∧
    EraseAfter mem123 0 end_ = .fault .assertion ∧
    InsertAfter mem123 0 BasicIterator.default_ctor 9 = .fault .assertion ∧
    EraseAfter mem123 0 BasicIterator.default_ctor = .fault .assertion :=
  ⟨rfl, rfl, rfl, rfl, rfl, rfl⟩

/-! ## Failure of an allocation -/

section AllocationFailure

theorem PushFront_bad_alloc {m : Mem α} {this : Nat} {L : SingleLinkedList α} (x : α)
    (hL : m.lists[this]? = some L) (hb : m.budget = 0) : PushFront m this x = .bad_alloc m := by
  simp [PushFront, hL, Mem.new_Node, hb]

theorem InsertAfter_bad_alloc {m : Mem α} (this : Nat) {pos : BasicIterator} {n : Node α}
    (x : α) (hread : m.read pos.node_ = some n) (hb : m.budget = 0) :
    InsertAfter m this pos x = .bad_alloc m := by
  have hne : pos.node_ ≠ .nullptr := by
    intro h
    rw [h] at hread
    simp [Mem.read] at hread
  simp [InsertAfter, hne, hread, Mem.new_Node, hb]

/-- The loop of `Initialize` when the source range is longer than the number of allocations
that still succeed: it is left by `std::bad_alloc`, with the nodes built so far in the chain
of `copy` and nothing else changed. -/
theorem Initialize_loop_fail {ι : Type} (T : InputIt α ι) (copy : Nat) (last : ι)
    (m0 : Mem α) (M : Mem α → Prop) (hM : ∀ m, Frame m0 m copy [] → M m) :
    ∀ (vs : List α) (it : ι) (built : List (Nat × α)) (m : Mem α) (C : SingleLinkedList α)
      (fuel : Nat),
      Source T M last it vs → Frame m0 m copy [] → (∀ c ∈ built, m0.heap.length ≤ c.1) →
      m.lists[copy]? = some C → Seg m C.head_.next_node built .nullptr →
      m.budget < vs.length → m.budget < fuel →
      ∃ m1 C1 new, Initialize_loop T copy last fuel m it (lastPos copy built) = .bad_alloc m1 ∧
        Frame m0 m1 copy [] ∧ m1.lists[copy]? = some C1 ∧
        Seg m1 C1.head_.next_node (built ++ new) .nullptr ∧
        (∀ c ∈ new, m.heap.length ≤ c.1) ∧ m1.budget = 0 ∧
        m1.heap.length = m.heap.length + m.budget := by
  intro vs
  induction vs with
  | nil =>
    intro it built m C fuel _ _ _ _ _ hbud _
    simp at hbud
  | cons v vs ih =>
    intro it built m C fuel hsrc hfr hbuilt hC hseg hbud hfuel
    obtain ⟨fuel1, rfl⟩ : ∃ f, fuel = f + 1 := ⟨fuel - 1, by omega⟩
    obtain ⟨hne, it1, hstep, hsrc1⟩ := hsrc
    have hstep0 := hstep m (hM m hfr)
    by_cases hzero : m.budget = 0
    · obtain ⟨_, n, hread, _⟩ := read_lastPos hC hseg
      have hins := InsertAfter_bad_alloc copy v hread hzero
      refine ⟨m, C, [], ?_, hfr, hC, by simpa using hseg, by simp, hzero, by omega⟩
      simp only [Initialize_loop, hne, if_true, hstep0.1, hins]
    · have hseg0 : Seg m C.head_.next_node (built ++ []) .nullptr := by simpa using hseg
      obtain ⟨m1, C1, hins, hC1, _, _, hseg1, hfr1, hlen1, hbud1⟩ :=
        InsertAfter_chain v hC hseg0 (by omega)
      have hfr01 : Frame m0 m1 copy [] := by
        obtain ⟨a1, a2, a3, a4⟩ := hfr
        obtain ⟨b1, b2, b3, b4⟩ := hfr1
        refine ⟨b1.trans a1, fun k hk => (b2 k hk).trans (a2 k hk), le_trans a3 b3, ?_⟩
        intro a ha hn
        have hnb : a ∉ addrs built := by
          intro hmem
          obtain ⟨c, hc, hca⟩ := List.mem_map.mp hmem
          have := hbuilt c hc
          omega
        rw [b4 a (lt_of_lt_of_le ha a3) hnb, a4 a ha hn]
      obtain ⟨r, hpre1, hlast1⟩ := Seg_append.mp hseg1
      obtain ⟨hr, _⟩ := Seg_singleton.mp hlast1
      obtain ⟨hnn, n, hread, hnr⟩ := read_lastPos hC1 hpre1
      have hinc : (lastPos copy built).pre_increment m1 = .ok ⟨.node m.heap.length⟩ := by
        simp only [BasicIterator.pre_increment, if_neg hnn, hread, hnr, hr]
      have hstep1 := hstep m1 (hM m1 hfr01)
      have hseg1a : Seg m1 C1.head_.next_node (built ++ [(m.heap.length, v)]) .nullptr := hseg1
      have hbuilt1 : ∀ c ∈ built ++ [(m.heap.length, v)], m0.heap.length ≤ c.1 := by
        intro c hc
        rcases List.mem_append.mp hc with h | h
        · exact hbuilt c h
        · simp only [List.mem_singleton] at h
          subst h
          exact hfr.2.2.1
      obtain ⟨m2, C2, new, hrun, hfr2, hC2, hseg2, hnew2, hbud2, hlen2⟩ :=
        ih it1 (built ++ [(m.heap.length, v)]) m1 C1 fuel1 hsrc1 hfr01 hbuilt1 hC1 hseg1a
          (by simp only [List.length_cons] at hbud; omega) (by omega)
      refine ⟨m2, C2, (m.heap.length, v) :: new, ?_, hfr2, hC2, by simpa using hseg2, ?_,
        hbud2, by omega⟩
      · rw [lastPos_concat] at hrun
        simp only [Initialize_loop, hne, if_true, hstep0.1, hins, hinc, hstep1.2]
        exact hrun
      · intro c hc
        rcases List.mem_cons.mp hc with rfl | hmem
        · exact le_refl _
        · have := hnew2 c hmem
          omega

/-- Effect of `Initialize` when an allocation fails: `std::bad_alloc` leaves the function,
the local `copy` with the nodes built so far has been destroyed, no list object and no node
that existed before the call has changed. -/
theorem Initialize_fail [Inhabited α] {ι : Type} (T : InputIt α ι) (m : Mem α) (this : Nat)
    (first last : ι) (size : Nat) (vs : List α) (M : Mem α → Prop)
    (hM : ∀ m1, Frame (default_ctor m).1 m1 m.lists.length [] → M m1)
    (hsrc : Source T M last first vs) (hbud : m.budget < vs.length) :
    ∃ m1, Initialize T m this first last size = .bad_alloc m1 ∧
      m1.lists = m.lists ∧ (∀ a, a < m.heap.length → m1.cell a = m.cell a) ∧
      m1.budget = 0 ∧ m1.heap.length = m.heap.length + m.budget := by
  let copy := m.lists.length
  let m0 : Mem α := Mem.mk (m.lists ++ [SingleLinkedList.fresh]) m.heap m.budget
  have hm0 : default_ctor m = (m0, copy) := rfl
  have hC0 : m0.lists[copy]? = some SingleLinkedList.fresh := by simp [m0, copy]
  have hseg0 : Seg m0 (SingleLinkedList.fresh : SingleLinkedList α).head_.next_node []
      .nullptr := rfl
  rw [hm0] at hM
  obtain ⟨m1, C1, new, hrun, hfr1, hC1, hseg1, hnew, hbud1, hlen1⟩ :=
    Initialize_loop_fail T copy last m0 M hM vs first [] m0 SingleLinkedList.fresh
      (m0.budget + 1) hsrc (Frame_refl _ _ _) (by simp) hC0 hseg0 hbud (Nat.lt_succ_self _)
  simp only [List.nil_append] at hseg1
  obtain ⟨a1, a2, a3, a4⟩ := hfr1
  have hlen_lists1 : m1.lists.length = m.lists.length + 1 := by
    rw [a1]; simp [m0]
  have hC1a : m1.lists[m1.lists.length - 1]? = some C1 := by
    rw [hlen_lists1]; exact hC1
  obtain ⟨m2, hclear, _, hfr2, _, hlen2, hbud2⟩ := Clear_chain hC1a hseg1
  obtain ⟨b1, b2, b3, b4⟩ := hfr2
  have hnew_lt : ∀ a, a < m.heap.length → a ∉ addrs new := by
    intro a ha hmem
    obtain ⟨c, hc, hca⟩ := List.mem_map.mp hmem
    have := hnew c hc
    simp only [m0] at this
    omega
  refine ⟨{ m2 with lists := m2.lists.dropLast }, ?_, ?_, ?_, ?_, ?_⟩
  · simp only [Initialize, hm0, before_begin]
    have hrun1 : Initialize_loop T copy last (m0.budget + 1) m0 first ⟨.head copy⟩ =
        .bad_alloc m1 := hrun
    simp only [hrun1, destroy_last, destructor, hclear]
  · apply List.ext_getElem?
    intro k
    show m2.lists.dropLast[k]? = m.lists[k]?
    by_cases hk : k < m.lists.length
    · have hk2 : k < m2.lists.length - 1 := by rw [b1, hlen_lists1]; simpa using hk
      have hkc : k ≠ m1.lists.length - 1 := by rw [hlen_lists1]; simp; omega
      rw [List.getElem?_dropLast, if_pos hk2, b2 k hkc, a2 k (Nat.ne_of_lt hk)]
      simp [m0, List.getElem?_append_left hk]
    · have hk2 : ¬ k < m2.lists.length - 1 := by rw [b1, hlen_lists1]; simpa using hk
      rw [List.getElem?_dropLast, if_neg hk2]
      exact (List.getElem?_eq_none (Nat.le_of_not_lt hk)).symm
  · intro a ha
    show m2.cell a = _
    rw [b4 a (lt_of_lt_of_le ha a3) (hnew_lt a ha), a4 a ha (by simp [addrs])]
    rfl
  · show m2.budget = 0
    rw [hbud2, hbud1]
  · show m2.heap.length = _
    rw [hlen2, hlen1]

theorem operator_assign_fail [Inhabited α] {m : Mem α} {this rhs : Nat}
    {ns : List (Nat × α)} (hrhs : IsList m rhs ns) (hne : this ≠ rhs)
    (hbud : m.budget < ns.length) :
    ∃ m1, operator_assign m this rhs = .bad_alloc m1 ∧
      m1.lists = m.lists ∧ (∀ a, a < m.heap.length → m1.cell a = m.cell a) ∧
      m1.budget = 0 ∧ m1.heap.length = m.heap.length + m.budget := by
  obtain ⟨R, hR, hseg, _, _⟩ := hrhs
  have hb0 : m.budget < (values ns).length := by
    rw [length_values]; exact hbud
  obtain ⟨m1, hrun, hrest⟩ :=
    Initialize_fail ConstIterator_ops m this ⟨R.head_.next_node⟩ end_ R.size_ (values ns)
      (fun m1 => ∀ c ∈ ns, m1.cell c.1 = m.cell c.1)
      (fun m1 hfr c hc => by
        rw [hfr.2.2.2 c.1 (Seg_lt hseg c hc) (by simp [addrs])]
        rfl)
      (Source_ConstIterator _ hseg (fun _ hm1 => hm1)) hb0
  exact ⟨m1, by simp only [operator_assign, if_neg hne, hR, hrun], hrest⟩

/-- A list is the same list in every memory that has the same list objects and the same
cells below the end of the free store. -/
theorem IsList_of_same {m m1 : Mem α} {k : Nat} {ns : List (Nat × α)}
    (hlists : m1.lists = m.lists) (hcells : ∀ a, a < m.heap.length → m1.cell a = m.cell a)
    (h : IsList m k ns) : IsList m1 k ns := by
  obtain ⟨L, hL, hseg, hsize⟩ := h
  exact ⟨L, by rw [hlists]; exact hL,
    Seg_congr (fun c hc => hcells c.1 (Seg_lt hseg c hc)) hseg, hsize⟩

end AllocationFailure

/-- C17, atomicity under allocation failure: for every target list `A` and source list
`B`, when fewer allocations succeed than `B` has elements, whichever allocation it is that
fails, the copy assignment `A = B` is left by `std::bad_alloc` with all list objects and all
nodes that existed before in their former state, so `A` has the element sequence and the
size it had before and `B` is unchanged. When the single allocation of `PushFront`, or of
`InsertAfter` at a position of the list, fails, `std::bad_alloc` leaves the call with the
memory exactly as it was. -/
theorem allocation_failure_atomic [Inhabited α] (m : Mem α) (A B : Nat)
    (old ns : List (Nat × α)) (x : α) (hA : IsList m A old) (hB : IsList m B ns) :
    (A ≠ B → m.budget < ns.length →
      ∃ m1, operator_assign m A B = .bad_alloc m1 ∧ m1.lists = m.lists ∧
        (∀ a, a < m.heap.length → m1.cell a = m.cell a) ∧
        IsList m1 A old ∧ IsList m1 B ns ∧
        elements m A = .ok (values old) ∧ elements m1 A = .ok (values old) ∧
        GetSize m A = some old.length ∧ GetSize m1 A = some old.length) ∧
    (m.budget = 0 →
      PushFront m A x = .bad_alloc m ∧
      ∀ pos, IsPosition A old pos → InsertAfter m A pos x = .bad_alloc m) := by
  constructor
  · intro hne hbud
    obtain ⟨m1, hrun, hlists, hcells, _, _⟩ := operator_assign_fail hB hne hbud
    have hA1 := IsList_of_same hlists hcells hA
    have hB1 := IsList_of_same hlists hcells hB
    exact ⟨m1, hrun, hlists, hcells, hA1, hB1, elements_of_IsList hA, elements_of_IsList hA1,
      GetSize_of_IsList hA, GetSize_of_IsList hA1⟩
  · intro hzero
    obtain ⟨L, hL, hseg, _, _⟩ := hA
    refine ⟨PushFront_bad_alloc x hL hzero, ?_⟩
    rintro pos ⟨pre, post, hsplit, hpos⟩
    subst hsplit
    subst hpos
    obtain ⟨r, hpre, _⟩ := Seg_append.mp hseg
    obtain ⟨_, n, hread, _⟩ := read_lastPos hL hpre
    exact InsertAfter_bad_alloc A x hread hzero

/-! ## Counting the live nodes -/

section LiveNodes

/-- Number of cells of a free store that hold a node. -/
theorem live_eq (m : Mem α) : m.live = (m.heap.filter Option.isSome).length := rfl

theorem live_congr {β : Type} :
    ∀ (h h1 : List (Option β)), h1.length = h.length →
      (∀ a, a < h.length → (h1[a]?).join.isSome = (h[a]?).join.isSome) →
      (h1.filter Option.isSome).length = (h.filter Option.isSome).length := by
  intro h
  induction h with
  | nil =>
    intro h1 hlen _
    have : h1 = [] := List.length_eq_zero.mp hlen
    subst this; rfl
  | cons x h ih =>
    intro h1 hlen hpat
    cases h1 with
    | nil => simp at hlen
    | cons y h1 =>
      have h0 := hpat 0 (by simp)
      simp only [List.getElem?_cons_zero, Option.join] at h0
      have hrec := ih h1 (by simpa using hlen) (fun a ha => by
        have := hpat (a + 1) (by simpa using ha)
        simpa using this)
      cases x <;> cases y <;> simp_all [List.filter]

theorem live_set_none {β : Type} :
    ∀ (h : List (Option β)) (a : Nat) (n : β), h[a]? = some (some n) →
      ((h.set a none).filter Option.isSome).length + 1 = (h.filter Option.isSome).length := by
  intro h
  induction h with
  | nil => intro a n hget; simp at hget
  | cons x h ih =>
    intro a n hget
    cases a with
    | zero =>
      simp only [List.getElem?_cons_zero, Option.some.injEq] at hget
      subst hget
      simp [List.filter]
    | succ k =>
      simp only [List.getElem?_cons_succ] at hget
      have hrec := ih k n hget
      cases x <;> simp [List.filter, List.set] <;> omega

/-- Releasing the nodes at the addresses `as` lowers the number of live nodes by the number
of these addresses. -/
theorem live_released {β : Type} (as : List Nat) :
    ∀ (h h1 : List (Option β)), as.Nodup → h1.length = h.length →
      (∀ a ∈ as, (h[a]?).join.isSome = true ∧ (h1[a]?).join = none) →
      (∀ a, a ∉ as → a < h.length → (h1[a]?).join = (h[a]?).join) →
      (h1.filter Option.isSome).length + as.length = (h.filter Option.isSome).length := by
  induction as with
  | nil =>
    intro h h1 _ hlen _ hsame
    simpa using live_congr h h1 hlen (fun a ha => by rw [hsame a (by simp) ha])
  | cons a as ih =>
    intro h h1 hnd hlen hrel hsame
    obtain ⟨hnotin, hnd1⟩ := List.nodup_cons.mp hnd
    obtain ⟨hsome, hnone⟩ := hrel a (List.mem_cons_self _ _)
    obtain ⟨n, hn⟩ : ∃ n, h[a]? = some (some n) := by
      cases hget : h[a]? with
      | none => simp [hget] at hsome
      | some x =>
        cases x with
        | none => simp [hget] at hsome
        | some n => exact ⟨n, rfl⟩
    have halt : a < h.length := by
      by_contra hge
      rw [List.getElem?_eq_none (Nat.le_of_not_lt hge)] at hn
      exact absurd hn (by simp)
    have hstep := live_set_none h a n hn
    have hrec := ih (h.set a none) h1 hnd1 (by simpa using hlen)
      (fun b hb => by
        have hba : a ≠ b := fun hEq => hnotin (hEq ▸ hb)
        rw [List.getElem?_set_ne hba]
        exact hrel b (List.mem_cons_of_mem _ hb))
      (fun b hb hlt => by
        by_cases hba : a = b
        · subst hba
          rw [List.getElem?_set_self halt, hnone]
          rfl
        · rw [List.getElem?_set_ne hba]
          exact hsame b (by simp [hb, Ne.symm hba]) (by simpa using hlt))
    simp only [List.length_cons]
    omega

/-- Allocating nodes at the new addresses `as`, which fill the growth of the free store,
raises the number of live nodes by the number of these addresses. -/
theorem live_allocated {β : Type} (as : List Nat) (h h1 : List (Option β)) (hnd : as.Nodup)
    (hlen : h1.length = h.length + as.length)
    (hnew : ∀ a ∈ as, h.length ≤ a ∧ (h1[a]?).join.isSome = true)
    (hsame : ∀ a, a < h.length → (h1[a]?).join = (h[a]?).join) :
    (h1.filter Option.isSome).length = (h.filter Option.isSome).length + as.length := by
  have hsplit : h1 = h1.take h.length ++ h1.drop h.length := (List.take_append_drop _ _).symm
  have htake : ((h1.take h.length).filter Option.isSome).length =
      (h.filter Option.isSome).length := by
    refine live_congr h (h1.take h.length) (by simp [hlen]) (fun a ha => ?_)
    rw [List.getElem?_take_of_lt ha, hsame a ha]
  have hsub : as ⊆ List.range' h.length as.length := by
    intro a ha
    obtain ⟨hge, hs⟩ := hnew a ha
    have halt : a < h1.length := by
      by_contra hnot
      rw [List.getElem?_eq_none (Nat.le_of_not_lt hnot)] at hs
      simp at hs
    exact List.mem_range'_1.mpr ⟨hge, by omega⟩
  have hperm : List.Perm as (List.range' h.length as.length) :=
    (List.subperm_of_subset hnd hsub).perm_of_length_le (by simp)
  have hdrop : (h1.drop h.length).filter Option.isSome = h1.drop h.length := by
    rw [List.filter_eq_self]
    intro x hx
    obtain ⟨i, hi⟩ := List.mem_iff_getElem?.mp hx
    rw [List.getElem?_drop] at hi
    have hilt : h.length + i < h1.length := by
      by_contra hnot
      rw [List.getElem?_eq_none (Nat.le_of_not_lt hnot)] at hi
      exact absurd hi (by simp)
    have hmem : h.length + i ∈ as :=
      hperm.symm.subset (List.mem_range'_1.mpr ⟨by omega, by omega⟩)
    have := (hnew _ hmem).2
    rw [hi] at this
    simpa using this
  have hdroplen : (h1.drop h.length).length = as.length := by
    simp [hlen]
  calc (h1.filter Option.isSome).length
      = ((h1.take h.length ++ h1.drop h.length).filter Option.isSome).length := by
        rw [← hsplit]
    _ = (h.filter Option.isSome).length + as.length := by
        rw [List.filter_append, List.length_append, htake, hdrop, hdroplen]

theorem cell_none_of_ge {m : Mem α} {a : Nat} (h : m.heap.length ≤ a) : m.cell a = none := by
  simp [Mem.cell, List.getElem?_eq_none h]

/-- Effect of `Clear` on the live nodes: it lowers their number by the number of nodes of
the list. -/
theorem Clear_live {m : Mem α} {this : Nat} {ns : List (Nat × α)} (h : IsList m this ns) :
    ∃ m1, Clear m this = .ok m1 () ∧ IsList m1 this [] ∧
      (∀ c ∈ ns, (m.cell c.1).isSome = true ∧ m1.cell c.1 = none) ∧
      (∀ a, a ∉ addrs ns → m1.cell a = m.cell a) ∧
      m1.heap.length = m.heap.length ∧ m1.live + ns.length = m.live := by
  obtain ⟨m1, hrun, hlist, hgone, hfr, hlen, _⟩ := Clear_ok h
  have hsome := IsList_cell_some h
  have hnd : (addrs ns).Nodup := by
    obtain ⟨L, _, hseg, _, _⟩ := h
    exact Seg_null_nodup hseg
  have hrel : ∀ c ∈ ns, (m.cell c.1).isSome = true ∧ m1.cell c.1 = none := by
    intro c hc
    obtain ⟨nx, hcell⟩ := hsome c hc
    exact ⟨by simp [hcell], hgone c hc⟩
  have hsame : ∀ a, a ∉ addrs ns → m1.cell a = m.cell a := by
    intro a ha
    by_cases halt : a < m.heap.length
    · exact hfr.2.2.2 a halt ha
    · rw [cell_none_of_ge (Nat.le_of_not_lt halt),
        cell_none_of_ge (by rw [hlen]; exact Nat.le_of_not_lt halt)]
  refine ⟨m1, hrun, hlist, hrel, hsame, hlen, ?_⟩
  have := live_released (addrs ns) m.heap m1.heap hnd hlen
    (fun a ha => by
      obtain ⟨c, hc, rfl⟩ := List.mem_map.mp ha
      exact hrel c hc)
    (fun a ha _ => hsame a ha)
  simpa [Mem.live, addrs] using this

end LiveNodes

section LiveNodesOfNewList

/-- A list all of whose nodes were allocated since the memory `m`, and which fill the growth
of the free store since then, accounts for the growth of the number of live nodes. -/
theorem live_of_new_list {m m1 : Mem α} {this : Nat} {ns : List (Nat × α)}
    (hlist : IsList m1 this ns) (hnew : ∀ c ∈ ns, m.heap.length ≤ c.1)
    (hcells : ∀ a, a < m.heap.length → m1.cell a = m.cell a)
    (hheap : m1.heap.length = m.heap.length + ns.length) :
    m1.live = m.live + ns.length := by
  have hsome := IsList_cell_some hlist
  have hnd : (addrs ns).Nodup := by
    obtain ⟨L, _, hseg, _, _⟩ := hlist
    exact Seg_null_nodup hseg
  have := live_allocated (addrs ns) m.heap m1.heap hnd (by simpa [addrs] using hheap)
    (fun a ha => by
      obtain ⟨c, hc, rfl⟩ := List.mem_map.mp ha
      obtain ⟨nx, hcell⟩ := hsome c hc
      have hcell1 : (m1.heap[c.1]?).join = some ⟨c.2, nx⟩ := hcell
      exact ⟨hnew c hc, by rw [hcell1]; rfl⟩)
    (fun a ha => hcells a ha)
  simpa [Mem.live, addrs] using this

theorem isList_mem123_78_full_0 : IsList mem123_78_full 0 ns123 := by decide

theorem isList_mem123_78_full_1 : IsList mem123_78_full 1 ns78 := by decide

end LiveNodesOfNewList

theorem allocation_failure_atomic_witness :
    (IsList mem123_78_full 0 ns123 ∧ IsList mem123_78_full 1 ns78) ∧
    ((0 ≠ 1 → mem123_78_full.budget < ns78.length →
      ∃ m1, operator_assign mem123_78_full 0 1 = .bad_alloc m1 ∧
        m1.lists = mem123_78_full.lists ∧
        (∀ a, a < mem123_78_full.heap.length → m1.cell a = mem123_78_full.cell a) ∧
        IsList m1 0 ns123 ∧ IsList m1 1 ns78 ∧
        elements mem123_78_full 0 = .ok (values ns123) ∧ elements m1 0 = .ok (values ns123) ∧
        GetSize mem123_78_full 0 = some ns123.length ∧ GetSize m1 0 = some ns123.length) ∧
    (mem123_78_full.budget = 0 →
      PushFront mem123_78_full 0 9 = .bad_alloc mem123_78_full ∧
      ∀ pos, IsPosition 0 ns123 pos →
        InsertAfter mem123_78_full 0 pos 9 = .bad_alloc mem123_78_full)) :=
  ⟨⟨isList_mem123_78_full_0, isList_mem123_78_full_1⟩,
    allocation_failure_atomic mem123_78_full 0 1 ns123 ns78 9 isList_mem123_78_full_0
      isList_mem123_78_full_1⟩

/-- The copy assignment of C17 evaluated when the second of two allocations fails: `A` is
`[1, 2, 3]`, `B` is `[7, 8]` and exactly one allocation succeeds. `std::bad_alloc` leaves
`A = B`; the one node that was built has been released, the list objects are as before,
and `A` still iterates as `[1, 2, 3]` with size 3. -/
theorem operator_assign_fail_example :
    (match operator_assign mem123_78_one 0 1 with
      | .bad_alloc m1 => some (m1.lists, m1.heap, elements m1 0, GetSize m1 0, elements m1 1)
      | _ => none) =
    some (mem123_78_one.lists, mem123_78_one.heap ++ [none], .ok [1, 2, 3], some 3,
      .ok [7, 8]) := by
  rfl

/-! ## Destruction -/

/-- C18: for every list with `n` nodes, destruction and likewise `Clear()` return, and
release exactly these `n` nodes: every node of the chain was live and is released, the
nodes are pairwise distinct, every other cell of the free store is as before, and the
number of live nodes has dropped by `n`. In the embedding a node that is released twice, or
read after its release, is a fault, so the normal return also says that neither happens.
A list built by the initializer-list constructor or by the copy constructor adds exactly
its `n` nodes to the live nodes, and its destruction brings their number back to what it
was before the construction. -/
theorem destruction_releases_every_node [Inhabited α] (m : Mem α) (this : Nat)
    (ns : List (Nat × α)) (h : IsList m this ns) :
    (∃ m1, destructor m this = .ok m1 () ∧ Clear m this = .ok m1 () ∧
      (∀ c ∈ ns, (m.cell c.1).isSome = true ∧ m1.cell c.1 = none) ∧ (addrs ns).Nodup ∧
      (∀ a, a ∉ addrs ns → m1.cell a = m.cell a) ∧
      m1.heap.length = m.heap.length ∧ m1.live + ns.length = m.live) ∧
    (∀ S : List α, S.length < SIZE_MOD → S.length ≤ m.budget →
      ∃ m1 m2, initializer_list_ctor m S = .ok m1 m.lists.length ∧
        m1.live = m.live + S.length ∧
        destructor m1 m.lists.length = .ok m2 () ∧ m2.live = m.live) ∧
    (ns.length ≤ m.budget →
      ∃ m1 m2, copy_ctor m this = .ok m1 m.lists.length ∧
        m1.live = m.live + ns.length ∧
        destructor m1 m.lists.length = .ok m2 () ∧ m2.live = m.live) := by
  refine ⟨?_, ?_, ?_⟩
  · obtain ⟨m1, hrun, _, hrel, hsame, hlen, hlive⟩ := Clear_live h
    have hnd : (addrs ns).Nodup := by
      obtain ⟨L, _, hseg, _, _⟩ := h
      exact Seg_null_nodup hseg
    exact ⟨m1, hrun, hrun, hrel, hnd, hsame, hlen, hlive⟩
  · intro S hS hb
    obtain ⟨m1, ns1, hrun, hlist, hvals, hnew, _, _, hcells, _, hheap⟩ :=
      initializer_list_ctor_ok m S hS hb
    have hlen : ns1.length = S.length := by rw [← hvals, length_values]
    have hlive1 : m1.live = m.live + ns1.length :=
      live_of_new_list hlist hnew hcells (by rw [hheap, hlen])
    obtain ⟨m2, hrun2, _, _, _, _, hlive2⟩ := Clear_live hlist
    exact ⟨m1, m2, hrun, by rw [hlive1, hlen], hrun2, by omega⟩
  · intro hb
    obtain ⟨m1, ns1, hrun, hlist, hvals, hnew, _, _, _, hcells, _, hheap⟩ :=
      copy_ctor_ok h hb
    have hlen : ns1.length = ns.length := by
      have := congrArg List.length hvals
      simpa [length_values] using this
    have hlive1 : m1.live = m.live + ns1.length :=
      live_of_new_list hlist hnew hcells (by rw [hheap, hlen])
    obtain ⟨m2, hrun2, _, _, _, _, hlive2⟩ := Clear_live hlist
    exact ⟨m1, m2, hrun, by rw [hlive1, hlen], hrun2, by omega⟩

theorem destruction_releases_every_node_witness :
    IsList mem123 0 ns123 ∧
    ((∃ m1, destructor mem123 0 = .ok m1 () ∧ Clear mem123 0 = .ok m1 () ∧
      (∀ c ∈ ns123, (mem123.cell c.1).isSome = true ∧ m1.cell c.1 = none) ∧
      (addrs ns123).Nodup ∧
      (∀ a, a ∉ addrs ns123 → m1.cell a = mem123.cell a) ∧
      m1.heap.length = mem123.heap.length ∧ m1.live + ns123.length = mem123.live) ∧
    (∀ S : List Nat, S.length < SIZE_MOD → S.length ≤ mem123.budget →
      ∃ m1 m2, initializer_list_ctor mem123 S = .ok m1 mem123.lists.length ∧
        m1.live = mem123.live + S.length ∧
        destructor m1 mem123.lists.length = .ok m2 () ∧ m2.live = mem123.live) ∧
    (ns123.length ≤ mem123.budget →
      ∃ m1 m2, copy_ctor mem123 0 = .ok m1 mem123.lists.length ∧
        m1.live = mem123.live + ns123.length ∧
        destructor m1 mem123.lists.length = .ok m2 () ∧ m2.live = mem123.live)) :=
  ⟨isList_mem123, destruction_releases_every_node mem123 0 ns123 isList_mem123⟩

/-- The count of C18 evaluated: from a memory without nodes, constructing `[1, 2, 3]` gives
three live nodes and destroying the list gives none. -/
theorem construct_destroy_example :
    (match initializer_list_ctor mem_empty [1, 2, 3] with
      | .ok m1 this =>
        match destructor m1 this with
        | .ok m2 _ => some (mem_empty.live, m1.live, m2.live)
        | _ => none
      | _ => none) = some (0, 3, 0) := by
  rfl

/-! ## The invariant over the reachable memories -/

section InvariantLemmas

variable {α : Type}

theorem IsList_length_le {m : Mem α} {k : Nat} {ns : List (Nat × α)} (h : IsList m k ns) :
    ns.length ≤ m.heap.length := by
  obtain ⟨L, _, hseg, _, _⟩ := h
  exact Seg_null_length_le hseg

theorem IsList_index_lt {m : Mem α} {k : Nat} {ns : List (Nat × α)} (h : IsList m k ns) :
    k < m.lists.length := by
  obtain ⟨L, hL, _, _, _⟩ := h
  exact lists_lt hL

/-- A list is the same list in every memory that has the same list object and the same
cells below the end of the free store. -/
theorem IsList_of_same_at {m m1 : Mem α} {k : Nat} {ns : List (Nat × α)}
    (hlists : m1.lists[k]? = m.lists[k]?)
    (hcells : ∀ a, a < m.heap.length → m1.cell a = m.cell a)
    (h : IsList m k ns) : IsList m1 k ns := by
  obtain ⟨L, hL, hseg, hsize⟩ := h
  exact ⟨L, hlists.trans hL,
    Seg_congr (fun c hc => hcells c.1 (Seg_lt hseg c hc)) hseg, hsize⟩

/-- A step that works on list `k` and on some of its nodes, and leaves it a list whose
nodes are old nodes of `k` or new ones, keeps the ownership of every list. -/
theorem Owned_update {m m1 : Mem α} {own : Nat → List (Nat × α)} {k : Nat}
    {X ns1 : List (Nat × α)} (hown : Owned m own) (hk : k < m.lists.length)
    (hfr : Frame m m1 k X) (hX : ∀ a, a ∈ addrs X → a ∈ addrs (own k))
    (hlist : IsList m1 k ns1)
    (hns1 : ∀ a, a ∈ addrs ns1 → a ∈ addrs (own k) ∨ m.heap.length ≤ a) :
    Owned m1 (Function.update own k ns1) := by
  obtain ⟨hl, hd⟩ := hown
  have hlen : m1.lists.length = m.lists.length := hfr.1
  constructor
  · intro j hj
    rw [hlen] at hj
    by_cases hjk : j = k
    · subst hjk
      rw [Function.update_same]
      exact hlist
    · rw [Function.update_noteq hjk]
      exact IsList_frame hfr hjk (hl j hj) (fun a ha hx => hd j k hj hk hjk a ha (hX a hx))
  · intro i j hi hj hij a ha hb
    rw [hlen] at hi hj
    by_cases hik : i = k
    · subst hik
      have hji : j ≠ i := fun h => hij h.symm
      rw [Function.update_same] at ha
      rw [Function.update_noteq hji] at hb
      rcases hns1 a ha with h | h
      · exact hd i j hi hj hij a h hb
      · exact absurd (IsList_addr_lt (hl j hj) a hb) (by omega)
    · rw [Function.update_noteq hik] at ha
      by_cases hjk : j = k
      · subst hjk
        rw [Function.update_same] at hb
        rcases hns1 a hb with h | h
        · exact hd i j hi hj hij a ha h
        · exact absurd (IsList_addr_lt (hl i hi) a ha) (by omega)
      · rw [Function.update_noteq hjk] at hb
        exact hd i j hi hj hij a ha hb

/-- A step that changes no list object and no cell of the old free store keeps the
ownership of every list. -/
theorem Owned_same {m m1 : Mem α} {own : Nat → List (Nat × α)} (hown : Owned m own)
    (hlists : m1.lists = m.lists)
    (hcells : ∀ a, a < m.heap.length → m1.cell a = m.cell a) : Owned m1 own := by
  obtain ⟨hl, hd⟩ := hown
  constructor
  · intro j hj
    rw [hlists] at hj
    exact IsList_of_same hlists hcells (hl j hj)
  · intro i j hi hj
    rw [hlists] at hi hj
    exact hd i j hi hj

/-- A constructor that leaves the old list objects and cells alone and builds the new list
from new nodes keeps the ownership of every list. -/
theorem Owned_new_list {m m1 : Mem α} {own : Nat → List (Nat × α)} {ns1 : List (Nat × α)}
    (hown : Owned m own) (hlen : m1.lists.length = m.lists.length + 1)
    (hlists : ∀ k, k < m.lists.length → m1.lists[k]? = m.lists[k]?)
    (hcells : ∀ a, a < m.heap.length → m1.cell a = m.cell a)
    (hlist : IsList m1 m.lists.length ns1) (hnew : ∀ c ∈ ns1, m.heap.length ≤ c.1) :
    Owned m1 (Function.update own m.lists.length ns1) := by
  obtain ⟨hl, hd⟩ := hown
  have hfresh : ∀ a, a ∈ addrs ns1 → m.heap.length ≤ a := by
    intro a ha
    obtain ⟨c, hc, rfl⟩ := List.mem_map.mp ha
    exact hnew c hc
  constructor
  · intro j hj
    rw [hlen] at hj
    by_cases hjk : j = m.lists.length
    · subst hjk
      rw [Function.update_same]
      exact hlist
    · have hj1 : j < m.lists.length := by omega
      rw [Function.update_noteq hjk]
      exact IsList_of_same_at (hlists j hj1) hcells (hl j hj1)
  · intro i j hi hj hij a ha hb
    rw [hlen] at hi hj
    by_cases hik : i = m.lists.length
    · subst hik
      have hji : j ≠ m.lists.length := fun h => hij h.symm
      have hj1 : j < m.lists.length := by omega
      rw [Function.update_same] at ha
      rw [Function.update_noteq hji] at hb
      exact absurd (IsList_addr_lt (hl j hj1) a hb) (by have := hfresh a ha; omega)
    · have hi1 : i < m.lists.length := by omega
      rw [Function.update_noteq hik] at ha
      by_cases hjk : j = m.lists.length
      · subst hjk
        rw [Function.update_same] at hb
        exact absurd (IsList_addr_lt (hl i hi1) a ha) (by have := hfresh a hb; omega)
      · have hj1 : j < m.lists.length := by omega
        rw [Function.update_noteq hjk] at hb
        exact hd i j hi1 hj1 hij a ha hb

end InvariantLemmas


section ConstructorFailure

variable {α : Type}

/-- The initializer-list constructor when the sequence is longer than the number of
allocations that still succeed: it is left by `std::bad_alloc`, the new object does not come
into existence, and no list object and no old cell is changed. -/
theorem initializer_list_ctor_fail [Inhabited α] (m : Mem α) (S : List α)
    (hbud : m.budget < S.length) :
    ∃ m1, initializer_list_ctor m S = .bad_alloc m1 ∧
      m1.lists = m.lists ∧ (∀ a, a < m.heap.length → m1.cell a = m.cell a) ∧
      m1.budget = 0 ∧ m1.heap.length = m.heap.length + m.budget := by
  obtain ⟨m1, hrun, hlists, hcells, hb1, hh1⟩ :=
    Initialize_fail (initializer_list_ops S) (default_ctor m).1 m.lists.length 0 S.length
      (S.length % SIZE_MOD) S (fun _ => True) (fun _ _ => trivial)
      (Source_initializer_list S _ S 0 (Nat.zero_le _) rfl) hbud
  refine ⟨{ m1 with lists := m1.lists.dropLast }, ?_, ?_, hcells, hb1, hh1⟩
  · have hdc : default_ctor m = ((default_ctor m).1, m.lists.length) := rfl
    rw [initializer_list_ctor, hdc]
    simp only [hrun]
  · show m1.lists.dropLast = m.lists
    rw [hlists]
    simp [default_ctor]

/-- The copy constructor when the source has more nodes than the number of allocations
that still succeed: it is left by `std::bad_alloc`, the new object does not come into
existence, and no list object and no old cell is changed. -/
theorem copy_ctor_fail [Inhabited α] {m : Mem α} {another : Nat} {ns : List (Nat × α)}
    (h : IsList m another ns) (hbud : m.budget < ns.length) :
    ∃ m1, copy_ctor m another = .bad_alloc m1 ∧
      m1.lists = m.lists ∧ (∀ a, a < m.heap.length → m1.cell a = m.cell a) ∧
      m1.budget = 0 ∧ m1.heap.length = m.heap.length + m.budget := by
  obtain ⟨R, hR, hseg, hsize, hlt⟩ := h
  have hRlt := lists_lt hR
  have hL0 := default_ctor_lists_self m
  have hR0 : (default_ctor m).1.lists[another]? = some R := by
    rw [default_ctor_lists_lt m hRlt]; exact hR
  have hsegR : Seg (default_ctor m).1 R.head_.next_node ns .nullptr :=
    Seg_congr (fun c _ => default_ctor_cell m c.1) hseg
  have hb0 : (default_ctor m).1.budget < (values ns).length := by
    rw [length_values]; exact hbud
  obtain ⟨m1, hrun, hlists, hcells, hb1, hh1⟩ :=
    Initialize_fail ConstIterator_ops (default_ctor m).1 m.lists.length
      ⟨R.head_.next_node⟩ end_ R.size_ (values ns)
      (fun m1 => ∀ c ∈ ns, m1.cell c.1 = (default_ctor m).1.cell c.1)
      (fun m1 hfr c hc => by
        rw [hfr.2.2.2 c.1 (Seg_lt hsegR c hc) (by simp [addrs])]
        rfl)
      (Source_ConstIterator _ hsegR (fun _ hm1 => hm1)) hb0
  refine ⟨{ m1 with lists := m1.lists.dropLast }, ?_, ?_, hcells, hb1, hh1⟩
  · have hdc : default_ctor m = ((default_ctor m).1, m.lists.length) := rfl
    rw [copy_ctor, hdc]
    simp only [hL0, hR0, hrun]
    simp [SingleLinkedList.fresh]
  · show m1.lists.dropLast = m.lists
    rw [hlists]
    simp [default_ctor]

end ConstructorFailure


section InvariantSteps

variable {α : Type}

theorem memory_ok_inj {ρ : Type} {m1 m2 : Mem α} {r : ρ}
    (h : (Outcome.ok m1 r).memory = some m2) : m1 = m2 :=
  Option.some.inj h

theorem memory_bad_alloc_inj {ρ : Type} {m1 m2 : Mem α}
    (h : (Outcome.bad_alloc m1 : Outcome α ρ).memory = some m2) : m1 = m2 :=
  Option.some.inj h

theorem default_ctor_invariant [Inhabited α] {m : Mem α} (hinv : Invariant m) :
    Invariant (default_ctor m).1 := by
  obtain ⟨hbound, own, hown⟩ := hinv
  have hlist : IsList (default_ctor m).1 m.lists.length [] :=
    ⟨_, default_ctor_lists_self m, rfl, rfl, by simp [SIZE_MOD]⟩
  exact ⟨hbound, _, Owned_new_list hown (by simp [default_ctor])
    (fun k hk => default_ctor_lists_lt m hk) (fun a _ => default_ctor_cell m a) hlist
    (fun c hc => absurd hc (List.not_mem_nil c))⟩

theorem initializer_list_ctor_invariant [Inhabited α] {m m1 : Mem α} (S : List α)
    (hinv : Invariant m) (hrun : (initializer_list_ctor m S).memory = some m1) :
    Invariant m1 := by
  obtain ⟨hbound, own, hown⟩ := hinv
  rcases Nat.lt_or_ge m.budget S.length with hb | hb
  · obtain ⟨m2, hrun2, hlists, hcells, hb2, hh2⟩ := initializer_list_ctor_fail m S hb
    rw [hrun2] at hrun
    have heq := memory_bad_alloc_inj hrun
    subst heq
    exact ⟨by omega, own, Owned_same hown hlists hcells⟩
  · obtain ⟨m2, ns, hrun2, hlist2, _, hnew, hlen, hlists, hcells, hb2, hh2⟩ :=
      initializer_list_ctor_ok m S (by omega) hb
    rw [hrun2] at hrun
    have heq := memory_ok_inj hrun
    subst heq
    exact ⟨by omega, _, Owned_new_list hown hlen hlists hcells hlist2 hnew⟩

theorem copy_ctor_invariant [Inhabited α] {m m1 : Mem α} {another : Nat}
    (hinv : Invariant m) (hk : another < m.lists.length)
    (hrun : (copy_ctor m another).memory = some m1) : Invariant m1 := by
  obtain ⟨hbound, own, hown⟩ := hinv
  have hl := hown.1 another hk
  rcases Nat.lt_or_ge m.budget (own another).length with hb | hb
  · obtain ⟨m2, hrun2, hlists, hcells, hb2, hh2⟩ := copy_ctor_fail hl hb
    rw [hrun2] at hrun
    have heq := memory_bad_alloc_inj hrun
    subst heq
    exact ⟨by omega, own, Owned_same hown hlists hcells⟩
  · obtain ⟨m2, new, hrun2, hlist2, _, hnew, _, hlen, hlists, hcells, hb2, hh2⟩ :=
      copy_ctor_ok hl hb
    rw [hrun2] at hrun
    have heq := memory_ok_inj hrun
    subst heq
    exact ⟨by omega, _, Owned_new_list hown hlen hlists hcells hlist2 hnew⟩

theorem PushFront_invariant {m m1 : Mem α} {this : Nat} (x : α) (hinv : Invariant m)
    (hk : this < m.lists.length) (hrun : (PushFront m this x).memory = some m1) :
    Invariant m1 := by
  obtain ⟨hbound, own, hown⟩ := hinv
  have hl := hown.1 this hk
  rcases Nat.eq_zero_or_pos m.budget with hb | hb
  · obtain ⟨L, hL, _⟩ := hl
    rw [PushFront_bad_alloc x hL hb] at hrun
    have heq := memory_bad_alloc_inj hrun
    subst heq
    exact ⟨hbound, own, hown⟩
  · have hlen := IsList_length_le hl
    obtain ⟨m2, hrun2, hlist2, hfr, hheap, hbud⟩ := PushFront_ok x hl (by omega) hb
    rw [hrun2] at hrun
    have heq := memory_ok_inj hrun
    subst heq
    refine ⟨by omega, _, Owned_update hown hk hfr (by simp [addrs]) hlist2 ?_⟩
    intro a ha
    simp only [addrs, List.map_cons, List.mem_cons] at ha
    rcases ha with h | h
    · exact Or.inr (by omega)
    · exact Or.inl h

theorem InsertAfter_invariant {m m1 : Mem α} {this : Nat} {ns : List (Nat × α)}
    {pos : BasicIterator} (x : α) (hinv : Invariant m) (hl : IsList m this ns)
    (hpos : IsPosition this ns pos) (hrun : (InsertAfter m this pos x).memory = some m1) :
    Invariant m1 := by
  obtain ⟨hbound, own, hown⟩ := hinv
  have hk := IsList_index_lt hl
  have hns : ns = own this := IsList_unique hl (hown.1 this hk)
  obtain ⟨pre, post, hsplit, hp⟩ := hpos
  subst hsplit hp
  rcases Nat.eq_zero_or_pos m.budget with hb | hb
  · obtain ⟨L, hL, hseg, _⟩ := hl
    obtain ⟨r, hseg1, _⟩ := Seg_append.mp hseg
    obtain ⟨_, n, hread, _⟩ := read_lastPos hL hseg1
    rw [InsertAfter_bad_alloc this x hread hb] at hrun
    have heq := memory_bad_alloc_inj hrun
    subst heq
    exact ⟨hbound, own, hown⟩
  · have hlen := IsList_length_le hl
    obtain ⟨m2, hrun2, hlist2, hfr, hheap, hbud⟩ := InsertAfter_ok x hl (by omega) hb
    rw [hrun2] at hrun
    have heq := memory_ok_inj hrun
    subst heq
    refine ⟨by omega, _, Owned_update hown hk hfr ?_ hlist2 ?_⟩
    · intro a ha
      rw [← hns]
      simp only [addrs, List.map_append, List.mem_append] at ha ⊢
      exact Or.inl ha
    · intro a ha
      rw [← hns]
      simp only [addrs, List.map_append, List.map_cons, List.mem_append, List.mem_cons] at ha ⊢
      rcases ha with h | h | h
      · exact Or.inl (Or.inl h)
      · exact Or.inr (by omega)
      · exact Or.inl (Or.inr h)

theorem EraseAfter_invariant {m m1 : Mem α} {this : Nat} {ns : List (Nat × α)}
    {pos : BasicIterator} (hinv : Invariant m) (hl : IsList m this ns)
    (hpos : IsPosition this ns pos) (hrun : (EraseAfter m this pos).memory = some m1) :
    Invariant m1 := by
  obtain ⟨hbound, own, hown⟩ := hinv
  have hk := IsList_index_lt hl
  have hns : ns = own this := IsList_unique hl (hown.1 this hk)
  obtain ⟨pre, post, hsplit, hp⟩ := hpos
  subst hsplit hp
  cases post with
  | nil =>
    obtain ⟨L, hL, hseg, _⟩ := hl
    obtain ⟨r, hseg1, hr⟩ := Seg_append.mp hseg
    have hr0 : r = .nullptr := hr
    subst hr0
    obtain ⟨_, n, hread, hnext⟩ := read_lastPos hL hseg1
    rw [EraseAfter_no_successor m this _ n hread hnext] at hrun
    exact absurd hrun (by simp [Outcome.memory])
  | cons c post =>
    obtain ⟨m2, hrun2, hlist2, _, hfr, hheap, hbud⟩ := EraseAfter_ok hl
    rw [hrun2] at hrun
    have heq := memory_ok_inj hrun
    subst heq
    refine ⟨by omega, _, Owned_update hown hk hfr ?_ hlist2 ?_⟩
    · intro a ha
      rw [← hns]
      simp only [addrs, List.map_append, List.map_cons, List.map_nil, List.mem_append,
        List.mem_cons, List.mem_singleton, List.not_mem_nil, or_false] at ha ⊢
      rcases ha with h | h
      · exact Or.inl h
      · exact Or.inr (Or.inl h)
    · intro a ha
      rw [← hns]
      simp only [addrs, List.map_append, List.map_cons, List.mem_append, List.mem_cons] at ha ⊢
      rcases ha with h | h
      · exact Or.inl (Or.inl h)
      · exact Or.inl (Or.inr (Or.inr h))

theorem PopFront_invariant {m m1 : Mem α} {this : Nat} (hinv : Invariant m)
    (hk : this < m.lists.length) (hrun : (PopFront m this).memory = some m1) :
    Invariant m1 := by
  obtain ⟨hbound, own, hown⟩ := hinv
  have hl := hown.1 this hk
  cases hns : own this with
  | nil =>
    rw [hns] at hl
    rw [PopFront_empty hl] at hrun
    have heq := memory_ok_inj hrun
    subst heq
    exact ⟨hbound, own, hown⟩
  | cons c rest =>
    rw [hns] at hl
    obtain ⟨m2, hrun2, hlist2, _, hfr, hheap, hbud⟩ := PopFront_ok hl
    rw [hrun2] at hrun
    have heq := memory_ok_inj hrun
    subst heq
    refine ⟨by omega, _, Owned_update hown hk hfr ?_ hlist2 ?_⟩
    · intro a ha
      rw [hns]
      simp only [addrs, List.map_cons, List.map_nil, List.mem_cons, List.mem_singleton,
        List.not_mem_nil, or_false] at ha ⊢
      exact Or.inl ha
    · intro a ha
      rw [hns]
      simp only [addrs, List.map_cons, List.mem_cons] at ha ⊢
      exact Or.inl (Or.inr ha)

theorem Clear_invariant {m m1 : Mem α} {this : Nat} (hinv : Invariant m)
    (hk : this < m.lists.length) (hrun : (Clear m this).memory = some m1) :
    Invariant m1 := by
  obtain ⟨hbound, own, hown⟩ := hinv
  have hl := hown.1 this hk
  obtain ⟨m2, hrun2, hlist2, _, hfr, hheap, hbud⟩ := Clear_ok hl
  rw [hrun2] at hrun
  have heq := memory_ok_inj hrun
  subst heq
  exact ⟨by omega, _, Owned_update hown hk hfr (fun a ha => ha) hlist2
    (fun a ha => absurd ha (by simp [addrs]))⟩

theorem operator_assign_invariant [Inhabited α] {m m1 : Mem α} {this rhs : Nat}
    (hinv : Invariant m) (hk : this < m.lists.length) (hr : rhs < m.lists.length)
    (hrun : (operator_assign m this rhs).memory = some m1) : Invariant m1 := by
  by_cases hne : this = rhs
  · have hsame : operator_assign m this rhs = .ok m () := by simp [operator_assign, hne]
    rw [hsame] at hrun
    have heq := memory_ok_inj hrun
    subst heq
    exact hinv
  · obtain ⟨hbound, own, hown⟩ := hinv
    have hl := hown.1 this hk
    have hlr := hown.1 rhs hr
    rcases Nat.lt_or_ge m.budget (own rhs).length with hb | hb
    · obtain ⟨m2, hrun2, hlists, hcells, hb2, hh2⟩ := operator_assign_fail hlr hne hb
      rw [hrun2] at hrun
      have heq := memory_bad_alloc_inj hrun
      subst heq
      exact ⟨by omega, own, Owned_same hown hlists hcells⟩
    · obtain ⟨m2, new, hrun2, hlist2, _, hnew, _, _, hfr, hb2, hh2⟩ :=
        operator_assign_ok hl hlr hne
          (fun a ha hb1 => hown.2 rhs this hr hk (fun h => hne h.symm) a ha hb1) hb
      rw [hrun2] at hrun
      have heq := memory_ok_inj hrun
      subst heq
      refine ⟨by omega, _, Owned_update hown hk hfr (fun a ha => ha) hlist2 ?_⟩
      intro a ha
      obtain ⟨c, hc, rfl⟩ := List.mem_map.mp ha
      exact Or.inr (hnew c hc)

end InvariantSteps


section InvariantReachable

variable {α : Type}

theorem swap_invariant {m m1 : Mem α} {this another : Nat} (hinv : Invariant m)
    (hk : this < m.lists.length) (hr : another < m.lists.length)
    (hrun : (swap m this another).memory = some m1) : Invariant m1 := by
  obtain ⟨hbound, own, hl, hd⟩ := hinv
  obtain ⟨L, hL, hsegL, hszL, hltL⟩ := hl this hk
  obtain ⟨R, hR, hsegR, hszR, hltR⟩ := hl another hr
  obtain ⟨m2, hrun2, hheap, hbud, hlen, hA, hB, hother⟩ := swap_lists hL hR
  rw [hrun2] at hrun
  have heq : m2 = m1 := memory_ok_inj hrun
  rw [← heq]
  have hcell : ∀ a, m2.cell a = m.cell a := fun a => by simp only [Mem.cell, hheap]
  have hperm : ∀ j, j < m.lists.length → Equiv.swap this another j < m.lists.length := by
    intro j hj
    rw [Equiv.swap_apply_def]
    split_ifs <;> assumption
  refine ⟨by rw [hheap, hbud]; exact hbound, fun j => own (Equiv.swap this another j), ?_, ?_⟩
  · intro j hj
    rw [hlen] at hj
    show IsList m2 j (own (Equiv.swap this another j))
    by_cases hjA : j = this
    · rw [hjA, Equiv.swap_apply_left]
      exact ⟨_, hA, Seg_congr (fun c _ => hcell c.1) hsegR, hszR, hltR⟩
    · by_cases hjB : j = another
      · rw [hjB, Equiv.swap_apply_right]
        exact ⟨_, hB, Seg_congr (fun c _ => hcell c.1) hsegL, hszL, hltL⟩
      · rw [Equiv.swap_apply_of_ne_of_ne hjA hjB]
        exact IsList_of_same_at (hother j hjA hjB) (fun a _ => hcell a) (hl j hj)
  · intro i j hi hj hij
    rw [hlen] at hi hj
    exact hd _ _ (hperm i hi) (hperm j hj)
      (fun h => hij ((Equiv.swap this another).injective h))

/-- Every call keeps the invariant of the data model. -/
theorem Step_invariant [Inhabited α] {m m1 : Mem α} (hinv : Invariant m) (h : Step m m1) :
    Invariant m1 := by
  cases h with
  | default_constructed => exact default_ctor_invariant hinv
  | initializer_list_constructed _ S hrun => exact initializer_list_ctor_invariant S hinv hrun
  | copy_constructed _ another hk hrun => exact copy_ctor_invariant hinv hk hrun
  | push_front _ this x hk hrun => exact PushFront_invariant x hinv hk hrun
  | pop_front _ this hk hrun => exact PopFront_invariant hinv hk hrun
  | insert_after _ this ns pos x hl hpos hrun => exact InsertAfter_invariant x hinv hl hpos hrun
  | erase_after _ this ns pos hl hpos hrun => exact EraseAfter_invariant hinv hl hpos hrun
  | clear _ this hk hrun => exact Clear_invariant hinv hk hrun
  | assigned _ this rhs hk hr hrun => exact operator_assign_invariant hinv hk hr hrun
  | swapped _ this another hk hr hrun => exact swap_invariant hinv hk hr hrun

/-- The invariant of the data model holds in every reachable memory. -/
theorem Reachable_invariant [Inhabited α] {budget : Nat} (hb : budget < SIZE_MOD) {m : Mem α}
    (h : Reachable budget m) : Invariant m := by
  induction h with
  | start =>
    refine ⟨by simpa using hb, fun _ => [], fun k hk => absurd hk (by simp),
      fun i j hi => absurd hi (by simp)⟩
  | step m m1 _ hstep ih => exact Step_invariant ih hstep

/-- For a list, `IsEmpty()` holds exactly when `begin() == end()`. -/
theorem IsEmpty_iff_begin_eq_end {m : Mem α} {k : Nat} {ns : List (Nat × α)}
    (h : IsList m k ns) :
    ∃ e it, IsEmpty m k = some e ∧ begin m k = some it ∧ (e = true ↔ it.eq end_ = true) := by
  obtain ⟨L, hL, hseg, hsize, _⟩ := h
  refine ⟨decide (L.size_ = 0), ⟨L.head_.next_node⟩, by simp [IsEmpty, hL],
    by simp [begin, hL], ?_⟩
  simp only [decide_eq_true_eq, BasicIterator.eq, end_]
  cases ns with
  | nil =>
    have hnull : L.head_.next_node = .nullptr := hseg
    simp [hsize, hnull]
  | cons c rest =>
    obtain ⟨hp, _⟩ := hseg
    simp [hsize, hp]

end InvariantReachable


section ReachableExample

/-- The memory `mem_run5` is reached from `mem_empty` by an initializer-list construction,
a copy construction, a `PushFront`, an `EraseAfter` and a `swap`. -/
theorem reachable_mem_run5 : Reachable 10 mem_run5 :=
  Reachable.step mem_run4 mem_run5
    (Reachable.step mem_run3 mem_run4
      (Reachable.step mem_run2 mem_run3
        (Reachable.step mem_run1 mem_run2
          (Reachable.step mem_empty mem_run1 Reachable.start
            (Step.initializer_list_constructed mem_empty mem_run1 [1, 2, 3] rfl))
          (Step.copy_constructed mem_run1 mem_run2 0 (by decide) rfl))
        (Step.push_front mem_run2 mem_run3 1 7 (by decide) rfl))
      (Step.erase_after mem_run3 mem_run4 0 ns123 ⟨.node 0⟩ (by decide)
        ⟨[(0, 1)], [(1, 2), (2, 3)], rfl, rfl⟩ rfl))
    (Step.swapped mem_run4 mem_run5 0 1 (by decide) (by decide) rfl)

end ReachableExample

/-- C19: size invariant. Take the memory without list objects and nodes, in which fewer
allocations can succeed than `size_t` has values, and any sequence of calls of the three
constructors and of `PushFront`, `PopFront`, `InsertAfter`, `EraseAfter`, `Clear`, copy
assignment and `swap` on list objects that exist, with positions of the list the call is
made on, each ending by a normal return or by `std::bad_alloc`. In the memory reached every
list object `k` is a list: following the next-links from `head_.next_node` passes the nodes
`ns` and ends at `nullptr` (the chain is finite), the addresses of `ns` are pairwise
different (the chain is acyclic), `size_` and `GetSize()` are the number of these nodes,
iteration from `begin()` to `end()` visits exactly their values, and `IsEmpty()` holds
exactly when `begin() == end()`. -/
theorem size_invariant [Inhabited α] (budget : Nat) (hb : budget < SIZE_MOD) (m : Mem α)
    (hreach : Reachable budget m) (k : Nat) (hk : k < m.lists.length) :
    ∃ L ns, m.lists[k]? = some L ∧ Seg m L.head_.next_node ns .nullptr ∧
      L.size_ = ns.length ∧ (addrs ns).Nodup ∧ IsList m k ns ∧
      GetSize m k = some ns.length ∧ elements m k = .ok (values ns) ∧
      ∃ e it, IsEmpty m k = some e ∧ begin m k = some it ∧
        (e = true ↔ it.eq end_ = true) := by
  obtain ⟨_, own, hl, _⟩ := Reachable_invariant hb hreach
  have hlist := hl k hk
  obtain ⟨L, hL, hseg, hsize, hlt⟩ := hlist
  exact ⟨L, own k, hL, hseg, hsize, Seg_null_nodup hseg, hl k hk, GetSize_of_IsList (hl k hk),
    elements_of_IsList (hl k hk), IsEmpty_iff_begin_eq_end (hl k hk)⟩

theorem size_invariant_witness :
    ((10 : Nat) < SIZE_MOD ∧ Reachable 10 mem_run5 ∧ 0 < mem_run5.lists.length) ∧
    ∃ L ns, mem_run5.lists[0]? = some L ∧ Seg mem_run5 L.head_.next_node ns .nullptr ∧
      L.size_ = ns.length ∧ (addrs ns).Nodup ∧ IsList mem_run5 0 ns ∧
      GetSize mem_run5 0 = some ns.length ∧ elements mem_run5 0 = .ok (values ns) ∧
      ∃ e it, IsEmpty mem_run5 0 = some e ∧ begin mem_run5 0 = some it ∧
        (e = true ↔ it.eq end_ = true) :=
  ⟨⟨by decide, reachable_mem_run5, by decide⟩,
    size_invariant 10 (by decide) mem_run5 reachable_mem_run5 0 (by decide)⟩


end CppSingleLinkedList
